import Mathlib

/-! # Split-ordered hash table (`core/include/splitordered/hashtable.h`)

A shallow embedding of `splitordered::doubling_list` and
`splitordered::hash_table` for single-threaded execution, followed by the
properties established about them.

Conventions of the embedding.

* Unsigned machine integers are natural numbers reduced modulo `2 ^ 32` or
  `2 ^ 64` where the source computes in `uint32_t` or `uint64_t`/`size_t`.
* A call that leaves defined behaviour returns `Except.error` with the kind
  of `Fault`; a call that returns normally gives `Except.ok`.
* Atomic operations are their sequential meaning, except that the weak
  compare-and-swap of `double_size` may fail on the expected value: whether
  it does is given by the `environment` of the call.
* An array `new T[n]` is not initialised by the source: its slots hold the
  words the `environment` of the call gives them.
* The split-ordered list is the Lean list of the nodes reached from bucket
  0's dummy by following `next`; a node carries its address, so that bucket
  slots can point to it.
-/

namespace splitordered

/-! ## Faults -/

/-- The ways in which a call can leave defined behaviour. -/
inductive Fault where
  /-- A slot at or beyond the capacity of its segment, or a segment pointer
  beyond the 32 entries of the segment array, was addressed. -/
  | out_of_bounds
  /-- A segment pointer that is still `NULL` was dereferenced. -/
  | null_segment
  /-- The shift `0x01 << k`, computed in 32-bit `int`, overflowed. -/
  | shift_overflow
  /-- A marked pointer that addresses no node of the list was followed. -/
  | bad_pointer
  /-- A list operation was started from a node whose key is not below the
  key operated on, so that it would write to the bucket slot itself. -/
  | head_not_below
  /-- An `assert` failed. -/
  | assertion
  /-- The loop in `initialize_bucket` that waits for another thread to publish
  the bucket does not end. -/
  | spin
  /-- The recursion of `initialize_bucket` does not end. -/
  | unbounded_recursion
  deriving DecidableEq, Repr

deriving instance DecidableEq for Except

/-! ## Declarations taken from `defs.h`, `utils.h` and `listops.h` -/

/-- Modelled from the spec: `marked_ptr_t` (declared in `defs.h`, which is not
among the sources): a pointer to a node with a one-bit logical-deletion mark
in its low bit. -/
abbrev marked_ptr_t := Nat

/-- Modelled from the spec: the sentinel `UNINITIALIZED` (`defs.h`), distinct
from every pointer to a node; it is also the `next` of a node without
successor. -/
def UNINITIALIZED : marked_ptr_t := 0

/-- Modelled from the spec: `CONSTRUCT(mark, ptr)` (`defs.h`): the pointer
with its low bit replaced by the mark. -/
def CONSTRUCT (mark : Nat) (ptr : Nat) : marked_ptr_t := 2 * (ptr / 2) + mark % 2

/-- Modelled from the spec: `PTR_OF(x)` (`defs.h`): the pointer without its
mark bit. -/
def PTR_OF (x : marked_ptr_t) : Nat := 2 * (x / 2)

/-- Modelled from the spec: `MARK_OF(x)` (`defs.h`): the low bit. -/
def MARK_OF (x : marked_ptr_t) : Nat := x % 2

/-- Modelled from the spec: `MSB` (`defs.h`), the most significant bit of a
64-bit word. -/
def MSB : Nat := 2 ^ 63

/-- Reversal of the low `n` bits of `x`. -/
def reverse_bits : Nat → Nat → Nat
  | 0, _ => 0
  | n + 1, x => (x % 2) * 2 ^ n + reverse_bits n (x / 2)

/-- Modelled from the spec: `REVERSE(x)` (`defs.h`), the reversal of the 64
bits of `x`. -/
def REVERSE (x : Nat) : Nat := reverse_bits 64 x

/-- The number of halvings that take `x` below 2, at most `w` of them. -/
def highest_bit_from : Nat → Nat → Nat
  | 0, _ => 0
  | w + 1, x => if x < 2 then 0 else highest_bit_from w (x / 2) + 1

/-- Modelled from the spec: `slog::bit_utils::highest_bit` (`utils.h`, not
among the sources): the position of the highest set bit of a 32-bit word,
`floor(log2 x)`. -/
def highest_bit (x : Nat) : Nat := highest_bit_from 32 x

/-- Modelled from the spec: the macro `rot(x, k)` (not among the sources) of
the scrambling function, the rotation of a 32-bit word to the left by `k`
bits as in the mixer the source cites. -/
def rot (x k : Nat) : Nat := ((x <<< k) % 2 ^ 32) ||| (x >>> (32 - k))

/-- Modelled from the spec: `hash_entry<data_type>` (`listops.h`): a node of
the split-ordered list.  `addr` is the address of the node; its `next` field
is given by the position of the node in the list of the table. -/
structure hash_entry (V : Type) where
  addr : Nat
  key : Nat
  value : V
  deriving DecidableEq, Repr

/-- The outcome of `list_ops::insert`. -/
inductive insert_result (V : Type) where
  /-- The node was linked in: the call returns `true`; the new list. -/
  | inserted (nodes : List (hash_entry V))
  /-- A node with the same key exists: the call returns `false` and hands
  out the pointer to that node. -/
  | collides (cur : marked_ptr_t)
  deriving DecidableEq, Repr

namespace list_ops

/-- The window search beyond the head node: `none` when a node with the key
of `node` is met (with the pointer to it), else the list with `node` in
front of the first node whose key is larger. -/
def walk_insert {V : Type} (node : hash_entry V) :
    List (hash_entry V) → insert_result V
  | [] => .inserted [node]
  | cur :: rest =>
    if cur.key < node.key then
      match walk_insert node rest with
      | .inserted l => .inserted (cur :: l)
      | .collides p => .collides p
    else if cur.key = node.key then .collides (CONSTRUCT 0 cur.addr)
    else .inserted (node :: cur :: rest)

/-- The window search of `find` beyond the head node: it stops at the first
node whose key is at least `key`. -/
def walk_find {V : Type} (key : Nat) : List (hash_entry V) → Option V
  | [] => none
  | cur :: rest =>
    if cur.key < key then walk_find key rest
    else if cur.key = key then some cur.value else none

/-- The window search of `remove` beyond the head node: the list without the
node that has the key, `none` when there is no such node. -/
def walk_remove {V : Type} (key : Nat) : List (hash_entry V) → Option (List (hash_entry V))
  | [] => none
  | cur :: rest =>
    if cur.key < key then (walk_remove key rest).map (fun l => cur :: l)
    else if cur.key = key then some rest else none

/-- Modelled from the spec: `list_ops::insert(head, node, &cur)` (`listops.h`,
not among the sources): walks from the node `*head` points to, stops at the
first node whose key is at least the key of `node`, and links `node` in front
of it unless the keys are equal. -/
def insert {V : Type} (nodes : List (hash_entry V)) (head : marked_ptr_t)
    (node : hash_entry V) : Except Fault (insert_result V) :=
  match nodes.dropWhile (fun e => e.addr != PTR_OF head) with
  | [] => .error .bad_pointer
  | first :: rest =>
    if first.key < node.key then
      match walk_insert node rest with
      | .inserted l =>
        .ok (.inserted (nodes.takeWhile (fun e => e.addr != PTR_OF head) ++ first :: l))
      | .collides p => .ok (.collides p)
    else if first.key = node.key then .ok (.collides (CONSTRUCT 0 first.addr))
    else .error .head_not_below

/-- Modelled from the spec: `list_ops::find(head, key, value, ...)`
(`listops.h`): `some v` when the call returns `true` and writes `v`, `none`
when it returns `false`. -/
def find {V : Type} (nodes : List (hash_entry V)) (head : marked_ptr_t)
    (key : Nat) : Except Fault (Option V) :=
  match nodes.dropWhile (fun e => e.addr != PTR_OF head) with
  | [] => .error .bad_pointer
  | first :: rest => .ok (walk_find key (first :: rest))

/-- Modelled from the spec: `list_ops::remove(head, key)` (`listops.h`): the
list without the node of that key when the call returns `true`, `none` when
it returns `false`. -/
def remove {V : Type} (nodes : List (hash_entry V)) (head : marked_ptr_t)
    (key : Nat) : Except Fault (Option (List (hash_entry V))) :=
  match nodes.dropWhile (fun e => e.addr != PTR_OF head) with
  | [] => .error .bad_pointer
  | first :: rest =>
    if first.key < key then
      .ok ((walk_remove key rest).map
        (fun l => nodes.takeWhile (fun e => e.addr != PTR_OF head) ++ first :: l))
    else if first.key = key then .error .head_not_below
    else .ok none

end list_ops

/-! ## `doubling_list<marked_ptr_t>` -/

/-- What a call takes from the environment it runs in: the words the blocks
it allocates hold, and the outcome of its weak compare-and-swap. -/
structure environment where
  /-- The words of the slots the call allocates with `new T[n]`, in the order
  of allocation: the expression has no initialiser and the source writes no
  slot afterwards, so a slot holds the word its block held before. -/
  fresh : Nat → marked_ptr_t
  /-- Whether `std::atomic_compare_exchange_weak` succeeds when the cell holds
  the expected value; the weak form may fail then. -/
  cas : Bool

namespace environment

/-- An environment whose blocks hold `UNINITIALIZED` words and whose
compare-and-swap does not fail on the expected value. -/
def clean : environment := { fresh := fun _ => UNINITIALIZED, cas := true }

/-- The blocks the call allocates hold `UNINITIALIZED` words. -/
def zeroed (env : environment) : Prop := ∀ j, env.fresh j = UNINITIALIZED

/-- Every environment. -/
def any (_ : environment) : Prop := True

/-- An environment whose blocks hold the word `w` in every slot and whose
compare-and-swap does not fail on the expected value. -/
def stale (w : marked_ptr_t) : environment := { fresh := fun _ => w, cas := true }

/-- An environment whose blocks hold `UNINITIALIZED` words and whose
compare-and-swap fails on the expected value. -/
def spurious : environment := { fresh := fun _ => UNINITIALIZED, cas := false }

end environment

/-- The array `new T[n]` for `T = marked_ptr_t` as the source writes it,
without an initialiser: nothing is written to the slots, and slot `j` holds
the word `fresh j` that the allocated block held before. -/
def new_array_on (fresh : Nat → marked_ptr_t) (n : Nat) : List marked_ptr_t :=
  (List.range n).map fresh

/-- The value of `0x01 << k` and of `1 << k`: the shift is computed in 32-bit
`int`, so a shift by 31 or more leaves the range of the type. -/
def shl_int (k : Nat) : Except Fault Nat :=
  if k < 31 then .ok (2 ^ k) else .error .shift_overflow

/-- The value of `n - 1` computed in `uint32_t`: it wraps to `2 ^ 32 - 1` at
`n = 0`. -/
def pred_u32 (n : Nat) : Nat := if n = 0 then 2 ^ 32 - 1 else n - 1

/-- State of a `doubling_list`: the counter `num_populated_buckets_` and the
array `buckets_` of 32 segment pointers, `none` for `NULL` and `some seg`
for a pointer to a segment with `seg.length` slots. -/
structure doubling_list where
  num_populated_buckets_ : Nat
  buckets_ : List (Option (List marked_ptr_t))
  deriving DecidableEq, Repr

namespace doubling_list

/-- The constructor `doubling_list()`: it stores the two segment pointers and
the counter and writes no slot; the slot of the first block holds the word
`env.fresh 0` and the slot of the second the word `env.fresh 1`. -/
def new (env : environment) : doubling_list :=
  { num_populated_buckets_ := 2
    buckets_ := ((List.replicate 32 none).set 0 (some (new_array_on env.fresh 1))).set 1
      (some (new_array_on (fun j => env.fresh (j + 1)) 1)) }

/-- The address computation of `operator[](uint32_t i)`: the pair
`(bucket_idx, bucket_off)`. -/
def locate (i : Nat) : Except Fault (Nat × Nat) := do
  let pos := (i % 2 ^ 32 + 1) % 2 ^ 32
  let bucket_idx := highest_bit pos
  let bit ← shl_int bucket_idx
  let bucket_off := pos ^^^ (bit % 2 ^ 32)
  pure (bucket_idx, bucket_off)

/-- Reading the slot `buckets_[bucket_idx][bucket_off]`. -/
def cell (dl : doubling_list) (bucket_idx bucket_off : Nat) : Except Fault marked_ptr_t :=
  match dl.buckets_[bucket_idx]? with
  | none => .error .out_of_bounds
  | some none => .error .null_segment
  | some (some seg) =>
    match seg[bucket_off]? with
    | none => .error .out_of_bounds
    | some v => .ok v

/-- Writing the slot `buckets_[bucket_idx][bucket_off]`. -/
def set_cell (dl : doubling_list) (bucket_idx bucket_off : Nat) (v : marked_ptr_t) :
    Except Fault doubling_list :=
  match dl.buckets_[bucket_idx]? with
  | none => .error .out_of_bounds
  | some none => .error .null_segment
  | some (some seg) =>
    if bucket_off < seg.length then
      .ok { dl with buckets_ := dl.buckets_.set bucket_idx (some (seg.set bucket_off v)) }
    else .error .out_of_bounds

/-- Reading through the reference `operator[](i)` returns. -/
def load (dl : doubling_list) (i : Nat) : Except Fault marked_ptr_t := do
  let (bucket_idx, bucket_off) ← locate i
  dl.cell bucket_idx bucket_off

/-- Writing through the reference `operator[](i)` returns. -/
def store (dl : doubling_list) (i : Nat) (v : marked_ptr_t) : Except Fault doubling_list := do
  let (bucket_idx, bucket_off) ← locate i
  dl.set_cell bucket_idx bucket_off v

/-- The method `size()`. -/
def size (dl : doubling_list) : Except Fault Nat :=
  shl_int (pred_u32 dl.num_populated_buckets_)

/-- The method `double_size(expected_size)`: the returned size and the new
state.  The weak compare-and-swap on `buckets_[n]` fails when the cell is not
`NULL`, and may fail when it is (`env.cas` is `false`); the new bucket is then
deleted and the counter left as it is. -/
def double_size (env : environment) (dl : doubling_list) (expected_size : Nat) :
    Except Fault (Nat × doubling_list) := do
  let n := dl.num_populated_buckets_
  let s ← shl_int (pred_u32 n)
  if expected_size = s then
    let new_bucket := new_array_on env.fresh s
    match dl.buckets_[n]? with
    | none => .error .out_of_bounds
    | some none =>
      if env.cas then
        let dl1 : doubling_list :=
          { num_populated_buckets_ := (n + 1) % 2 ^ 32
            buckets_ := dl.buckets_.set n (some new_bucket) }
        let sz ← dl1.size
        pure (sz, dl1)
      else
        let sz ← dl.size
        pure (sz, dl)
    | some (some _) =>
      let sz ← dl.size
      pure (sz, dl)
  else
    let sz ← dl.size
    pure (sz, dl)

/-- The capacity with which segment `j` is allocated: `new T[1]` for the
segments 0 and 1 of the constructor, `new T[s]` with `s = 2 ^ (j - 1)` for the
segment `double_size` publishes at index `j`. -/
def capacity (j : Nat) : Nat := if j ≤ 1 then 1 else 2 ^ (j - 1)

/-- The states reached from the constructor by `double_size` calls and by
writes through `operator[]`. -/
inductive reachable : doubling_list → Prop where
  | new {env : environment} : reachable (doubling_list.new env)
  | store {dl dl1 : doubling_list} {i : Nat} {v : marked_ptr_t} :
    reachable dl → dl.store i v = .ok dl1 → reachable dl1
  | double_size {env : environment} {dl dl1 : doubling_list} {expected_size r : Nat} :
    reachable dl → dl.double_size env expected_size = .ok (r, dl1) → reachable dl1

/-- The list after `k` calls `double_size(size())` on a freshly constructed
list, in the environment `environment.clean`; a call that does not return
leaves the list as it is. -/
def grown : Nat → doubling_list
  | 0 => doubling_list.new environment.clean
  | k + 1 =>
    match (grown k).double_size environment.clean
        (2 ^ ((grown k).num_populated_buckets_ - 1)) with
    | .ok (_, dl) => dl
    | .error _ => grown k

/-- The shape of the reachable states: between 2 and 31 populated segments,
each with its allocated capacity, and `NULL` beyond them. -/
structure wf (dl : doubling_list) : Prop where
  two_le : 2 ≤ dl.num_populated_buckets_
  le : dl.num_populated_buckets_ ≤ 31
  len : dl.buckets_.length = 32
  pub : ∀ j, j < dl.num_populated_buckets_ →
    ∃ seg, dl.buckets_[j]? = some (some seg) ∧ seg.length = capacity j
  unpub : ∀ j, dl.num_populated_buckets_ ≤ j → j < 32 → dl.buckets_[j]? = some none

end doubling_list

/-! ## `hash_table<data_type>` -/

/-- The constant `hash_table::MAX_LOAD`. -/
def MAX_LOAD : Nat := 4

/-- The method `get_parent`. -/
def get_parent (bucket : Nat) : Nat :=
  let t := bucket
  let t := t ||| (t >>> 1)
  let t := t ||| (t >>> 2)
  let t := t ||| (t >>> 4)
  let t := t ||| (t >>> 8)
  let t := t ||| (t >>> 16)
  let t := t ||| (t >>> 32)
  bucket &&& (t >>> 1)

/-- The method `regularkey`. -/
def regularkey (key : Nat) : Nat := REVERSE (key ||| MSB)

/-- The method `dummykey`. -/
def dummykey (key : Nat) : Nat := REVERSE key

/-- Subtraction of 32-bit unsigned words. -/
def sub32 (x y : Nat) : Nat := (x + 2 ^ 32 - y % 2 ^ 32) % 2 ^ 32

/-- The method `hashword`; `k.b[i]` is byte `i` of the key, the lowest byte
first. -/
def hashword (key : Nat) : Nat :=
  let kb : Nat → Nat := fun i => (key >>> (8 * i)) % 256
  let a := (0x32533d0c + 8) % 2 ^ 32
  let b := a
  let c := a
  let c := (c + 47) % 2 ^ 32
  let b := (b + (kb 7 <<< 24)) % 2 ^ 32
  let b := (b + (kb 6 <<< 16)) % 2 ^ 32
  let b := (b + (kb 5 <<< 8)) % 2 ^ 32
  let b := (b + kb 4) % 2 ^ 32
  let a := (a + (kb 3 <<< 24)) % 2 ^ 32
  let a := (a + (kb 2 <<< 16)) % 2 ^ 32
  let a := (a + (kb 1 <<< 8)) % 2 ^ 32
  let a := (a + kb 0) % 2 ^ 32
  let c := c ^^^ b
  let c := sub32 c (rot b 14)
  let a := a ^^^ c
  let a := sub32 a (rot c 11)
  let b := b ^^^ a
  let b := sub32 b (rot a 25)
  let c := c ^^^ b
  let c := sub32 c (rot b 16)
  let a := a ^^^ c
  let a := sub32 a (rot c 4)
  let b := b ^^^ a
  let b := sub32 b (rot a 14)
  let c := c ^^^ b
  let c := sub32 c (rot b 24)
  (c + (b <<< 32)) % 2 ^ 63

/-- State of a `hash_table`: the members `buckets_` and `count`, the
split-ordered list (the nodes linked from bucket 0's dummy, in order), and
the address the next `new hash_entry` returns. -/
structure hash_table (V : Type) where
  buckets_ : doubling_list
  count : Int
  nodes : List (hash_entry V)
  brk : Nat
  deriving DecidableEq

/-- The value of an `int64_t` converted to `size_t`. -/
def to_size_t (x : Int) : Nat := (x % 2 ^ 64).toNat

namespace hash_table

/-- The constructor `hash_table()`: `new hash_entry<data_type>()` is a node
with key 0 and no successor. -/
def new (V : Type) [Inhabited V] (env : environment) : Except Fault (hash_table V) := do
  let dummy : hash_entry V := { addr := 2, key := 0, value := default }
  let buckets ← (doubling_list.new env).store 0 (CONSTRUCT 0 dummy.addr)
  pure { buckets_ := buckets, count := 0, nodes := [dummy], brk := 4 }

/-- The method `initialize_bucket`.  The first argument bounds the depth of
the recursion: `get_parent` clears a bit of the 64-bit bucket index, so a
depth of more than 64 is reached only when bucket 0 calls itself, which the
source then does without end. -/
def initialize_bucket {V : Type} [Inhabited V] :
    Nat → hash_table V → Nat → Except Fault (hash_table V)
  | 0, _, _ => .error .unbounded_recursion
  | depth + 1, t, bucket => do
    let parent := get_parent bucket
    let p ← t.buckets_.load parent
    let t ← if p = UNINITIALIZED then initialize_bucket depth t parent else pure t
    let dummy : hash_entry V := { addr := t.brk, key := dummykey bucket, value := default }
    let t := { t with brk := t.brk + 2 }
    let head ← t.buckets_.load parent
    match ← list_ops.insert t.nodes head dummy with
    | .collides cur =>
      let b ← t.buckets_.load bucket
      if b = CONSTRUCT 0 (PTR_OF cur) then pure t else .error .spin
    | .inserted nodes =>
      let buckets ← t.buckets_.store bucket (CONSTRUCT 0 dummy.addr)
      pure { t with nodes := nodes, buckets_ := buckets }

/-- The method `put`. -/
def put {V : Type} [Inhabited V] (t : hash_table V) (env : environment) (key : Nat)
    (value : V) : Except Fault (Bool × hash_table V) := do
  let addr := t.brk
  let t := { t with brk := t.brk + 2 }
  let lkey := hashword (key % 2 ^ 64)
  let sz ← t.buckets_.size
  let bucket := lkey % sz
  if lkey &&& MSB ≠ 0 then .error .assertion else
  let node : hash_entry V := { addr := addr, key := regularkey lkey, value := value }
  let b ← t.buckets_.load bucket
  let t ← if b = UNINITIALIZED then initialize_bucket 65 t bucket else pure t
  let head ← t.buckets_.load bucket
  match ← list_ops.insert t.nodes head node with
  | .collides _ => pure (false, t)
  | .inserted nodes =>
    let csize ← t.buckets_.size
    let fetched := t.count
    let t := { t with nodes := nodes, count := t.count + 1 }
    if to_size_t fetched / csize > MAX_LOAD then
      let (dsize, buckets) ← t.buckets_.double_size env csize
      if dsize ≥ (csize * 2) % 2 ^ 64 then pure (true, { t with buckets_ := buckets })
      else .error .assertion
    else pure (true, t)

/-- The method `get`: `some v` when it returns `true` and writes `v` to
`*value`, `none` when it returns `false`. -/
def get {V : Type} [Inhabited V] (t : hash_table V) (key : Nat) :
    Except Fault (Option V × hash_table V) := do
  let lkey := hashword (key % 2 ^ 64)
  let sz ← t.buckets_.size
  let bucket := lkey % sz
  let b ← t.buckets_.load bucket
  let t ← if b = UNINITIALIZED then initialize_bucket 65 t bucket else pure t
  let head ← t.buckets_.load bucket
  let r ← list_ops.find t.nodes head (regularkey lkey)
  pure (r, t)

/-- The method `remove`. -/
def remove {V : Type} [Inhabited V] (t : hash_table V) (key : Nat) :
    Except Fault (Bool × hash_table V) := do
  let lkey := hashword (key % 2 ^ 64)
  let sz ← t.buckets_.size
  let bucket := lkey % sz
  let b ← t.buckets_.load bucket
  let t ← if b = UNINITIALIZED then initialize_bucket 65 t bucket else pure t
  let head ← t.buckets_.load bucket
  match ← list_ops.remove t.nodes head (regularkey lkey) with
  | none => pure (false, t)
  | some nodes => pure (true, { t with nodes := nodes, count := t.count + -1 })

end hash_table

/-! ## Calls, runs and the reference map -/

/-- A call of one of the three operations of the table. -/
inductive call (V : Type) where
  | put (key : Nat) (value : V)
  | get (key : Nat)
  | remove (key : Nat)
  deriving DecidableEq, Repr

/-- The result of a call: the returned `bool`, and for `get` the value
written on a hit. -/
inductive answer (V : Type) where
  | put (r : Bool)
  | get (r : Option V)
  | remove (r : Bool)
  deriving DecidableEq, Repr

namespace call

/-- The key of a call. -/
def key {V : Type} : call V → Nat
  | .put k _ => k
  | .get k => k
  | .remove k => k

/-- The call with its key replaced by the scrambled key `hashword key`. -/
def scrambled {V : Type} : call V → call V
  | .put k v => .put (hashword (k % 2 ^ 64)) v
  | .get k => .get (hashword (k % 2 ^ 64))
  | .remove k => .remove (hashword (k % 2 ^ 64))

end call

namespace hash_table

/-- One call on the table, in the environment `env`. -/
def step {V : Type} [Inhabited V] (t : hash_table V) (env : environment) :
    call V → Except Fault (answer V × hash_table V)
  | .put k v => do
    let (r, t1) ← t.put env k v
    pure (.put r, t1)
  | .get k => do
    let (r, t1) ← t.get k
    pure (.get r, t1)
  | .remove k => do
    let (r, t1) ← t.remove k
    pure (.remove r, t1)

/-- A sequence of calls on the table, each in its environment: the results
and the final state. -/
def run {V : Type} [Inhabited V] (t : hash_table V) :
    List (environment × call V) → Except Fault (List (answer V) × hash_table V)
  | [] => pure ([], t)
  | (env, c) :: cs => do
    let (a, t1) ← t.step env c
    let (as, t2) ← t1.run cs
    pure (a :: as, t2)

/-- A sequence of calls on a table freshly constructed in the environment
`env`. -/
def run_new (V : Type) [Inhabited V] (env : environment) (cs : List (environment × call V)) :
    Except Fault (List (answer V) × hash_table V) := do
  let t ← hash_table.new V env
  t.run cs

/-- The state a sequence of calls leaves a freshly constructed table in; the
state before construction stands for a sequence that does not return. -/
def after (V : Type) [Inhabited V] (env : environment) (cs : List (environment × call V)) :
    hash_table V :=
  match run_new V env cs with
  | .ok (_, t) => t
  | .error _ => { buckets_ := doubling_list.new env, count := 0, nodes := [], brk := 0 }

/-- The states reached from a freshly constructed table by calls that
return, in environments that satisfy `ok`. -/
inductive reachable {V : Type} [Inhabited V] (ok : environment → Prop) :
    hash_table V → Prop where
  | new {env : environment} {t : hash_table V} :
    ok env → hash_table.new V env = .ok t → reachable ok t
  | step {env : environment} {t t1 : hash_table V} {c : call V} {a : answer V} :
    reachable ok t → ok env → t.step env c = .ok (a, t1) → reachable ok t1

/-- The part of `initialize_bucket` that follows the initialisation of the
parent: the dummy is allocated, inserted from the parent and published. -/
def link_dummy {V : Type} [Inhabited V] (t : hash_table V) (bucket parent : Nat) :
    Except Fault (hash_table V) := do
  let dummy : hash_entry V := { addr := t.brk, key := dummykey bucket, value := default }
  let t := { t with brk := t.brk + 2 }
  let head ← t.buckets_.load parent
  match ← list_ops.insert t.nodes head dummy with
  | .collides cur =>
    let b ← t.buckets_.load bucket
    if b = CONSTRUCT 0 (PTR_OF cur) then pure t else .error .spin
  | .inserted nodes =>
    let buckets ← t.buckets_.store bucket (CONSTRUCT 0 dummy.addr)
    pure { t with nodes := nodes, buckets_ := buckets }

/-- The part `put`, `get` and `remove` share: the bucket of the scrambled
key is computed and initialised if needed, and the pointer in its slot is
read. -/
def enter {V : Type} [Inhabited V] (t : hash_table V) (lkey : Nat) :
    Except Fault (hash_table V × marked_ptr_t) := do
  let sz ← t.buckets_.size
  let bucket := lkey % sz
  let b ← t.buckets_.load bucket
  let t ← if b = UNINITIALIZED then initialize_bucket 65 t bucket else pure t
  let head ← t.buckets_.load bucket
  pure (t, head)

/-- The end of `remove`: the result and the state for the outcome of
`list_ops::remove`. -/
def remove_done {V : Type} (t : hash_table V) :
    Option (List (hash_entry V)) → Bool × hash_table V
  | none => (false, t)
  | some nodes => (true, { t with nodes := nodes, count := t.count + -1 })

/-- The end of a successful `put`, after the node is linked in and `count`
is incremented from `fetched`: the load test and the doubling. -/
def grow {V : Type} (env : environment) (t : hash_table V) (fetched : Int) :
    Except Fault (Bool × hash_table V) := do
  let csize ← t.buckets_.size
  if to_size_t fetched / csize > MAX_LOAD then
    let (dsize, buckets) ← t.buckets_.double_size env csize
    if dsize ≥ (csize * 2) % 2 ^ 64 then pure (true, { t with buckets_ := buckets })
    else .error .assertion
  else pure (true, t)

/-- The end of `put`: the result and the state for the outcome of
`list_ops::insert`. -/
def put_done {V : Type} (env : environment) (t : hash_table V) :
    insert_result V → Except Fault (Bool × hash_table V)
  | .collides _ => pure (false, t)
  | .inserted nodes => grow env { t with nodes := nodes, count := t.count + 1 } t.count

/-- Whether the slots `initialize_bucket` reads on its way from `bucket` to
the first initialised ancestor lie inside their segments. -/
def chain_ok (dl : doubling_list) : Nat → Nat → Bool
  | 0, _ => false
  | depth + 1, bucket =>
    match dl.load (get_parent bucket) with
    | .error _ => false
    | .ok p => if p = UNINITIALIZED then chain_ok dl depth (get_parent bucket) else true

/-- Whether the slots a call for the scrambled key `lkey` reads lie inside
their segments, for a recursion of `initialize_bucket` bounded by `depth`. -/
def enter_ok_at (depth : Nat) (dl : doubling_list) (lkey : Nat) : Bool :=
  match dl.size with
  | .error _ => false
  | .ok sz =>
    match dl.load (lkey % sz) with
    | .error _ => false
    | .ok b => if b = UNINITIALIZED then chain_ok dl depth (lkey % sz) else true

/-- Whether the slots a call for the scrambled key `lkey` reads lie inside
their segments. -/
def enter_ok (dl : doubling_list) (lkey : Nat) : Bool := enter_ok_at 65 dl lkey

/-- The content of the table: the value stored under a scrambled key. -/
def content {V : Type} (t : hash_table V) (lkey : Nat) : Option V :=
  list_ops.walk_find (regularkey lkey) t.nodes

/-- The invariant of the states reached when every allocated block holds
`UNINITIALIZED` words. -/
structure Inv {V : Type} (t : hash_table V) : Prop where
  wf : t.buckets_.wf
  sorted : t.nodes.Pairwise (fun a b => a.key < b.key)
  nodup : t.nodes.Pairwise (fun a b => a.addr ≠ b.addr)
  addr : ∀ e ∈ t.nodes, e.addr % 2 = 0 ∧ 0 < e.addr ∧ e.addr < t.brk
  brk_even : t.brk % 2 = 0 ∧ 0 < t.brk
  slot : ∀ i v, i + 1 < 2 ^ 31 → t.buckets_.load i = .ok v → v ≠ UNINITIALIZED →
    i < 2 ^ (t.buckets_.num_populated_buckets_ - 1) ∧
      ∃ e ∈ t.nodes, e.addr = v ∧ e.key = dummykey i
  slot0 : ∃ v, t.buckets_.load 0 = .ok v ∧ v ≠ UNINITIALIZED
  dummies : ∀ e ∈ t.nodes, e.key % 2 = 0 →
    ∃ i, i < 2 ^ (t.buckets_.num_populated_buckets_ - 1) ∧ e.key = dummykey i ∧
      t.buckets_.load i = .ok e.addr
  count : t.count = ((t.nodes.countP (fun e => e.key % 2 == 1) : Nat) : Int)
  load_le : t.count ≤ 5 * 2 ^ (t.buckets_.num_populated_buckets_ - 1)

/-- The part of the invariant that holds of the states reached in every
environment, whatever words the allocated blocks hold. -/
structure base_Inv {V : Type} (t : hash_table V) : Prop where
  wf : t.buckets_.wf
  brk_even : t.brk % 2 = 0 ∧ 0 < t.brk
  addr : ∀ e ∈ t.nodes, e.addr % 2 = 0 ∧ 0 < e.addr
  dummies : ∀ e ∈ t.nodes, e.key % 2 = 0 →
    ∃ i, i < 2 ^ (t.buckets_.num_populated_buckets_ - 1) ∧ e.key = dummykey i ∧
      t.buckets_.load i = .ok e.addr
  regulars : ∀ e ∈ t.nodes, e.key % 2 = 1 → ∃ h, h < 2 ^ 63 ∧ e.key = regularkey h
  count : t.count = ((t.nodes.countP (fun e => e.key % 2 == 1) : Nat) : Int)
  load_le : t.count ≤ 5 * 2 ^ (t.buckets_.num_populated_buckets_ - 1)

end hash_table

/-! The reference map of the specification: keys bound to values. -/

namespace reference

/-- Modelled from the spec: one call on the reference map: `put` binds an
unbound key and returns `true`, and returns `false` on a bound key; `get`
returns the bound value; `remove` unbinds a bound key and returns `true`, and
returns `false` on an unbound key. -/
def step {V : Type} (m : Nat → Option V) : call V → answer V × (Nat → Option V)
  | .put k v =>
    match m k with
    | none => (.put true, fun x => if x = k then some v else m x)
    | some _ => (.put false, m)
  | .get k => (.get (m k), m)
  | .remove k =>
    match m k with
    | some _ => (.remove true, fun x => if x = k then none else m x)
    | none => (.remove false, m)

/-- Modelled from the spec: a sequence of calls on the reference map, the
results. -/
def run {V : Type} (m : Nat → Option V) : List (call V) → List (answer V)
  | [] => []
  | c :: cs => (step m c).1 :: run (step m c).2 cs

/-- Modelled from the spec: the reference map without bindings. -/
def empty (V : Type) : Nat → Option V := fun _ => none

end reference

/-! ## Sample inputs -/

/-- The calls of a list, each in the environment `env`. -/
def in_env {V : Type} (env : environment) (cs : List (call V)) : List (environment × call V) :=
  cs.map (fun c => (env, c))

/-- A sequence of calls on a freshly constructed table, the constructor and
every call in the environment `environment.clean`. -/
def clean_run (V : Type) [Inhabited V] (cs : List (call V)) :
    Except Fault (List (answer V) × hash_table V) :=
  hash_table.run_new V environment.clean (in_env environment.clean cs)

/-- The state a sequence of calls leaves a freshly constructed table in, the
constructor and every call in the environment `environment.clean`. -/
def clean_after (V : Type) [Inhabited V] (cs : List (call V)) : hash_table V :=
  hash_table.after V environment.clean (in_env environment.clean cs)

/-- The calls `put(k, k)` for the keys of a list. -/
def puts (ks : List Nat) : List (call Nat) := ks.map (fun k => call.put k k)

/-- A key with the scrambled key of the key 1. -/
def collider : Nat := 1754534505066088654

/-- A sequence of calls on two keys with the same scrambled key and on a
third key. -/
def mixed_calls : List (call Nat) :=
  [.put 1 10, .put collider 20, .get 1, .get collider, .remove collider, .get 1,
    .put 2 5, .get 2, .remove 7]

/-- Keys whose puts on a fresh table all return `true` and double the table
three times, to size 16. -/
def grow_keys : List Nat :=
  [1, 2, 3, 4, 5, 6, 7, 8, 9, 10, 11, 13, 14, 15, 17, 18, 19, 21, 23, 24, 25, 26, 28, 29, 32,
    33, 34, 35, 40, 43, 44, 49, 50, 51, 52, 53, 54, 57, 62, 67, 69]

namespace doubling_list

/-! ## `double_size` under interleaving -/

/-- Program points of a thread that runs `double_size(expected_size)`,
between its atomic accesses to `num_populated_buckets_` and `buckets_[n]`. -/
inductive pc where
  /-- Before `num_populated_buckets_.load()`. -/
  | start
  /-- The counter `n` is loaded; before the comparison with `expected_size`,
  the allocation and the compare-and-swap on `buckets_[n]`. -/
  | loaded (n : Nat)
  /-- The compare-and-swap succeeded; before `fetch_add(1)`. -/
  | won
  /-- After `fetch_add(1)`; before `size()`. -/
  | added
  /-- The compare-and-swap failed and `new_bucket` is deleted; before
  `size()`. -/
  | lost
  /-- The size was not `expected_size`; before `size()`. -/
  | skipped
  /-- The call returned `dsize`. -/
  | returned (dsize : Nat)
  deriving DecidableEq, Repr

/-- One atomic step of a thread in `double_size(expected_size)` on the shared
list, in the environment `env` of the thread. -/
def thread_step (env : environment) (expected_size : Nat) (dl : doubling_list) :
    pc → Except Fault (doubling_list × pc)
  | .start => .ok (dl, .loaded dl.num_populated_buckets_)
  | .loaded n => do
    let s ← shl_int (pred_u32 n)
    if expected_size = s then
      match dl.buckets_[n]? with
      | none => .error .out_of_bounds
      | some none =>
        if env.cas then
          .ok ({ dl with buckets_ := dl.buckets_.set n (some (new_array_on env.fresh s)) }, .won)
        else .ok (dl, .lost)
      | some (some _) => .ok (dl, .lost)
    else .ok (dl, .skipped)
  | .won =>
    .ok ({ dl with num_populated_buckets_ := (dl.num_populated_buckets_ + 1) % 2 ^ 32 }, .added)
  | .added => do
    let sz ← dl.size
    .ok (dl, .returned sz)
  | .lost => do
    let sz ← dl.size
    .ok (dl, .returned sz)
  | .skipped => do
    let sz ← dl.size
    .ok (dl, .returned sz)
  | .returned dsize => .ok (dl, .returned dsize)

/-- A thread that runs `double_size(expected_size)` alone: `fuel` steps from
the program point `p`. -/
def run_alone (env : environment) (expected_size : Nat) :
    Nat → doubling_list → pc → Except Fault (doubling_list × pc)
  | 0, dl, p => .ok (dl, p)
  | fuel + 1, dl, p => do
    let (dl1, p1) ← thread_step env expected_size dl p
    run_alone env expected_size fuel dl1 p1

/-- Two threads in `double_size`, the first with `expected_a` in the
environment `env_a` and the second with `expected_b` in `env_b`, under a
schedule: `true` lets the first thread take its next atomic step, `false` the
second. -/
def interleave (env_a env_b : environment) (expected_a expected_b : Nat) :
    doubling_list × pc × pc → List Bool → Except Fault (doubling_list × pc × pc)
  | st, [] => .ok st
  | (dl, a, b), true :: sched => do
    let (dl1, a1) ← thread_step env_a expected_a dl a
    interleave env_a env_b expected_a expected_b (dl1, a1, b) sched
  | (dl, a, b), false :: sched => do
    let (dl1, b1) ← thread_step env_b expected_b dl b
    interleave env_a env_b expected_a expected_b (dl1, a, b1) sched

end doubling_list

/-- The condition of `assert(dsize >= csize * 2)` in `put`. -/
def put_assertion (csize dsize : Nat) : Bool := decide (dsize ≥ (csize * 2) % 2 ^ 64)

end splitordered

/-! ## Bit reversal, split-ordered keys and `get_parent` -/

namespace splitordered

/-! ## Bit reversal, highest bit and parent bucket -/

theorem bind_ok {ε α β : Type} (a : α) (f : α → Except ε β) :
    (Except.ok a >>= f) = f a := rfl

theorem bind_error {ε α β : Type} (e : ε) (f : α → Except ε β) :
    ((Except.error e : Except ε α) >>= f) = Except.error e := rfl

theorem pure_eq_ok {ε α : Type} (a : α) : (pure a : Except ε α) = Except.ok a := rfl

theorem bind_eq_ok {ε α β : Type} {x : Except ε α} {f : α → Except ε β} {b : β} :
    (x >>= f) = Except.ok b ↔ ∃ a, x = Except.ok a ∧ f a = Except.ok b := by
  cases x with
  | error e =>
    constructor
    · intro h; cases h
    · rintro ⟨a, h, _⟩; cases h
  | ok a =>
    constructor
    · intro h; exact ⟨a, rfl, h⟩
    · rintro ⟨a1, h, h1⟩
      cases h; exact h1

theorem bind_eq_error {ε α β : Type} {x : Except ε α} {f : α → Except ε β} {e : ε} :
    (x >>= f) = Except.error e ↔
      x = Except.error e ∨ ∃ a, x = Except.ok a ∧ f a = Except.error e := by
  cases x with
  | error e1 =>
    constructor
    · intro h
      change Except.error e1 = Except.error e at h
      injection h with h
      subst h
      exact Or.inl rfl
    · rintro (h | ⟨a, h, _⟩)
      · injection h with h
        subst h
        rfl
      · cases h
  | ok a =>
    constructor
    · intro h; exact Or.inr ⟨a, rfl, h⟩
    · rintro (h | ⟨a1, h, h1⟩)
      · cases h
      · cases h; exact h1

theorem reverse_bits_lt (n x : Nat) : reverse_bits n x < 2 ^ n := by
  induction n generalizing x with
  | zero => simp [reverse_bits]
  | succ n ih =>
    have h1 := ih (x / 2)
    have h2 : x % 2 < 2 := Nat.mod_lt _ (by decide)
    have h3 : x % 2 * 2 ^ n ≤ 1 * 2 ^ n := Nat.mul_le_mul_right _ (by omega)
    simp only [reverse_bits, pow_succ]
    omega

theorem reverse_bits_zero (n : Nat) : reverse_bits n 0 = 0 := by
  induction n with
  | zero => rfl
  | succ n ih => simp [reverse_bits, ih]

theorem reverse_bits_mod_le (n k x : Nat) : reverse_bits n (x % 2 ^ k) ≤ reverse_bits n x := by
  induction n generalizing x k with
  | zero => simp [reverse_bits]
  | succ n ih =>
    cases k with
    | zero =>
      have : x % 2 ^ 0 = 0 := by simp [Nat.mod_one]
      rw [this, reverse_bits_zero]; exact Nat.zero_le _
    | succ k =>
      have h1 : x % 2 ^ (k + 1) % 2 = x % 2 := by
        rw [pow_succ, Nat.mod_mul_left_mod]
      have h2 : x % 2 ^ (k + 1) / 2 = (x / 2) % 2 ^ k := by
        rw [pow_succ, Nat.mul_comm, Nat.mod_mul_right_div_self]
      simp only [reverse_bits, h1, h2]
      have := ih k (x / 2)
      omega

theorem reverse_bits_inj (n x y : Nat) (hx : x < 2 ^ n) (hy : y < 2 ^ n)
    (h : reverse_bits n x = reverse_bits n y) : x = y := by
  induction n generalizing x y with
  | zero => simp at hx hy; omega
  | succ n ih =>
    simp only [reverse_bits] at h
    have hx1 := reverse_bits_lt n (x / 2)
    have hy1 := reverse_bits_lt n (y / 2)
    have hx2 : x % 2 = 0 ∨ x % 2 = 1 := by omega
    have hy2 : y % 2 = 0 ∨ y % 2 = 1 := by omega
    have hxy : x % 2 = y % 2 ∧ reverse_bits n (x / 2) = reverse_bits n (y / 2) := by
      rcases hx2 with a | a <;> rcases hy2 with b | b <;> rw [a, b] at h <;> simp at h <;>
        first | exact ⟨by omega, h⟩ | omega
    have := ih (x / 2) (y / 2) (by rw [pow_succ] at hx; omega) (by rw [pow_succ] at hy; omega) hxy.2
    omega

theorem reverse_bits_succ (n x : Nat) :
    reverse_bits (n + 1) x = 2 * reverse_bits n x + (x / 2 ^ n) % 2 := by
  induction n generalizing x with
  | zero => simp [reverse_bits]
  | succ n ih =>
    rw [reverse_bits, ih (x / 2), reverse_bits]
    have : x / 2 / 2 ^ n = x / 2 ^ (n + 1) := by
      rw [Nat.div_div_eq_div_mul, pow_succ, Nat.mul_comm]
    rw [this, pow_succ]
    ring

theorem REVERSE_mod_two (x : Nat) : REVERSE x % 2 = (x / 2 ^ 63) % 2 := by
  unfold REVERSE
  rw [reverse_bits_succ 63 x]
  omega

theorem REVERSE_inj (x y : Nat) (hx : x < 2 ^ 64) (hy : y < 2 ^ 64) (h : REVERSE x = REVERSE y) :
    x = y := reverse_bits_inj 64 x y hx hy h

theorem dummykey_even (b : Nat) (hb : b < 2 ^ 63) : dummykey b % 2 = 0 := by
  unfold dummykey
  rw [REVERSE_mod_two, Nat.div_eq_of_lt hb]

theorem or_MSB (h : Nat) (hh : h < 2 ^ 63) : h ||| MSB = 2 ^ 63 + h := by
  unfold MSB
  have := Nat.mul_add_lt_is_or hh 1
  rw [Nat.mul_one] at this
  rw [Nat.or_comm]
  exact this.symm

theorem regularkey_odd (h : Nat) (hh : h < 2 ^ 63) : regularkey h % 2 = 1 := by
  unfold regularkey
  rw [REVERSE_mod_two, or_MSB h hh]
  have : (2 ^ 63 + h) / 2 ^ 63 = 1 := by omega
  rw [this]

theorem regularkey_inj (h1 h2 : Nat) (a : h1 < 2 ^ 63) (b : h2 < 2 ^ 63)
    (h : regularkey h1 = regularkey h2) : h1 = h2 := by
  unfold regularkey at h
  rw [or_MSB h1 a, or_MSB h2 b] at h
  have := REVERSE_inj _ _ (by omega) (by omega) h
  omega

/-- The dummy key of the bucket of a scrambled key lies below its regular key. -/
theorem dummykey_lt_regularkey (h k : Nat) (hh : h < 2 ^ 63) (hk : k ≤ 63) :
    dummykey (h % 2 ^ k) < regularkey h := by
  have hodd := regularkey_odd h hh
  have hlt : h % 2 ^ k < 2 ^ 63 := lt_of_le_of_lt (Nat.mod_le _ _) hh
  have heven := dummykey_even (h % 2 ^ k) hlt
  have hp : 2 ^ 63 = 2 ^ k * 2 ^ (63 - k) := by
    rw [← Nat.pow_add, Nat.add_sub_cancel' hk]
  have hm : (2 ^ 63 + h) % 2 ^ k = h % 2 ^ k := by
    rw [hp, Nat.add_comm, Nat.add_mul_mod_self_left]
  have e1 : regularkey h = reverse_bits 64 (2 ^ 63 + h) := by
    unfold regularkey REVERSE
    rw [or_MSB h hh]
  have e2 : dummykey (h % 2 ^ k) = reverse_bits 64 ((2 ^ 63 + h) % 2 ^ k) := by
    unfold dummykey REVERSE
    rw [hm]
  have hle : dummykey (h % 2 ^ k) ≤ regularkey h := by
    rw [e1, e2]
    exact reverse_bits_mod_le 64 k (2 ^ 63 + h)
  omega

theorem highest_bit_from_eq (w s x : Nat) (hs : s ≤ w) (h1 : 2 ^ s ≤ x) (h2 : x < 2 ^ (s + 1)) :
    highest_bit_from w x = s := by
  induction w generalizing s x with
  | zero =>
    have : s = 0 := by omega
    subst this; rfl
  | succ w ih =>
    cases s with
    | zero =>
      simp at h1 h2
      simp [highest_bit_from, h2]
    | succ s =>
      have hx : ¬ x < 2 := by
        have : 1 ≤ 2 ^ s := Nat.one_le_two_pow
        rw [pow_succ] at h1; omega
      have := ih s (x / 2) (by omega) (by rw [pow_succ] at h1; omega)
        (by rw [pow_succ] at h2; omega)
      simp [highest_bit_from, hx, this]

theorem xor_two_pow_of_mem (s x : Nat) (h1 : 2 ^ s ≤ x) (h2 : x < 2 ^ (s + 1)) :
    x ^^^ 2 ^ s = x - 2 ^ s := by
  obtain ⟨r, rfl⟩ : ∃ r, x = 2 ^ s + r := ⟨x - 2 ^ s, by omega⟩
  have hr : r < 2 ^ s := by rw [pow_succ] at h2; omega
  rw [Nat.add_sub_cancel_left]
  apply Nat.eq_of_testBit_eq
  intro j
  rw [Nat.testBit_xor, Nat.testBit_two_pow]
  rcases Nat.lt_trichotomy j s with hj | hj | hj
  · rw [Nat.testBit_two_pow_add_gt hj]
    have : ¬ s = j := by omega
    simp [this]
  · subst hj
    rw [Nat.testBit_two_pow_add_eq, Nat.testBit_lt_two_pow hr]
    simp
  · have hle : 2 ^ (s + 1) ≤ 2 ^ j := Nat.pow_le_pow_right (by decide) hj
    rw [Nat.testBit_lt_two_pow (by omega : 2 ^ s + r < 2 ^ j),
      Nat.testBit_lt_two_pow (by rw [pow_succ] at hle; omega : r < 2 ^ j)]
    have : ¬ s = j := by omega
    simp [this]

theorem smear_step (b m t : Nat)
    (h : ∀ i, t.testBit i = true ↔ ∃ j, i ≤ j ∧ j < i + m ∧ b.testBit j = true) :
    ∀ i, (t ||| (t >>> m)).testBit i = true ↔
      ∃ j, i ≤ j ∧ j < i + (m + m) ∧ b.testBit j = true := by
  intro i
  rw [Nat.testBit_or, Nat.testBit_shiftRight, Bool.or_eq_true, h i, h (m + i)]
  constructor
  · rintro (⟨j, h1, h2, h3⟩ | ⟨j, h1, h2, h3⟩)
    · exact ⟨j, h1, by omega, h3⟩
    · exact ⟨j, by omega, by omega, h3⟩
  · rintro ⟨j, h1, h2, h3⟩
    by_cases hj : j < i + m
    · exact Or.inl ⟨j, h1, hj, h3⟩
    · exact Or.inr ⟨j, by omega, by omega, h3⟩

theorem and_smear_eq (b k t : Nat) (hk : k < 64) (h1 : 2 ^ k ≤ b) (h2 : b < 2 ^ (k + 1))
    (ht : ∀ i, t.testBit i = true ↔ ∃ j, i ≤ j ∧ j < i + 64 ∧ b.testBit j = true) :
    b &&& (t >>> 1) = b % 2 ^ k := by
  have hbk : b.testBit k = true := by
    obtain ⟨r, rfl⟩ : ∃ r, b = 2 ^ k + r := ⟨b - 2 ^ k, by omega⟩
    have hr : r < 2 ^ k := by rw [pow_succ] at h2; omega
    rw [Nat.testBit_two_pow_add_eq, Nat.testBit_lt_two_pow hr]; rfl
  have hhi : ∀ j, k < j → b.testBit j = false := by
    intro j hj
    apply Nat.testBit_lt_two_pow
    have : 2 ^ (k + 1) ≤ 2 ^ j := Nat.pow_le_pow_right (by decide) hj
    omega
  apply Nat.eq_of_testBit_eq
  intro i
  rw [Nat.testBit_and, Nat.testBit_shiftRight, Nat.testBit_mod_two_pow]
  by_cases hik : i < k
  · have : t.testBit (1 + i) = true := (ht (1 + i)).2 ⟨k, by omega, by omega, hbk⟩
    simp only [this, hik, Bool.and_true, decide_True, Bool.true_and]
  · cases hb : b.testBit i
    · simp
    · have hik2 : i = k := by
        by_contra hne
        have := hhi i (by omega)
        rw [this] at hb; cases hb
      subst hik2
      have : ¬ (t.testBit (1 + i) = true) := by
        rw [ht (1 + i)]
        rintro ⟨j, hj1, _, hj3⟩
        rw [hhi j (by omega)] at hj3; cases hj3
      simp only [Bool.not_eq_true] at this
      simp [this]

/-- `get_parent` clears the highest set bit. -/
theorem get_parent_eq (b k : Nat) (hk : k < 64) (h1 : 2 ^ k ≤ b) (h2 : b < 2 ^ (k + 1)) :
    get_parent b = b % 2 ^ k := by
  have h0 : ∀ i, b.testBit i = true ↔ ∃ j, i ≤ j ∧ j < i + 1 ∧ b.testBit j = true := by
    intro i
    constructor
    · intro h; exact ⟨i, le_refl _, by omega, h⟩
    · rintro ⟨j, h1, h2, h3⟩
      have : j = i := by omega
      subst this; exact h3
  have s1 := smear_step b 1 _ h0
  have s2 := smear_step b 2 _ s1
  have s3 := smear_step b 4 _ s2
  have s4 := smear_step b 8 _ s3
  have s5 := smear_step b 16 _ s4
  have s6 := smear_step b 32 _ s5
  exact and_smear_eq b k _ hk h1 h2 s6

theorem dummykey_parent_lt (b k : Nat) (hk : k < 63) (h1 : 2 ^ k ≤ b) (h2 : b < 2 ^ (k + 1)) :
    dummykey (get_parent b) < dummykey b := by
  rw [get_parent_eq b k (by omega) h1 h2]
  have h64 : 2 ^ (k + 1) ≤ 2 ^ 64 := Nat.pow_le_pow_right (by decide) (by omega)
  have hlt : b % 2 ^ k < 2 ^ k := Nat.mod_lt _ (Nat.pow_pos (by decide))
  have hle : dummykey (b % 2 ^ k) ≤ dummykey b := reverse_bits_mod_le 64 k b
  have hne : dummykey (b % 2 ^ k) ≠ dummykey b := by
    intro h
    have := REVERSE_inj _ _ (by rw [pow_succ] at h64; omega) (by omega) h
    omega
  omega

end splitordered

/-! ## The doubling list -/

namespace splitordered

/-! ## The doubling list -/

namespace doubling_list

theorem locate_of_mem (i s : Nat) (hs : s < 31) (h1 : 2 ^ s ≤ i + 1) (h2 : i + 1 < 2 ^ (s + 1)) :
    locate i = .ok (s, i + 1 - 2 ^ s) := by
  have h31 : 2 ^ (s + 1) ≤ 2 ^ 31 := Nat.pow_le_pow_right (by decide) (by omega)
  have hpos : (i % 2 ^ 32 + 1) % 2 ^ 32 = i + 1 := by
    rw [Nat.mod_eq_of_lt (by omega : i < 2 ^ 32), Nat.mod_eq_of_lt (by omega)]
  have hb : highest_bit (i + 1) = s := highest_bit_from_eq 32 s (i + 1) (by omega) h1 h2
  have hsh : 2 ^ s % 2 ^ 32 = 2 ^ s := Nat.mod_eq_of_lt (by omega)
  unfold locate
  simp only []
  rw [hpos, hb, shl_int, if_pos hs, bind_ok, hsh, xor_two_pow_of_mem s (i + 1) h1 h2]
  rfl

theorem locate_log2 (i : Nat) (hi : i + 1 < 2 ^ 31) :
    locate i = .ok (Nat.log2 (i + 1), i + 1 - 2 ^ Nat.log2 (i + 1)) := by
  have hne : i + 1 ≠ 0 := by omega
  apply locate_of_mem
  · exact (Nat.log2_lt hne).2 hi
  · exact Nat.log2_self_le hne
  · exact Nat.lt_log2_self

theorem locate_inj (i j : Nat) (hi : i + 1 < 2 ^ 31) (hj : j + 1 < 2 ^ 31)
    (h : locate i = locate j) : i = j := by
  rw [locate_log2 i hi, locate_log2 j hj] at h
  injection h with h
  injection h with h1 h2
  rw [h1] at h2
  have a := Nat.log2_self_le (by omega : i + 1 ≠ 0)
  have b := Nat.log2_self_le (by omega : j + 1 ≠ 0)
  rw [h1] at a
  omega

theorem load_of_locate {dl : doubling_list} {i s off : Nat} (h : locate i = .ok (s, off)) :
    dl.load i = dl.cell s off := by
  unfold load
  rw [h, bind_ok]

theorem store_of_locate {dl : doubling_list} {i s off : Nat} {v : Nat}
    (h : locate i = .ok (s, off)) : dl.store i v = dl.set_cell s off v := by
  unfold store
  rw [h, bind_ok]

theorem shl_int_pred (n : Nat) (h1 : 1 ≤ n) (h2 : n ≤ 31) :
    shl_int (pred_u32 n) = .ok (2 ^ (n - 1)) := by
  unfold pred_u32
  rw [if_neg (by omega), shl_int, if_pos (by omega)]

theorem size_of_wf {dl : doubling_list} (h : dl.wf) :
    dl.size = .ok (2 ^ (dl.num_populated_buckets_ - 1)) := by
  unfold size
  rw [shl_int_pred _ (by have := h.two_le; omega) h.le]

theorem cell_ok_iff {dl : doubling_list} (h : dl.wf) (s off : Nat) :
    (∃ v, dl.cell s off = .ok v) ↔ s < dl.num_populated_buckets_ ∧ off < capacity s := by
  constructor
  · rintro ⟨v, hv⟩
    by_cases hs : s < dl.num_populated_buckets_
    · obtain ⟨seg, h1, h2⟩ := h.pub s hs
      refine ⟨hs, ?_⟩
      simp only [cell, h1] at hv
      by_contra hc
      rw [List.getElem?_eq_none (by omega)] at hv
      cases hv
    · exfalso
      by_cases h32 : s < 32
      · simp only [cell, h.unpub s (by omega) h32] at hv; cases hv
      · simp only [cell, List.getElem?_eq_none (by have := h.len; omega : dl.buckets_.length ≤ s)] at hv
        cases hv
  · rintro ⟨hs, ho⟩
    obtain ⟨seg, h1, h2⟩ := h.pub s hs
    have : off < seg.length := by omega
    refine ⟨seg[off], ?_⟩
    simp only [cell, h1, List.getElem?_eq_getElem this]

theorem cell_error {dl : doubling_list} (h : dl.wf) (s off : Nat) (e : Fault)
    (hs : s < dl.num_populated_buckets_) (he : dl.cell s off = .error e) : e = .out_of_bounds := by
  obtain ⟨seg, h1, h2⟩ := h.pub s hs
  simp only [cell, h1] at he
  split at he
  · injection he with he; exact he.symm
  · cases he

theorem set_cell_inv {dl dl1 : doubling_list} {s off v : Nat}
    (h : dl.set_cell s off v = .ok dl1) :
    ∃ seg, dl.buckets_[s]? = some (some seg) ∧ off < seg.length ∧
      dl1 = { dl with buckets_ := dl.buckets_.set s (some (seg.set off v)) } := by
  unfold set_cell at h
  split at h
  · cases h
  · cases h
  · rename_i seg hseg
    split at h
    · rename_i hoff
      injection h with h
      exact ⟨seg, hseg, hoff, h.symm⟩
    · cases h

theorem set_cell_wf {dl dl1 : doubling_list} {s off v : Nat} (h : dl.wf)
    (hs : dl.set_cell s off v = .ok dl1) :
    dl1.wf ∧ dl1.num_populated_buckets_ = dl.num_populated_buckets_ := by
  obtain ⟨seg, h1, hlen, rfl⟩ := set_cell_inv hs
  have hs32 : s < dl.buckets_.length := by
    by_contra hc
    rw [List.getElem?_eq_none (by omega)] at h1
    cases h1
  have hsn : s < dl.num_populated_buckets_ := by
    by_contra hc
    have := h.unpub s (by omega) (by have := h.len; omega)
    rw [this] at h1; cases h1
  obtain ⟨seg0, a0, b0⟩ := h.pub s hsn
  have hseg : seg0 = seg := by
    rw [a0] at h1; injection h1 with h1; injection h1
  subst hseg
  refine ⟨⟨h.two_le, h.le, by simp [h.len], ?_, ?_⟩, rfl⟩
  · intro j hj
    have hj1 : j < dl.num_populated_buckets_ := hj
    by_cases hjs : j = s
    · subst hjs
      refine ⟨seg0.set off v, ?_, by simp [b0]⟩
      simp [List.getElem?_set_self hs32]
    · obtain ⟨seg1, a, b⟩ := h.pub j hj1
      refine ⟨seg1, ?_, b⟩
      simp only []
      rw [List.getElem?_set_ne (by omega)]; exact a
  · intro j hj hj32
    have hj1 : dl.num_populated_buckets_ ≤ j := hj
    simp only []
    rw [List.getElem?_set_ne (by omega)]; exact h.unpub j hj1 hj32

theorem set_cell_spec {dl : doubling_list} (h : dl.wf) (s off x v : Nat)
    (hx : dl.cell s off = .ok x) :
    ∃ dl1, dl.set_cell s off v = .ok dl1 ∧ dl1.wf ∧
      dl1.num_populated_buckets_ = dl.num_populated_buckets_ ∧
      dl1.cell s off = .ok v ∧
      ∀ s1 off1, (s1, off1) ≠ (s, off) → dl1.cell s1 off1 = dl.cell s1 off1 := by
  obtain ⟨hs, ho⟩ := (cell_ok_iff h s off).1 ⟨x, hx⟩
  obtain ⟨seg, h1, h2⟩ := h.pub s hs
  have hlen : off < seg.length := by omega
  have hs32 : s < dl.buckets_.length := by have := h.len; have := h.le; omega
  have hset : dl.set_cell s off v =
      .ok { dl with buckets_ := dl.buckets_.set s (some (seg.set off v)) } := by
    simp only [set_cell, h1, hlen, if_true]
  have hw := set_cell_wf h hset
  refine ⟨_, hset, hw.1, hw.2, ?_, ?_⟩
  · simp only [cell, List.getElem?_set_self hs32, List.getElem?_set_self hlen]
  · intro s1 off1 hne
    by_cases hs1 : s1 = s
    · subst hs1
      have hoff : off ≠ off1 := by
        intro hc; apply hne; rw [hc]
      simp only [cell, List.getElem?_set_self hs32, h1, List.getElem?_set_ne hoff]
    · simp only [cell]
      rw [List.getElem?_set_ne (by omega)]

theorem new_wf (env : environment) : (doubling_list.new env).wf := by
  refine ⟨(by decide : 2 ≤ 2), (by decide : 2 ≤ 31), rfl, ?_, ?_⟩
  · intro j hj
    have hj2 : j < 2 := hj
    interval_cases j
    · exact ⟨new_array_on env.fresh 1, rfl, rfl⟩
    · exact ⟨new_array_on (fun j => env.fresh (j + 1)) 1, rfl, rfl⟩
  · intro j hj hj32
    have hj2 : 2 ≤ j := hj
    simp only [doubling_list.new]
    rw [List.getElem?_set_ne (by omega), List.getElem?_set_ne (by omega),
      List.getElem?_replicate, if_pos hj32]

theorem new_array_on_length (fresh : Nat → marked_ptr_t) (n : Nat) :
    (new_array_on fresh n).length = n := by
  unfold new_array_on
  rw [List.length_map, List.length_range]

theorem new_array_on_mem (fresh : Nat → marked_ptr_t) (n v : Nat)
    (h : v ∈ new_array_on fresh n) : ∃ j, v = fresh j := by
  unfold new_array_on at h
  obtain ⟨j, _, hj⟩ := List.mem_map.1 h
  exact ⟨j, hj.symm⟩

theorem double_size_grow (env : environment) {dl : doubling_list} (h : dl.wf)
    (hn : dl.num_populated_buckets_ < 31) (hc : env.cas = true) :
    dl.double_size env (2 ^ (dl.num_populated_buckets_ - 1)) =
      .ok (2 ^ dl.num_populated_buckets_,
        { num_populated_buckets_ := dl.num_populated_buckets_ + 1,
          buckets_ := dl.buckets_.set dl.num_populated_buckets_
            (some (new_array_on env.fresh (2 ^ (dl.num_populated_buckets_ - 1)))) }) := by
  have h1 := h.two_le
  have hm1 : (dl.num_populated_buckets_ + 1) % 2 ^ 32 = dl.num_populated_buckets_ + 1 := by
    omega
  have hnull := h.unpub dl.num_populated_buckets_ (le_refl _) (by omega)
  unfold double_size
  simp only []
  rw [shl_int_pred _ (by omega) (by omega), bind_ok, if_pos rfl, hnull]
  simp only []
  rw [if_pos hc]
  unfold size
  simp only []
  rw [hm1, shl_int_pred _ (by omega) (by omega), bind_ok]
  rfl

theorem double_size_spurious (env : environment) {dl : doubling_list} (h : dl.wf)
    (hc : env.cas = false) :
    dl.double_size env (2 ^ (dl.num_populated_buckets_ - 1)) =
      .ok (2 ^ (dl.num_populated_buckets_ - 1), dl) := by
  have h1 := h.two_le
  have h2 := h.le
  have hnull := h.unpub dl.num_populated_buckets_ (le_refl _) (by omega)
  unfold double_size
  simp only []
  rw [shl_int_pred _ (by omega) (by omega), bind_ok, if_pos rfl, hnull]
  simp only []
  rw [hc, size_of_wf h, if_neg (by decide), bind_ok]
  rfl

theorem grow_wf {dl : doubling_list} (h : dl.wf) (hn : dl.num_populated_buckets_ < 31)
    (seg : List marked_ptr_t) (hseg : seg.length = 2 ^ (dl.num_populated_buckets_ - 1)) :
    wf { num_populated_buckets_ := dl.num_populated_buckets_ + 1,
         buckets_ := dl.buckets_.set dl.num_populated_buckets_ (some seg) } := by
  have h1 := h.two_le
  refine ⟨by simp only []; omega, by simp only []; omega, by simp [h.len], ?_, ?_⟩
  · intro j hj
    have hj1 : j < dl.num_populated_buckets_ + 1 := hj
    by_cases hjn : j = dl.num_populated_buckets_
    · subst hjn
      refine ⟨_, List.getElem?_set_self (by have := h.len; omega), ?_⟩
      have : ¬ dl.num_populated_buckets_ ≤ 1 := by omega
      simp [hseg, capacity, this]
    · obtain ⟨seg, a, b⟩ := h.pub j (by omega)
      refine ⟨seg, ?_, b⟩
      simp only []
      rw [List.getElem?_set_ne (by omega)]; exact a
  · intro j hj hj32
    have hj1 : dl.num_populated_buckets_ + 1 ≤ j := hj
    simp only []
    rw [List.getElem?_set_ne (by omega)]; exact h.unpub j (by omega) hj32

theorem double_size_other (env : environment) {dl : doubling_list} (h : dl.wf) (e : Nat)
    (he : e ≠ 2 ^ (dl.num_populated_buckets_ - 1)) :
    dl.double_size env e = .ok (2 ^ (dl.num_populated_buckets_ - 1), dl) := by
  have h1 := h.two_le
  have h2 := h.le
  unfold double_size
  simp only []
  rw [shl_int_pred _ (by omega) h2, bind_ok, if_neg he, size_of_wf h, bind_ok]
  rfl

theorem double_size_overflow (env : environment) {dl : doubling_list} (h : dl.wf)
    (hn : dl.num_populated_buckets_ = 31) (hc : env.cas = true) :
    dl.double_size env (2 ^ 30) = .error .shift_overflow := by
  have hnull := h.unpub dl.num_populated_buckets_ (le_refl _) (by omega)
  unfold double_size
  simp only []
  rw [shl_int_pred _ (by omega) (by omega), bind_ok]
  rw [hn] at hnull
  rw [hn, if_pos rfl, hnull]
  simp only []
  rw [if_pos hc]
  unfold size
  simp only []
  have e1 : pred_u32 ((31 + 1) % 2 ^ 32) = 31 := by decide
  rw [e1, shl_int, if_neg (by omega), bind_error]

theorem double_size_wf (env : environment) {dl dl1 : doubling_list} {e r : Nat} (h : dl.wf)
    (hd : dl.double_size env e = .ok (r, dl1)) : dl1.wf := by
  by_cases he : e = 2 ^ (dl.num_populated_buckets_ - 1)
  · subst he
    cases hc : env.cas with
    | false =>
      rw [double_size_spurious env h hc] at hd
      injection hd with hd
      injection hd with _ hd
      subst hd
      exact h
    | true =>
      by_cases hn : dl.num_populated_buckets_ < 31
      · rw [double_size_grow env h hn hc] at hd
        injection hd with hd
        injection hd with _ hd
        subst hd
        exact grow_wf h hn _ (new_array_on_length _ _)
      · have h31 : dl.num_populated_buckets_ = 31 := by have := h.le; omega
        have := double_size_overflow env h h31 hc
        rw [h31] at hd
        rw [this] at hd
        cases hd
  · rw [double_size_other env h e he] at hd
    injection hd with hd
    injection hd with _ hd
    subst hd
    exact h

theorem reachable_wf {dl : doubling_list} (h : dl.reachable) : dl.wf := by
  induction h with
  | new => exact new_wf _
  | store _ hs ih =>
    unfold store at hs
    obtain ⟨⟨s, off⟩, _, h2⟩ := bind_eq_ok.1 hs
    exact (set_cell_wf ih h2).1
  | double_size _ hd ih => exact double_size_wf _ ih hd

theorem cell_grow {dl : doubling_list} (h : dl.wf) (seg : List marked_ptr_t) (s off : Nat) :
    (∀ v, dl.cell s off = .ok v →
      cell { num_populated_buckets_ := dl.num_populated_buckets_ + 1,
             buckets_ := dl.buckets_.set dl.num_populated_buckets_ (some seg) } s off = .ok v) ∧
    (∀ v, cell { num_populated_buckets_ := dl.num_populated_buckets_ + 1,
                 buckets_ := dl.buckets_.set dl.num_populated_buckets_ (some seg) } s off =
        .ok v →
      dl.cell s off = .ok v ∨ v ∈ seg) := by
  by_cases hs : s = dl.num_populated_buckets_
  · subst hs
    have hlen : dl.num_populated_buckets_ < dl.buckets_.length := by
      have := h.len; have := h.le; omega
    constructor
    · intro v hv
      have := (cell_ok_iff h _ off).1 ⟨v, hv⟩
      omega
    · intro v hv
      right
      simp only [cell, List.getElem?_set_self hlen] at hv
      split at hv
      · cases hv
      · rename_i w hw
        injection hv with hv
        rw [← hv]
        exact List.getElem?_mem hw
  · have e : ∀ (l : List (Option (List marked_ptr_t))) (x : Option (List marked_ptr_t)),
        (l.set dl.num_populated_buckets_ x)[s]? = l[s]? := by
      intro l x
      rw [List.getElem?_set_ne (by omega)]
    constructor
    · intro v hv
      simp only [cell, e]
      exact hv
    · intro v hv
      left
      simp only [cell, e] at hv
      exact hv

theorem load_ok_iff {dl : doubling_list} (h : dl.wf) (i : Nat) (hi : i + 1 < 2 ^ 31) :
    (∃ v, dl.load i = .ok v) ↔
      Nat.log2 (i + 1) < dl.num_populated_buckets_ ∧
        i + 1 - 2 ^ Nat.log2 (i + 1) < capacity (Nat.log2 (i + 1)) := by
  rw [load_of_locate (locate_log2 i hi)]
  exact cell_ok_iff h _ _

theorem lt_size_lt {dl : doubling_list} (h : dl.wf) (i : Nat)
    (hi : i < 2 ^ (dl.num_populated_buckets_ - 1)) : i + 1 < 2 ^ 31 := by
  have : 2 ^ (dl.num_populated_buckets_ - 1) ≤ 2 ^ 30 :=
    Nat.pow_le_pow_right (by decide) (by have := h.le; omega)
  omega

theorem load_error {dl : doubling_list} (h : dl.wf) (i : Nat) (e : Fault)
    (hi : i < 2 ^ (dl.num_populated_buckets_ - 1)) (he : dl.load i = .error e) :
    e = .out_of_bounds := by
  have hi31 := lt_size_lt h i hi
  rw [load_of_locate (locate_log2 i hi31)] at he
  refine cell_error h _ _ e ?_ he
  have hne : i + 1 ≠ 0 := by omega
  have h2 := h.two_le
  have : i + 1 < 2 ^ dl.num_populated_buckets_ := by
    have e1 : 2 ^ dl.num_populated_buckets_ = 2 ^ (dl.num_populated_buckets_ - 1) * 2 := by
      rw [← pow_succ]; congr 1; omega
    have := Nat.one_le_two_pow (n := dl.num_populated_buckets_ - 1)
    omega
  exact (Nat.log2_lt hne).2 this

theorem store_spec {dl : doubling_list} (h : dl.wf) (i x v : Nat) (hi : i + 1 < 2 ^ 31)
    (hx : dl.load i = .ok x) :
    ∃ dl1, dl.store i v = .ok dl1 ∧ dl1.wf ∧
      dl1.num_populated_buckets_ = dl.num_populated_buckets_ ∧
      dl1.load i = .ok v ∧
      ∀ j, j + 1 < 2 ^ 31 → j ≠ i → dl1.load j = dl.load j := by
  have hl := locate_log2 i hi
  rw [load_of_locate hl] at hx
  obtain ⟨dl1, a, b, c, d, e⟩ := set_cell_spec h _ _ x v hx
  refine ⟨dl1, by rw [store_of_locate hl]; exact a, b, c, by rw [load_of_locate hl]; exact d, ?_⟩
  intro j hj hne
  have hlj := locate_log2 j hj
  rw [load_of_locate hlj, load_of_locate hlj]
  apply e
  intro hc
  apply hne
  apply locate_inj j i hj hi
  rw [hl, hlj, hc]

theorem store_wf {dl dl1 : doubling_list} {i v : Nat} (h : dl.wf)
    (hs : dl.store i v = .ok dl1) :
    dl1.wf ∧ dl1.num_populated_buckets_ = dl.num_populated_buckets_ := by
  unfold store at hs
  obtain ⟨⟨s, off⟩, _, h2⟩ := bind_eq_ok.1 hs
  exact set_cell_wf h h2

theorem load_grow {dl : doubling_list} (h : dl.wf) (seg : List marked_ptr_t) (j : Nat)
    (hj : j + 1 < 2 ^ 31) :
    (∀ v, dl.load j = .ok v →
      load { num_populated_buckets_ := dl.num_populated_buckets_ + 1,
             buckets_ := dl.buckets_.set dl.num_populated_buckets_ (some seg) } j = .ok v) ∧
    (∀ v, load { num_populated_buckets_ := dl.num_populated_buckets_ + 1,
                 buckets_ := dl.buckets_.set dl.num_populated_buckets_ (some seg) } j = .ok v →
      dl.load j = .ok v ∨ v ∈ seg) := by
  have hl := locate_log2 j hj
  rw [load_of_locate hl, load_of_locate hl]
  exact cell_grow h seg _ _

theorem load_zero {dl : doubling_list} (h : dl.wf) : ∃ v, dl.load 0 = .ok v := by
  apply (load_ok_iff h 0 (by decide)).2
  have := h.two_le
  have e : Nat.log2 (0 + 1) = 0 := by
    have := Nat.log2_two_pow (n := 0)
    rw [pow_zero] at this
    exact this
  rw [e]
  exact ⟨by omega, by decide⟩

end doubling_list

end splitordered

/-! ## The list operations -/

namespace splitordered

/-! ## The split-ordered list -/

namespace list_ops

variable {V : Type}

theorem walk_find_append (k : Nat) (pre l : List (hash_entry V))
    (h : ∀ x ∈ pre, x.key < k) : walk_find k (pre ++ l) = walk_find k l := by
  induction pre with
  | nil => rfl
  | cons a pre ih =>
    have ha : a.key < k := h a (List.mem_cons_self _ _)
    rw [List.cons_append]
    simp only [walk_find, ha, if_true]
    exact ih (fun x hx => h x (List.mem_cons_of_mem _ hx))

theorem walk_insert_append (node : hash_entry V) (pre l : List (hash_entry V))
    (h : ∀ x ∈ pre, x.key < node.key) :
    walk_insert node (pre ++ l) =
      match walk_insert node l with
      | .inserted l1 => .inserted (pre ++ l1)
      | .collides p => .collides p := by
  induction pre with
  | nil =>
    simp only [List.nil_append]
    cases walk_insert node l <;> rfl
  | cons a pre ih =>
    have ha : a.key < node.key := h a (List.mem_cons_self _ _)
    rw [List.cons_append]
    simp only [walk_insert, ha, if_true]
    rw [ih (fun x hx => h x (List.mem_cons_of_mem _ hx))]
    cases walk_insert node l <;> rfl

theorem walk_remove_append (k : Nat) (pre l : List (hash_entry V))
    (h : ∀ x ∈ pre, x.key < k) :
    walk_remove k (pre ++ l) = (walk_remove k l).map (fun l1 => pre ++ l1) := by
  induction pre with
  | nil =>
    simp only [List.nil_append]
    cases walk_remove k l <;> rfl
  | cons a pre ih =>
    have ha : a.key < k := h a (List.mem_cons_self _ _)
    rw [List.cons_append]
    simp only [walk_remove, ha, if_true]
    rw [ih (fun x hx => h x (List.mem_cons_of_mem _ hx))]
    cases walk_remove k l <;> rfl

theorem walk_find_insert (node : hash_entry V) (k : Nat) (l l1 : List (hash_entry V))
    (h : walk_insert node l = .inserted l1) :
    walk_find k l1 = if k = node.key then some node.value else walk_find k l := by
  induction l generalizing l1 with
  | nil =>
    simp only [walk_insert] at h
    injection h with h
    subst h
    simp only [walk_find]
    by_cases h1 : node.key < k
    · have : ¬ k = node.key := by omega
      simp [h1, this]
    · by_cases h2 : node.key = k
      · simp [h2]
      · have : ¬ k = node.key := fun hc => h2 hc.symm
        simp [h1, h2, this]
  | cons cur rest ih =>
    simp only [walk_insert] at h
    by_cases h1 : cur.key < node.key
    · simp only [h1, if_true] at h
      cases hw : walk_insert node rest with
      | collides p => rw [hw] at h; cases h
      | inserted l2 =>
        rw [hw] at h
        injection h with h
        subst h
        have := ih l2 hw
        simp only [walk_find]
        by_cases h2 : k = node.key
        · subst h2
          simp only [h1, if_true, this]
        · simp only [this, h2, if_false]
    · simp only [h1, if_false] at h
      by_cases h2 : cur.key = node.key
      · simp only [h2, if_true] at h; cases h
      · simp only [h2, if_false] at h
        injection h with h
        subst h
        simp only [walk_find]
        by_cases h3 : k = node.key
        · subst h3
          simp
        · by_cases h4 : node.key < k
          · simp [h3, h4]
          · have h5 : ¬ cur.key < k := by omega
            have h6 : ¬ cur.key = k := by omega
            have h7 : ¬ node.key = k := fun hc => h3 hc.symm
            simp [h3, h4, h5, h6, h7]

theorem walk_insert_perm (node : hash_entry V) (l l1 : List (hash_entry V))
    (h : walk_insert node l = .inserted l1) : l1.Perm (node :: l) := by
  induction l generalizing l1 with
  | nil =>
    simp only [walk_insert] at h
    injection h with h
    subst h
    exact List.Perm.refl _
  | cons cur rest ih =>
    simp only [walk_insert] at h
    by_cases h1 : cur.key < node.key
    · simp only [h1, if_true] at h
      cases hw : walk_insert node rest with
      | collides p => rw [hw] at h; cases h
      | inserted l2 =>
        rw [hw] at h
        injection h with h
        subst h
        exact ((ih l2 hw).cons cur).trans (List.Perm.swap _ _ _)
    · simp only [h1, if_false] at h
      by_cases h2 : cur.key = node.key
      · simp only [h2, if_true] at h; cases h
      · simp only [h2, if_false] at h
        injection h with h
        subst h
        exact List.Perm.refl _

theorem walk_insert_sorted (node : hash_entry V) (l l1 : List (hash_entry V))
    (hs : l.Pairwise (fun a b => a.key < b.key))
    (h : walk_insert node l = .inserted l1) : l1.Pairwise (fun a b => a.key < b.key) := by
  induction l generalizing l1 with
  | nil =>
    simp only [walk_insert] at h
    injection h with h
    subst h
    exact List.pairwise_singleton _ _
  | cons cur rest ih =>
    simp only [walk_insert] at h
    rw [List.pairwise_cons] at hs
    by_cases h1 : cur.key < node.key
    · simp only [h1, if_true] at h
      cases hw : walk_insert node rest with
      | collides p => rw [hw] at h; cases h
      | inserted l2 =>
        rw [hw] at h
        injection h with h
        subst h
        rw [List.pairwise_cons]
        refine ⟨?_, ih l2 hs.2 hw⟩
        intro x hx
        have := (walk_insert_perm node rest l2 hw).mem_iff.1 hx
        rcases List.mem_cons.1 this with rfl | hx1
        · exact h1
        · exact hs.1 x hx1
    · simp only [h1, if_false] at h
      by_cases h2 : cur.key = node.key
      · simp only [h2, if_true] at h; cases h
      · simp only [h2, if_false] at h
        injection h with h
        subst h
        rw [List.pairwise_cons]
        refine ⟨?_, List.pairwise_cons.2 hs⟩
        intro x hx
        rcases List.mem_cons.1 hx with rfl | hx1
        · omega
        · have := hs.1 x hx1
          omega

theorem walk_insert_collides (node : hash_entry V) (l : List (hash_entry V)) (p : marked_ptr_t)
    (h : walk_insert node l = .collides p) :
    ∃ e ∈ l, e.key = node.key ∧ p = CONSTRUCT 0 e.addr := by
  induction l with
  | nil => simp only [walk_insert] at h; cases h
  | cons cur rest ih =>
    simp only [walk_insert] at h
    by_cases h1 : cur.key < node.key
    · simp only [h1, if_true] at h
      cases hw : walk_insert node rest with
      | inserted l2 => rw [hw] at h; cases h
      | collides q =>
        rw [hw] at h
        injection h with h
        subst h
        obtain ⟨e, he, a, b⟩ := ih hw
        exact ⟨e, List.mem_cons_of_mem _ he, a, b⟩
    · simp only [h1, if_false] at h
      by_cases h2 : cur.key = node.key
      · simp only [h2, if_true] at h
        injection h with h
        exact ⟨cur, List.mem_cons_self _ _, h2, h.symm⟩
      · simp only [h2, if_false] at h; cases h

theorem walk_find_none_of_not_mem (k : Nat) (l : List (hash_entry V))
    (h : ∀ e ∈ l, e.key ≠ k) : walk_find k l = none := by
  induction l with
  | nil => rfl
  | cons cur rest ih =>
    simp only [walk_find]
    have h1 : ¬ cur.key = k := h cur (List.mem_cons_self _ _)
    by_cases h2 : cur.key < k
    · simp only [h2, if_true]
      exact ih (fun e he => h e (List.mem_cons_of_mem _ he))
    · simp only [h2, h1, if_false]

theorem walk_find_some_mem (k : Nat) (l : List (hash_entry V)) (v : V)
    (h : walk_find k l = some v) : ∃ e ∈ l, e.key = k ∧ e.value = v := by
  induction l with
  | nil => simp only [walk_find] at h; cases h
  | cons cur rest ih =>
    simp only [walk_find] at h
    by_cases h2 : cur.key < k
    · simp only [h2, if_true] at h
      obtain ⟨e, he, a, b⟩ := ih h
      exact ⟨e, List.mem_cons_of_mem _ he, a, b⟩
    · simp only [h2, if_false] at h
      by_cases h1 : cur.key = k
      · simp only [h1, if_true] at h
        injection h with h
        exact ⟨cur, List.mem_cons_self _ _, h1, h⟩
      · simp only [h1, if_false] at h; cases h

theorem walk_find_of_mem (l : List (hash_entry V)) (e : hash_entry V)
    (hs : l.Pairwise (fun a b => a.key < b.key)) (he : e ∈ l) :
    walk_find e.key l = some e.value := by
  induction l with
  | nil => cases he
  | cons cur rest ih =>
    rw [List.pairwise_cons] at hs
    simp only [walk_find]
    rcases List.mem_cons.1 he with rfl | h1
    · simp
    · have := hs.1 e h1
      simp only [this, if_true]
      exact ih hs.2 h1

theorem walk_insert_inserted_iff (node : hash_entry V) (l : List (hash_entry V)) :
    (∃ l1, walk_insert node l = .inserted l1) ↔ walk_find node.key l = none := by
  induction l with
  | nil => simp [walk_insert, walk_find]
  | cons cur rest ih =>
    simp only [walk_insert, walk_find]
    by_cases h1 : cur.key < node.key
    · simp only [h1, if_true]
      rw [← ih]
      cases walk_insert node rest <;> simp
    · by_cases h2 : cur.key = node.key
      · simp [h2]
      · simp [h1, h2]

theorem walk_find_remove (k k1 : Nat) (l l1 : List (hash_entry V))
    (hs : l.Pairwise (fun a b => a.key < b.key))
    (h : walk_remove k l = some l1) :
    walk_find k1 l1 = if k1 = k then none else walk_find k1 l := by
  induction l generalizing l1 with
  | nil => simp only [walk_remove] at h; cases h
  | cons cur rest ih =>
    rw [List.pairwise_cons] at hs
    simp only [walk_remove] at h
    by_cases h1 : cur.key < k
    · simp only [h1, if_true] at h
      cases hw : walk_remove k rest with
      | none => rw [hw] at h; cases h
      | some l2 =>
        rw [hw] at h
        injection h with h
        subst h
        have := ih l2 hs.2 hw
        simp only [walk_find, this]
        by_cases h2 : k1 = k
        · subst h2
          simp [h1]
        · simp [h2]
    · simp only [h1, if_false] at h
      by_cases h2 : cur.key = k
      · simp only [h2, if_true] at h
        injection h with h
        subst h
        simp only [walk_find]
        by_cases h3 : k1 = k
        · subst h3
          simp only [if_true]
          apply walk_find_none_of_not_mem
          intro e he
          have := hs.1 e he
          omega
        · by_cases h4 : cur.key < k1
          · simp [h3, h4]
          · have h5 : ¬ cur.key = k1 := by omega
            simp only [h3, h4, h5, if_false]
            apply walk_find_none_of_not_mem
            intro e he
            have := hs.1 e he
            omega
      · simp only [h2, if_false] at h; cases h

theorem walk_remove_perm (k : Nat) (l l1 : List (hash_entry V))
    (h : walk_remove k l = some l1) : ∃ e, e.key = k ∧ l.Perm (e :: l1) := by
  induction l generalizing l1 with
  | nil => simp only [walk_remove] at h; cases h
  | cons cur rest ih =>
    simp only [walk_remove] at h
    by_cases h1 : cur.key < k
    · simp only [h1, if_true] at h
      cases hw : walk_remove k rest with
      | none => rw [hw] at h; cases h
      | some l2 =>
        rw [hw] at h
        injection h with h
        subst h
        obtain ⟨e, he, hp⟩ := ih l2 hw
        exact ⟨e, he, (hp.cons cur).trans (List.Perm.swap _ _ _)⟩
    · simp only [h1, if_false] at h
      by_cases h2 : cur.key = k
      · simp only [h2, if_true] at h
        injection h with h
        subst h
        exact ⟨cur, h2, List.Perm.refl _⟩
      · simp only [h2, if_false] at h; cases h

theorem walk_remove_sorted (k : Nat) (l l1 : List (hash_entry V))
    (hs : l.Pairwise (fun a b => a.key < b.key))
    (h : walk_remove k l = some l1) : l1.Pairwise (fun a b => a.key < b.key) := by
  induction l generalizing l1 with
  | nil => simp only [walk_remove] at h; cases h
  | cons cur rest ih =>
    rw [List.pairwise_cons] at hs
    simp only [walk_remove] at h
    by_cases h1 : cur.key < k
    · simp only [h1, if_true] at h
      cases hw : walk_remove k rest with
      | none => rw [hw] at h; cases h
      | some l2 =>
        rw [hw] at h
        injection h with h
        subst h
        obtain ⟨e2, _, hp2⟩ := walk_remove_perm k rest l2 hw
        rw [List.pairwise_cons]
        refine ⟨?_, ih l2 hs.2 hw⟩
        intro x hx
        exact hs.1 x (hp2.mem_iff.2 (List.mem_cons_of_mem _ hx))
    · simp only [h1, if_false] at h
      by_cases h2 : cur.key = k
      · simp only [h2, if_true] at h
        injection h with h
        subst h
        exact hs.2
      · simp only [h2, if_false] at h; cases h

theorem walk_remove_none_iff (k : Nat) (l : List (hash_entry V)) :
    walk_remove k l = none ↔ walk_find k l = none := by
  induction l with
  | nil => simp [walk_remove, walk_find]
  | cons cur rest ih =>
    simp only [walk_remove, walk_find]
    by_cases h1 : cur.key < k
    · simp only [h1, if_true]
      rw [← ih]
      cases walk_remove k rest <;> simp
    · by_cases h2 : cur.key = k
      · simp [h2]
      · simp [h1, h2]

theorem addr_inj (l : List (hash_entry V)) (a b : hash_entry V)
    (hnd : l.Pairwise (fun x y => x.addr ≠ y.addr)) (ha : a ∈ l) (hb : b ∈ l)
    (h : a.addr = b.addr) : a = b := by
  induction l with
  | nil => cases ha
  | cons c l ih =>
    rw [List.pairwise_cons] at hnd
    rcases List.mem_cons.1 ha with rfl | ha1
    · rcases List.mem_cons.1 hb with rfl | hb1
      · rfl
      · exact absurd h (hnd.1 b hb1)
    · rcases List.mem_cons.1 hb with rfl | hb1
      · exact absurd h.symm (hnd.1 a ha1)
      · exact ih hnd.2 ha1 hb1

theorem dropWhile_addr (l : List (hash_entry V)) (p : Nat) (e : hash_entry V)
    (hnd : l.Pairwise (fun x y => x.addr ≠ y.addr)) (he : e ∈ l) (hp : e.addr = p) :
    ∃ rest, l.dropWhile (fun x => x.addr != p) = e :: rest ∧
      l = l.takeWhile (fun x => x.addr != p) ++ e :: rest := by
  induction l with
  | nil => cases he
  | cons a l ih =>
    by_cases ha : a.addr = p
    · have hae : a = e :=
        addr_inj (a :: l) a e hnd (List.mem_cons_self _ _) he (by rw [ha, hp])
      subst hae
      have hb : (a.addr != p) = false := by simp [ha]
      refine ⟨l, ?_, ?_⟩
      · simp only [List.dropWhile_cons, hb]
        rfl
      · simp only [List.takeWhile_cons, hb]
        rfl
    · have hb : (a.addr != p) = true := by simp [ha]
      rw [List.pairwise_cons] at hnd
      have he1 : e ∈ l := by
        rcases List.mem_cons.1 he with rfl | h1
        · exact absurd hp ha
        · exact h1
      obtain ⟨rest, h1, h2⟩ := ih hnd.2 he1
      refine ⟨rest, ?_, ?_⟩
      · simp only [List.dropWhile_cons, hb, if_true]
        exact h1
      · simp only [List.takeWhile_cons, hb, if_true]
        rw [List.cons_append, ← h2]

theorem keys_before_lt (pre rest : List (hash_entry V)) (e : hash_entry V) (k : Nat)
    (hs : (pre ++ e :: rest).Pairwise (fun a b => a.key < b.key)) (hk : e.key < k) :
    ∀ x ∈ pre ++ [e], x.key < k := by
  intro x hx
  rw [List.pairwise_append] at hs
  rcases List.mem_append.1 hx with h1 | h1
  · have := hs.2.2 x h1 e (List.mem_cons_self _ _)
    omega
  · rw [List.mem_singleton] at h1
    subst h1
    exact hk

theorem find_from (nodes : List (hash_entry V)) (head key : Nat) (e : hash_entry V)
    (hs : nodes.Pairwise (fun a b => a.key < b.key))
    (hnd : nodes.Pairwise (fun x y => x.addr ≠ y.addr))
    (he : e ∈ nodes) (hp : e.addr = PTR_OF head) (hk : e.key < key) :
    find nodes head key = .ok (walk_find key nodes) := by
  obtain ⟨rest, h1, h2⟩ := dropWhile_addr nodes (PTR_OF head) e hnd he hp
  unfold find
  rw [h1]
  simp only []
  congr 1
  have h3 : nodes = (nodes.takeWhile (fun x => x.addr != PTR_OF head) ++ [e]) ++ rest := by
    rw [List.append_assoc]; exact h2
  rw [h2] at hs
  have hlt := keys_before_lt _ rest e key hs hk
  conv => rhs; rw [h3]
  rw [walk_find_append key _ rest hlt]
  simp only [walk_find, hk, if_true]

theorem insert_from (nodes : List (hash_entry V)) (head : Nat) (node e : hash_entry V)
    (hs : nodes.Pairwise (fun a b => a.key < b.key))
    (hnd : nodes.Pairwise (fun x y => x.addr ≠ y.addr))
    (he : e ∈ nodes) (hp : e.addr = PTR_OF head) (hk : e.key < node.key) :
    insert nodes head node = .ok (walk_insert node nodes) := by
  obtain ⟨rest, h1, h2⟩ := dropWhile_addr nodes (PTR_OF head) e hnd he hp
  unfold insert
  rw [h1]
  simp only [hk, if_true]
  have h3 : nodes = (nodes.takeWhile (fun x => x.addr != PTR_OF head) ++ [e]) ++ rest := by
    rw [List.append_assoc]; exact h2
  rw [h2] at hs
  have hlt := keys_before_lt _ rest e node.key hs hk
  conv => rhs; rw [h3]
  rw [walk_insert_append node _ rest hlt]
  cases walk_insert node rest with
  | inserted l => simp only [List.append_assoc, List.singleton_append]
  | collides p => rfl

theorem remove_from (nodes : List (hash_entry V)) (head key : Nat) (e : hash_entry V)
    (hs : nodes.Pairwise (fun a b => a.key < b.key))
    (hnd : nodes.Pairwise (fun x y => x.addr ≠ y.addr))
    (he : e ∈ nodes) (hp : e.addr = PTR_OF head) (hk : e.key < key) :
    remove nodes head key = .ok (walk_remove key nodes) := by
  obtain ⟨rest, h1, h2⟩ := dropWhile_addr nodes (PTR_OF head) e hnd he hp
  unfold remove
  rw [h1]
  simp only [hk, if_true]
  have h3 : nodes = (nodes.takeWhile (fun x => x.addr != PTR_OF head) ++ [e]) ++ rest := by
    rw [List.append_assoc]; exact h2
  rw [h2] at hs
  have hlt := keys_before_lt _ rest e key hs hk
  conv => rhs; rw [h3]
  rw [walk_remove_append key _ rest hlt]
  cases walk_remove key rest with
  | none => rfl
  | some l => simp only [Option.map, List.append_assoc, List.singleton_append]

end list_ops

end splitordered

/-! ## The operations as `enter` followed by a list operation -/

namespace splitordered

/-! ## The table -/

theorem CONSTRUCT_even (a : Nat) (h : a % 2 = 0) : CONSTRUCT 0 a = a := by
  show 2 * (a / 2) + 0 % 2 = a
  omega

theorem PTR_OF_even (a : Nat) (h : a % 2 = 0) : PTR_OF a = a := by
  show 2 * (a / 2) = a
  omega

theorem hashword_lt (key : Nat) : hashword key < 2 ^ 63 := by
  unfold hashword
  exact Nat.mod_lt _ (by decide)

theorem and_MSB (h : Nat) (hh : h < 2 ^ 63) : h &&& MSB = 0 := by
  unfold MSB
  apply Nat.eq_of_testBit_eq
  intro i
  rw [Nat.testBit_and, Nat.testBit_two_pow, Nat.zero_testBit]
  by_cases hi : 63 = i
  · subst hi
    rw [Nat.testBit_lt_two_pow hh]; rfl
  · simp [hi]

namespace hash_table

variable {V : Type} [Inhabited V]

theorem initialize_bucket_succ (depth : Nat) (t : hash_table V) (bucket : Nat) :
    initialize_bucket (depth + 1) t bucket =
      (t.buckets_.load (get_parent bucket) >>= fun p =>
        (if p = UNINITIALIZED then initialize_bucket depth t (get_parent bucket) else pure t) >>=
          fun t1 => link_dummy t1 bucket (get_parent bucket)) := by
  conv => lhs; unfold initialize_bucket
  simp only []
  refine bind_congr (fun p => ?_)
  split
  · rfl
  · rw [pure_bind, pure_bind]
    rfl

theorem get_eq (t : hash_table V) (key : Nat) :
    t.get key =
      (enter t (hashword (key % 2 ^ 64)) >>= fun x =>
        list_ops.find x.1.nodes x.2 (regularkey (hashword (key % 2 ^ 64))) >>= fun r =>
          pure (r, x.1)) := by
  unfold get enter
  simp only [bind_assoc, pure_bind]
  refine bind_congr (fun sz => bind_congr (fun b => ?_))
  split <;> simp only [bind_assoc, pure_bind]

theorem remove_eq (t : hash_table V) (key : Nat) :
    t.remove key =
      (enter t (hashword (key % 2 ^ 64)) >>= fun x =>
        list_ops.remove x.1.nodes x.2 (regularkey (hashword (key % 2 ^ 64))) >>= fun r =>
          pure (remove_done x.1 r)) := by
  unfold remove enter
  simp only [bind_assoc, pure_bind]
  refine bind_congr (fun sz => bind_congr (fun b => ?_))
  split
  · simp only [bind_assoc, pure_bind]
    refine bind_congr (fun y => bind_congr (fun head => bind_congr (fun r => ?_)))
    cases r <;> rfl
  · simp only [bind_assoc, pure_bind]
    refine bind_congr (fun head => bind_congr (fun r => ?_))
    cases r <;> rfl

theorem put_eq (t : hash_table V) (env : environment) (key : Nat) (value : V) :
    t.put env key value =
      (enter { t with brk := t.brk + 2 } (hashword (key % 2 ^ 64)) >>= fun x =>
        list_ops.insert x.1.nodes x.2
          { addr := t.brk, key := regularkey (hashword (key % 2 ^ 64)), value := value } >>=
        fun r => put_done env x.1 r) := by
  have h0 := and_MSB _ (hashword_lt (key % 2 ^ 64))
  unfold put enter
  simp only [bind_assoc, pure_bind, h0, ne_eq, not_true_eq_false, if_false]
  refine bind_congr (fun sz => bind_congr (fun b => ?_))
  split
  · simp only [bind_assoc, pure_bind]
    refine bind_congr (fun y => bind_congr (fun head => bind_congr (fun r => ?_)))
    cases r <;> rfl
  · simp only [bind_assoc, pure_bind]
    refine bind_congr (fun head => bind_congr (fun r => ?_))
    cases r <;> rfl

end hash_table

end splitordered

/-! ## Bucket initialisation -/

namespace splitordered

namespace hash_table

variable {V : Type} [Inhabited V]

theorem link_dummy_spec (t : hash_table V) (b parent p : Nat) (hI : Inv t)
    (hb : b < 2 ^ (t.buckets_.num_populated_buckets_ - 1))
    (hbu : t.buckets_.load b = .ok UNINITIALIZED)
    (hpb : parent < b)
    (hp : t.buckets_.load parent = .ok p) (hp0 : p ≠ UNINITIALIZED)
    (hlt : dummykey parent < dummykey b) :
    ∃ t1, link_dummy t b parent = .ok t1 ∧ Inv t1 ∧
      t1.buckets_.num_populated_buckets_ = t.buckets_.num_populated_buckets_ ∧
      t1.count = t.count ∧
      (∀ k, k % 2 = 1 → list_ops.walk_find k t1.nodes = list_ops.walk_find k t.nodes) ∧
      t1.buckets_.load b = .ok t.brk ∧
      (∀ j, j + 1 < 2 ^ 31 → j ≠ b → t1.buckets_.load j = t.buckets_.load j) ∧
      t1.brk = t.brk + 2 ∧
      (∀ x ∈ t1.nodes, x ∈ t.nodes ∨ t.brk ≤ x.addr) := by
  have hb31 := doubling_list.lt_size_lt hI.wf b hb
  obtain ⟨_, e, he, hea, hek⟩ := hI.slot parent p (by omega) hp hp0
  have hpe : p % 2 = 0 := by rw [← hea]; exact (hI.addr e he).1
  have hb63 : b < 2 ^ 63 := by omega
  have hdk : dummykey b % 2 = 0 := dummykey_even b hb63
  have hins := list_ops.insert_from t.nodes p
    ({ addr := t.brk, key := dummykey b, value := default } : hash_entry V) e
    hI.sorted hI.nodup he (by rw [PTR_OF_even p hpe]; exact hea) (by rw [hek]; exact hlt)
  have hbrk := hI.brk_even
  unfold link_dummy
  simp only []
  rw [hp, bind_ok, hins, bind_ok]
  cases hw : list_ops.walk_insert
      ({ addr := t.brk, key := dummykey b, value := default } : hash_entry V) t.nodes with
  | collides q =>
    exfalso
    obtain ⟨e1, he1, hk1, _⟩ := list_ops.walk_insert_collides _ _ _ hw
    simp only [] at hk1
    obtain ⟨i, hi, hik, hil⟩ := hI.dummies e1 he1 (by rw [hk1]; exact hdk)
    have hi31 := doubling_list.lt_size_lt hI.wf i hi
    have : i = b := REVERSE_inj i b (by omega) (by omega) (by
      have : dummykey i = dummykey b := by rw [← hik, hk1]
      exact this)
    subst this
    rw [hbu] at hil
    injection hil with hil
    have h0 : e1.addr = 0 := hil.symm
    have := (hI.addr e1 he1).2.1
    omega
  | inserted l1 =>
    simp only []
    rw [CONSTRUCT_even _ hbrk.1]
    obtain ⟨dl1, hs1, hwf1, hn1, hl1, hoth⟩ :=
      doubling_list.store_spec hI.wf b UNINITIALIZED t.brk hb31 hbu
    rw [hs1, bind_ok]
    have hperm := list_ops.walk_insert_perm _ _ _ hw
    have hmem : ∀ x, x ∈ l1 ↔
        x = ({ addr := t.brk, key := dummykey b, value := default } : hash_entry V) ∨
          x ∈ t.nodes := by
      intro x
      rw [hperm.mem_iff, List.mem_cons]
    refine ⟨_, rfl, ?_, hn1, rfl, ?_, hl1, hoth, rfl, ?_⟩
    rotate_right
    · intro x hx
      rcases (hmem x).1 hx with rfl | hx1
      · exact Or.inr (le_refl _)
      · exact Or.inl hx1
    · refine ⟨hwf1, list_ops.walk_insert_sorted _ _ _ hI.sorted hw, ?_, ?_, ?_, ?_, ?_, ?_, ?_, ?_⟩
      · refine (hperm.pairwise_iff (fun h => Ne.symm h)).2 ?_
        rw [List.pairwise_cons]
        refine ⟨?_, hI.nodup⟩
        intro x hx
        have := (hI.addr x hx).2.2
        simp only []
        omega
      · intro x hx
        rcases (hmem x).1 hx with rfl | hx1
        · simp only []
          exact ⟨hbrk.1, hbrk.2, by omega⟩
        · have := hI.addr x hx1
          simp only []
          exact ⟨this.1, this.2.1, by omega⟩
      · simp only []
        omega
      · intro i v hi hv hv0
        simp only [] at hv ⊢
        rw [hn1]
        by_cases hib : i = b
        · subst hib
          rw [hl1] at hv
          injection hv with hv
          exact ⟨hb, _, (hmem _).2 (Or.inl rfl), hv, rfl⟩
        · rw [hoth i hi hib] at hv
          obtain ⟨h1, e2, h2, h3, h4⟩ := hI.slot i v hi hv hv0
          exact ⟨h1, e2, (hmem _).2 (Or.inr h2), h3, h4⟩
      · obtain ⟨v0, h1, h2⟩ := hI.slot0
        have hb0 : (0 : Nat) ≠ b := by
          intro hc
          rw [← hc, h1] at hbu
          injection hbu with hbu
          exact h2 hbu
        exact ⟨v0, by simp only []; rw [hoth 0 (by decide) hb0]; exact h1, h2⟩
      · intro x hx hxe
        simp only [] at hx ⊢
        rw [hn1]
        rcases (hmem x).1 hx with rfl | hx1
        · exact ⟨b, hb, rfl, hl1⟩
        · obtain ⟨i, h1, h2, h3⟩ := hI.dummies x hx1 hxe
          have hib : i ≠ b := by
            intro hc
            rw [hc, hbu] at h3
            injection h3 with h3
            have h0 : x.addr = 0 := h3.symm
            have := (hI.addr x hx1).2.1
            omega
          exact ⟨i, h1, h2, by
            rw [hoth i (doubling_list.lt_size_lt hI.wf i h1) hib]; exact h3⟩
      · simp only []
        rw [hI.count, hperm.countP_eq, List.countP_cons_of_neg]
        simp only [beq_iff_eq]
        omega
      · simp only []
        rw [hn1]
        exact hI.load_le
    · intro k hk
      simp only []
      rw [list_ops.walk_find_insert _ k _ _ hw]
      have : ¬ k = dummykey b := by omega
      simp only [this, if_false]

theorem parent_facts (b depth : Nat) (hb0 : b ≠ 0) (hb : b < 2 ^ 30) (hd : b < 2 ^ (depth + 1)) :
    get_parent b < b ∧ get_parent b < 2 ^ depth ∧ dummykey (get_parent b) < dummykey b := by
  have h1 : 2 ^ Nat.log2 b ≤ b := Nat.log2_self_le hb0
  have h2 : b < 2 ^ (Nat.log2 b + 1) := Nat.lt_log2_self
  have hk : Nat.log2 b < 30 := (Nat.log2_lt hb0).2 hb
  have hkd : Nat.log2 b < depth + 1 := (Nat.log2_lt hb0).2 hd
  have hp := get_parent_eq b (Nat.log2 b) (by omega) h1 h2
  have hlt : b % 2 ^ Nat.log2 b < 2 ^ Nat.log2 b := Nat.mod_lt _ (Nat.pow_pos (by decide))
  have hle : 2 ^ Nat.log2 b ≤ 2 ^ depth := Nat.pow_le_pow_right (by decide) (by omega)
  refine ⟨by omega, by omega, dummykey_parent_lt b (Nat.log2 b) (by omega) h1 h2⟩

theorem init_spec (depth : Nat) : ∀ (t : hash_table V) (b : Nat), Inv t →
    b < 2 ^ (t.buckets_.num_populated_buckets_ - 1) →
    t.buckets_.load b = .ok UNINITIALIZED → b < 2 ^ depth →
    (chain_ok t.buckets_ depth b = true →
      ∃ t1, initialize_bucket depth t b = .ok t1 ∧ Inv t1 ∧
        t1.buckets_.num_populated_buckets_ = t.buckets_.num_populated_buckets_ ∧
        t1.count = t.count ∧ t.brk ≤ t1.brk ∧
        (∀ x ∈ t1.nodes, x ∈ t.nodes ∨ t.brk ≤ x.addr) ∧
        (∀ k, k % 2 = 1 → list_ops.walk_find k t1.nodes = list_ops.walk_find k t.nodes) ∧
        (∃ v, t1.buckets_.load b = .ok v ∧ v ≠ UNINITIALIZED) ∧
        (∀ j, j + 1 < 2 ^ 31 → t1.buckets_.load j = t.buckets_.load j ∨
          (t.buckets_.load j = .ok UNINITIALIZED ∧ j ≤ b ∧ ∃ v, t1.buckets_.load j = .ok v))) ∧
    (chain_ok t.buckets_ depth b = false →
      initialize_bucket depth t b = .error .out_of_bounds) := by
  induction depth with
  | zero =>
    intro t b hI hb hbu hd
    exfalso
    obtain ⟨v0, h1, h2⟩ := hI.slot0
    have : b = 0 := by simpa using hd
    subst this
    rw [h1] at hbu
    injection hbu with hbu
    exact h2 hbu
  | succ depth ih =>
    intro t b hI hb hbu hd
    have hb0 : b ≠ 0 := by
      intro hc
      obtain ⟨v0, h1, h2⟩ := hI.slot0
      subst hc
      rw [h1] at hbu
      injection hbu with hbu
      exact h2 hbu
    have hb31 := doubling_list.lt_size_lt hI.wf b hb
    have hsz : 2 ^ (t.buckets_.num_populated_buckets_ - 1) ≤ 2 ^ 30 :=
      Nat.pow_le_pow_right (by decide) (by have := hI.wf.le; omega)
    obtain ⟨hpb, hpd, hkey⟩ := parent_facts b depth hb0 (by omega) hd
    have hps : get_parent b < 2 ^ (t.buckets_.num_populated_buckets_ - 1) := by omega
    rw [initialize_bucket_succ]
    cases hlp : t.buckets_.load (get_parent b) with
    | error e =>
      have := doubling_list.load_error hI.wf _ e hps hlp
      subst this
      have hc : chain_ok t.buckets_ (depth + 1) b = false := by
        simp only [chain_ok, hlp]
      rw [hc]
      exact ⟨fun h => (by cases h), fun _ => rfl⟩
    | ok p =>
      rw [bind_ok]
      by_cases hp0 : p = UNINITIALIZED
      · subst hp0
        have hc : chain_ok t.buckets_ (depth + 1) b =
            chain_ok t.buckets_ depth (get_parent b) := by
          simp only [chain_ok, hlp, if_true]
        rw [hc, if_pos rfl]
        obtain ⟨ih1, ih2⟩ := ih t (get_parent b) hI hps hlp hpd
        constructor
        · intro hc
          obtain ⟨t1, e1, hI1, hn1, hc1, hbrk1, hnew1, hw1, ⟨v1, hv1, hv10⟩, hext1⟩ := ih1 hc
          rw [e1, bind_ok]
          have hbu1 : t1.buckets_.load b = .ok UNINITIALIZED := by
            rcases hext1 b hb31 with h | ⟨_, h, _⟩
            · rw [h]; exact hbu
            · omega
          obtain ⟨t2, e2, hI2, hn2, hc2, hw2, hl2, hoth2, hbrk2, hnew2⟩ :=
            link_dummy_spec t1 b (get_parent b) v1 hI1 (by rw [hn1]; exact hb) hbu1 hpb hv1 hv10 hkey
          refine ⟨t2, e2, hI2, by rw [hn2, hn1], by rw [hc2, hc1], by omega, ?_, ?_, ?_, ?_⟩
          · intro x hx
            rcases hnew2 x hx with h1 | h1
            · rcases hnew1 x h1 with h2 | h2
              · exact Or.inl h2
              · exact Or.inr h2
            · exact Or.inr (by omega)
          · intro k hk
            rw [hw2 k hk, hw1 k hk]
          · refine ⟨t1.brk, hl2, ?_⟩
            intro h0
            have h1 : t1.brk = 0 := h0
            have := hI1.brk_even.2
            omega
          · intro j hj
            by_cases hjb : j = b
            · subst hjb
              exact Or.inr ⟨hbu, le_refl _, _, hl2⟩
            · rw [hoth2 j hj hjb]
              rcases hext1 j hj with h | ⟨h1, h2, h3⟩
              · exact Or.inl h
              · exact Or.inr ⟨h1, by omega, h3⟩
        · intro hc
          rw [ih2 hc, bind_error]
      · have hc : chain_ok t.buckets_ (depth + 1) b = true := by
          simp only [chain_ok, hlp, hp0, if_false]
        rw [hc, if_neg hp0]
        refine ⟨fun _ => ?_, fun h => by cases h⟩
        rw [pure_bind]
        obtain ⟨t2, e2, hI2, hn2, hc2, hw2, hl2, hoth2, hbrk2, hnew2⟩ :=
          link_dummy_spec t b (get_parent b) p hI hb hbu hpb hlp hp0 hkey
        refine ⟨t2, e2, hI2, hn2, hc2, by omega, hnew2, hw2, ?_, ?_⟩
        · refine ⟨t.brk, hl2, ?_⟩
          intro h0
          have h1 : t.brk = 0 := h0
          have := hI.brk_even.2
          omega
        · intro j hj
          by_cases hjb : j = b
          · subst hjb
            exact Or.inr ⟨hbu, le_refl _, _, hl2⟩
          · exact Or.inl (hoth2 j hj hjb)

theorem enter_ok_at_error (depth : Nat) (dl : doubling_list) (h sz : Nat) (e : Fault)
    (hsz : dl.size = .ok sz) (hl : dl.load (h % sz) = .error e) :
    enter_ok_at depth dl h = false := by
  simp only [enter_ok_at, hsz, hl]

theorem enter_ok_at_ok (depth : Nat) (dl : doubling_list) (h sz v : Nat)
    (hsz : dl.size = .ok sz) (hl : dl.load (h % sz) = .ok v) :
    enter_ok_at depth dl h = if v = UNINITIALIZED then chain_ok dl depth (h % sz) else true := by
  simp only [enter_ok_at, hsz, hl]

theorem enter_spec (t : hash_table V) (h : Nat) (hI : Inv t) (hh : h < 2 ^ 63) :
    (enter_ok t.buckets_ h = true →
      ∃ t1 head e, enter t h = .ok (t1, head) ∧ Inv t1 ∧
        t1.buckets_.num_populated_buckets_ = t.buckets_.num_populated_buckets_ ∧
        t1.count = t.count ∧ t1.brk ≥ t.brk ∧
        (∀ x ∈ t1.nodes, x ∈ t.nodes ∨ t.brk ≤ x.addr) ∧
        (∀ k, k % 2 = 1 → list_ops.walk_find k t1.nodes = list_ops.walk_find k t.nodes) ∧
        e ∈ t1.nodes ∧ e.addr = PTR_OF head ∧ e.key < regularkey h ∧
        t1.buckets_.load (h % 2 ^ (t.buckets_.num_populated_buckets_ - 1)) = .ok head ∧
        head ≠ UNINITIALIZED ∧
        (∀ j, j + 1 < 2 ^ 31 → t1.buckets_.load j = t.buckets_.load j ∨
          (t.buckets_.load j = .ok UNINITIALIZED ∧ ∃ v, t1.buckets_.load j = .ok v)) ∧
        (∀ v, t.buckets_.load (h % 2 ^ (t.buckets_.num_populated_buckets_ - 1)) = .ok v →
          v ≠ UNINITIALIZED → t1 = t)) ∧
    (enter_ok t.buckets_ h = false → enter t h = .error .out_of_bounds) := by
  have hsz := doubling_list.size_of_wf hI.wf
  have hpos : 0 < 2 ^ (t.buckets_.num_populated_buckets_ - 1) := Nat.pow_pos (by decide)
  have hb : h % 2 ^ (t.buckets_.num_populated_buckets_ - 1) <
      2 ^ (t.buckets_.num_populated_buckets_ - 1) := Nat.mod_lt _ hpos
  have hb31 := doubling_list.lt_size_lt hI.wf _ hb
  have hkey := dummykey_lt_regularkey h (t.buckets_.num_populated_buckets_ - 1) hh
    (by have := hI.wf.le; omega)
  unfold enter
  rw [hsz, bind_ok]
  simp only []
  cases hl : t.buckets_.load (h % 2 ^ (t.buckets_.num_populated_buckets_ - 1)) with
  | error e =>
    have := doubling_list.load_error hI.wf _ e hb hl
    subst this
    have hc : enter_ok t.buckets_ h = false := enter_ok_at_error 65 _ _ _ _ hsz hl
    rw [hc]
    exact ⟨fun hx => (by cases hx), fun _ => rfl⟩
  | ok v =>
    rw [bind_ok]
    by_cases hv : v = UNINITIALIZED
    · subst hv
      have hc : enter_ok t.buckets_ h =
          chain_ok t.buckets_ 65 (h % 2 ^ (t.buckets_.num_populated_buckets_ - 1)) := by
        have := enter_ok_at_ok 65 _ _ _ _ hsz hl
        rw [if_pos rfl] at this
        exact this
      rw [hc, if_pos rfl]
      obtain ⟨i1, i2⟩ := init_spec 65 t _ hI hb hl (by
        have : (2 : Nat) ^ 31 ≤ 2 ^ 65 := Nat.pow_le_pow_right (by decide) (by decide)
        omega)
      constructor
      · intro hx
        obtain ⟨t1, e1, hI1, hn1, hc1, hbrk1, hnew1, hw1, ⟨v1, hv1, hv10⟩, hext1⟩ := i1 hx
        rw [e1, bind_ok, hv1, bind_ok]
        obtain ⟨_, e, he, hea, hek⟩ := hI1.slot _ v1 hb31 hv1 hv10
        have hve : v1 % 2 = 0 := by rw [← hea]; exact (hI1.addr e he).1
        refine ⟨t1, v1, e, rfl, hI1, hn1, hc1, ?_, hnew1, hw1, he, ?_, ?_, hv1, hv10, ?_, ?_⟩
        · exact hbrk1
        · rw [PTR_OF_even v1 hve]; exact hea
        · rw [hek]; exact hkey
        · intro j hj
          rcases hext1 j hj with h1 | ⟨h1, _, h3⟩
          · exact Or.inl h1
          · exact Or.inr ⟨h1, h3⟩
        · intro v hv hv0
          injection hv with hv
          exact absurd hv.symm hv0
      · intro hx
        rw [i2 hx, bind_error]
    · have hc : enter_ok t.buckets_ h = true := by
        have := enter_ok_at_ok 65 _ _ _ _ hsz hl
        rw [if_neg hv] at this
        exact this
      rw [hc, if_neg hv, pure_bind, hl, bind_ok]
      refine ⟨fun _ => ?_, fun hx => (by cases hx)⟩
      obtain ⟨_, e, he, hea, hek⟩ := hI.slot _ v hb31 hl hv
      have hve : v % 2 = 0 := by rw [← hea]; exact (hI.addr e he).1
      refine ⟨t, v, e, rfl, hI, rfl, rfl, le_refl _, fun _ hx => Or.inl hx, fun _ _ => rfl,
        he, ?_, ?_, hl, hv,
        fun j _ => Or.inl rfl, fun _ _ _ => rfl⟩
      · rw [PTR_OF_even v hve]; exact hea
      · rw [hek]; exact hkey

end hash_table

end splitordered

/-! ## `get` and `remove` -/

namespace splitordered

namespace hash_table

variable {V : Type} [Inhabited V]

theorem to_size_t_natCast (c : Nat) (h : c < 2 ^ 64) : to_size_t (c : Int) = c := by
  unfold to_size_t
  have : ((c : Int) % 2 ^ 64) = ((c % 2 ^ 64 : Nat) : Int) := by
    norm_cast
  rw [this, Int.toNat_ofNat, Nat.mod_eq_of_lt h]

theorem Inv_alloc (t : hash_table V) (hI : Inv t) : Inv { t with brk := t.brk + 2 } := by
  refine ⟨hI.wf, hI.sorted, hI.nodup, ?_, ?_, hI.slot, hI.slot0, hI.dummies, hI.count, hI.load_le⟩
  · intro e he
    have := hI.addr e he
    exact ⟨this.1, this.2.1, by simp only []; omega⟩
  · have := hI.brk_even
    simp only []
    omega

theorem enter_ok_of_slot (dl : doubling_list) (h head : Nat) (hw : dl.wf)
    (hl : dl.load (h % 2 ^ (dl.num_populated_buckets_ - 1)) = .ok head)
    (h0 : head ≠ UNINITIALIZED) : enter_ok dl h = true := by
  have := enter_ok_at_ok 65 dl h _ head (doubling_list.size_of_wf hw) hl
  rw [if_neg h0] at this
  exact this

theorem get_spec (t : hash_table V) (k : Nat) (hI : Inv t) :
    (enter_ok t.buckets_ (hashword (k % 2 ^ 64)) = true →
      ∃ t1, t.get k = .ok (content t (hashword (k % 2 ^ 64)), t1) ∧ Inv t1 ∧
        t1.buckets_.num_populated_buckets_ = t.buckets_.num_populated_buckets_ ∧
        t1.count = t.count ∧
        (∀ x, x % 2 = 1 → list_ops.walk_find x t1.nodes = list_ops.walk_find x t.nodes) ∧
        (∀ j, j + 1 < 2 ^ 31 → t1.buckets_.load j = t.buckets_.load j ∨
          (t.buckets_.load j = .ok UNINITIALIZED ∧ ∃ v, t1.buckets_.load j = .ok v)) ∧
        enter_ok t1.buckets_ (hashword (k % 2 ^ 64)) = true) ∧
    (enter_ok t.buckets_ (hashword (k % 2 ^ 64)) = false →
      t.get k = .error .out_of_bounds) := by
  have hh := hashword_lt (k % 2 ^ 64)
  obtain ⟨s1, s2⟩ := enter_spec t _ hI hh
  rw [get_eq]
  constructor
  · intro hx
    obtain ⟨t1, head, e, e1, hI1, hn1, hc1, _, _, hw1, he, hea, hek, hl1, hh0, hext, _⟩ := s1 hx
    rw [e1, bind_ok]
    simp only []
    rw [list_ops.find_from t1.nodes head _ e hI1.sorted hI1.nodup he hea hek, bind_ok]
    refine ⟨t1, ?_, hI1, hn1, hc1, hw1, hext, ?_⟩
    · unfold content
      rw [hw1 _ (regularkey_odd _ hh)]
      rfl
    · exact enter_ok_of_slot _ _ head hI1.wf (by rw [hn1]; exact hl1) hh0
  · intro hx
    rw [s2 hx, bind_error]

theorem Inv_remove (t : hash_table V) (key : Nat) (l1 : List (hash_entry V)) (hI : Inv t)
    (hk : key % 2 = 1) (hr : list_ops.walk_remove key t.nodes = some l1) :
    Inv { t with nodes := l1, count := t.count + -1 } := by
  obtain ⟨e, hek, hperm⟩ := list_ops.walk_remove_perm key t.nodes l1 hr
  have hmem : ∀ x, x ∈ t.nodes ↔ x = e ∨ x ∈ l1 := by
    intro x
    rw [hperm.mem_iff, List.mem_cons]
  have hsub : ∀ x, x ∈ l1 → x ∈ t.nodes := fun x hx => (hmem x).2 (Or.inr hx)
  have hkeep : ∀ x, x ∈ t.nodes → x.key % 2 = 0 → x ∈ l1 := by
    intro x hx hxe
    rcases (hmem x).1 hx with rfl | h1
    · omega
    · exact h1
  have hcnt : t.nodes.countP (fun e => e.key % 2 == 1) =
      l1.countP (fun e => e.key % 2 == 1) + 1 := by
    rw [hperm.countP_eq, List.countP_cons_of_pos]
    simp only [beq_iff_eq]
    omega
  refine ⟨hI.wf, list_ops.walk_remove_sorted key _ _ hI.sorted hr, ?_, ?_, hI.brk_even, ?_,
    hI.slot0, ?_, ?_, ?_⟩
  · have := (hperm.pairwise_iff (fun h => Ne.symm h)).1 hI.nodup
    exact (List.pairwise_cons.1 this).2
  · intro x hx
    exact hI.addr x (hsub x hx)
  · intro i v hi hv hv0
    obtain ⟨h1, x, hx, hxa, hxk⟩ := hI.slot i v hi hv hv0
    have hi63 : i < 2 ^ 63 := by omega
    exact ⟨h1, x, hkeep x hx (by rw [hxk]; exact dummykey_even i hi63), hxa, hxk⟩
  · intro x hx hxe
    exact hI.dummies x (hsub x hx) hxe
  · simp only []
    rw [hI.count, hcnt]
    push_cast
    ring
  · simp only []
    have := hI.load_le
    omega

theorem remove_spec (t : hash_table V) (k : Nat) (hI : Inv t) :
    (enter_ok t.buckets_ (hashword (k % 2 ^ 64)) = true →
      ∃ t1, t.remove k = .ok ((content t (hashword (k % 2 ^ 64))).isSome, t1) ∧ Inv t1 ∧
        t1.buckets_.num_populated_buckets_ = t.buckets_.num_populated_buckets_ ∧
        t1.count = t.count - (if (content t (hashword (k % 2 ^ 64))).isSome then 1 else 0) ∧
        (∀ x, x % 2 = 1 → list_ops.walk_find x t1.nodes =
          if x = regularkey (hashword (k % 2 ^ 64)) then none
          else list_ops.walk_find x t.nodes) ∧
        (∀ j, j + 1 < 2 ^ 31 → t1.buckets_.load j = t.buckets_.load j ∨
          (t.buckets_.load j = .ok UNINITIALIZED ∧ ∃ v, t1.buckets_.load j = .ok v)) ∧
        enter_ok t1.buckets_ (hashword (k % 2 ^ 64)) = true) ∧
    (enter_ok t.buckets_ (hashword (k % 2 ^ 64)) = false →
      t.remove k = .error .out_of_bounds) := by
  have hh := hashword_lt (k % 2 ^ 64)
  have hodd := regularkey_odd _ hh
  obtain ⟨s1, s2⟩ := enter_spec t _ hI hh
  rw [remove_eq]
  constructor
  · intro hx
    obtain ⟨t1, head, e, e1, hI1, hn1, hc1, _, _, hw1, he, hea, hek, hl1, hh0, hext, _⟩ := s1 hx
    rw [e1, bind_ok]
    simp only []
    rw [list_ops.remove_from t1.nodes head _ e hI1.sorted hI1.nodup he hea hek, bind_ok]
    have hok := enter_ok_of_slot _ _ head hI1.wf (by rw [hn1]; exact hl1) hh0
    have hcont : content t (hashword (k % 2 ^ 64)) =
        list_ops.walk_find (regularkey (hashword (k % 2 ^ 64))) t1.nodes := by
      unfold content
      rw [hw1 _ hodd]
    cases hr : list_ops.walk_remove (regularkey (hashword (k % 2 ^ 64))) t1.nodes with
    | none =>
      have hnone := (list_ops.walk_remove_none_iff _ _).1 hr
      rw [hcont, hnone]
      refine ⟨t1, rfl, hI1, hn1, by simp [hc1], ?_, hext, hok⟩
      intro x hx1
      rw [hw1 x hx1]
      by_cases hxk : x = regularkey (hashword (k % 2 ^ 64))
      · rw [if_pos hxk, hxk, ← hw1 _ hodd, hnone]
      · rw [if_neg hxk]
    | some l1 =>
      have hsome : (list_ops.walk_find (regularkey (hashword (k % 2 ^ 64))) t1.nodes).isSome
          = true := by
        cases hf : list_ops.walk_find (regularkey (hashword (k % 2 ^ 64))) t1.nodes with
        | none =>
          have := (list_ops.walk_remove_none_iff _ _).2 hf
          rw [this] at hr; cases hr
        | some v => rfl
      rw [hcont, hsome]
      refine ⟨_, rfl, Inv_remove t1 _ l1 hI1 hodd hr, hn1, ?_, ?_, hext, hok⟩
      · simp only [remove_done, hc1, if_true]
        ring
      · intro x hx1
        simp only [remove_done]
        rw [list_ops.walk_find_remove _ x _ _ hI1.sorted hr, hw1 x hx1]
  · intro hx
    rw [s2 hx, bind_error]

end hash_table

end splitordered

/-! ## `put` -/

namespace splitordered

namespace hash_table

variable {V : Type} [Inhabited V]

theorem Inv_insert (t : hash_table V) (node : hash_entry V) (l1 : List (hash_entry V))
    (dl : doubling_list) (hI : Inv t) (hk : node.key % 2 = 1)
    (ha : node.addr % 2 = 0 ∧ 0 < node.addr ∧ node.addr < t.brk)
    (hfresh : ∀ x ∈ t.nodes, x.addr ≠ node.addr)
    (hw : list_ops.walk_insert node t.nodes = .inserted l1)
    (hwf : dl.wf)
    (hn : t.buckets_.num_populated_buckets_ ≤ dl.num_populated_buckets_)
    (hkeep : ∀ j v, j + 1 < 2 ^ 31 → t.buckets_.load j = .ok v → dl.load j = .ok v)
    (hold : ∀ j v, j + 1 < 2 ^ 31 → dl.load j = .ok v →
      t.buckets_.load j = .ok v ∨ v = UNINITIALIZED)
    (hle : t.count + 1 ≤ 5 * 2 ^ (dl.num_populated_buckets_ - 1)) :
    Inv { buckets_ := dl, count := t.count + 1, nodes := l1, brk := t.brk } := by
  have hperm := list_ops.walk_insert_perm _ _ _ hw
  have hmem : ∀ x, x ∈ l1 ↔ x = node ∨ x ∈ t.nodes := by
    intro x
    rw [hperm.mem_iff, List.mem_cons]
  have hpow : 2 ^ (t.buckets_.num_populated_buckets_ - 1) ≤ 2 ^ (dl.num_populated_buckets_ - 1) :=
    Nat.pow_le_pow_right (by decide) (by omega)
  refine ⟨hwf, list_ops.walk_insert_sorted _ _ _ hI.sorted hw, ?_, ?_, hI.brk_even, ?_, ?_, ?_,
    ?_, hle⟩
  · refine (hperm.pairwise_iff (fun h => Ne.symm h)).2 ?_
    rw [List.pairwise_cons]
    exact ⟨fun x hx => Ne.symm (hfresh x hx), hI.nodup⟩
  · intro x hx
    rcases (hmem x).1 hx with rfl | hx1
    · exact ha
    · exact hI.addr x hx1
  · intro i v hi hv hv0
    rcases hold i v hi hv with h1 | h1
    · obtain ⟨h2, x, hx, hxa, hxk⟩ := hI.slot i v hi h1 hv0
      exact ⟨by simp only []; omega, x, (hmem x).2 (Or.inr hx), hxa, hxk⟩
    · exact absurd h1 hv0
  · obtain ⟨v0, h1, h2⟩ := hI.slot0
    exact ⟨v0, hkeep 0 v0 (by decide) h1, h2⟩
  · intro x hx hxe
    rcases (hmem x).1 hx with rfl | hx1
    · omega
    · obtain ⟨i, h1, h2, h3⟩ := hI.dummies x hx1 hxe
      exact ⟨i, by simp only []; omega, h2,
        hkeep i _ (doubling_list.lt_size_lt hI.wf i h1) h3⟩
  · simp only []
    rw [hI.count, hperm.countP_eq, List.countP_cons_of_pos]
    · push_cast; ring
    · simp only [beq_iff_eq]; exact hk

theorem count_bounds (t : hash_table V) (hI : Inv t) :
    0 ≤ t.count ∧ t.count < 2 ^ 64 ∧ to_size_t t.count = t.count.toNat := by
  have h1 := hI.count
  have h2 := hI.load_le
  have h3 : (2 : Int) ^ (t.buckets_.num_populated_buckets_ - 1) ≤ 2 ^ 30 := by
    have : (2 : Nat) ^ (t.buckets_.num_populated_buckets_ - 1) ≤ 2 ^ 30 :=
      Nat.pow_le_pow_right (by decide) (by have := hI.wf.le; omega)
    exact_mod_cast this
  have h0 : 0 ≤ t.count := by rw [h1]; exact Int.natCast_nonneg _
  have h64 : t.count < 2 ^ 64 := by
    have : (5 : Int) * 2 ^ 30 < 2 ^ 64 := by norm_num
    omega
  refine ⟨h0, h64, ?_⟩
  obtain ⟨c, hc⟩ := Int.eq_ofNat_of_zero_le h0
  rw [hc] at h64 ⊢
  rw [to_size_t_natCast c (by exact_mod_cast h64), Int.toNat_ofNat]

theorem grow_spec (env : environment) (t : hash_table V) (fetched : Int)
    (hwf : t.buckets_.wf) :
    (¬ to_size_t fetched / 2 ^ (t.buckets_.num_populated_buckets_ - 1) > MAX_LOAD →
      grow env t fetched = .ok (true, t)) ∧
    (to_size_t fetched / 2 ^ (t.buckets_.num_populated_buckets_ - 1) > MAX_LOAD →
      t.buckets_.num_populated_buckets_ < 31 → env.cas = true →
      grow env t fetched = .ok (true, { t with buckets_ :=
        { num_populated_buckets_ := t.buckets_.num_populated_buckets_ + 1,
          buckets_ := t.buckets_.buckets_.set t.buckets_.num_populated_buckets_
            (some (new_array_on env.fresh
              (2 ^ (t.buckets_.num_populated_buckets_ - 1)))) } })) ∧
    (to_size_t fetched / 2 ^ (t.buckets_.num_populated_buckets_ - 1) > MAX_LOAD →
      t.buckets_.num_populated_buckets_ = 31 → env.cas = true →
      grow env t fetched = .error .shift_overflow) ∧
    (to_size_t fetched / 2 ^ (t.buckets_.num_populated_buckets_ - 1) > MAX_LOAD →
      env.cas = false → grow env t fetched = .error .assertion) := by
  have hsz := doubling_list.size_of_wf hwf
  refine ⟨?_, ?_, ?_, ?_⟩
  · intro hc
    unfold grow
    rw [hsz, bind_ok, if_neg hc]
    rfl
  · intro hc hn hcas
    unfold grow
    rw [hsz, bind_ok, if_pos hc, doubling_list.double_size_grow env hwf hn hcas, bind_ok]
    simp only []
    have h2 := hwf.two_le
    have e1 : 2 ^ (t.buckets_.num_populated_buckets_ - 1) * 2 =
        2 ^ t.buckets_.num_populated_buckets_ := by
      rw [← pow_succ, Nat.sub_add_cancel (by omega)]
    have e2 : (2 : Nat) ^ t.buckets_.num_populated_buckets_ < 2 ^ 64 :=
      Nat.pow_lt_pow_right (by decide) (by omega)
    rw [e1, Nat.mod_eq_of_lt e2, if_pos (le_refl _)]
    rfl
  · intro hc hn hcas
    unfold grow
    rw [hsz, bind_ok, if_pos hc]
    have := doubling_list.double_size_overflow env hwf hn hcas
    rw [hn]
    rw [show (31 - 1) = 30 from rfl, this, bind_error]
  · intro hc hcas
    unfold grow
    rw [hsz, bind_ok, if_pos hc, doubling_list.double_size_spurious env hwf hcas, bind_ok]
    simp only []
    have h2 := hwf.two_le
    have hle := hwf.le
    have e1 : 2 ^ (t.buckets_.num_populated_buckets_ - 1) * 2 =
        2 ^ t.buckets_.num_populated_buckets_ := by
      rw [← pow_succ, Nat.sub_add_cancel (by omega)]
    have e2 : (2 : Nat) ^ t.buckets_.num_populated_buckets_ < 2 ^ 64 :=
      Nat.pow_lt_pow_right (by decide) (by omega)
    have hpos : 0 < 2 ^ (t.buckets_.num_populated_buckets_ - 1) := Nat.pow_pos (by decide)
    rw [e1, Nat.mod_eq_of_lt e2, if_neg (by rw [← e1]; omega)]

set_option maxHeartbeats 800000 in
theorem put_spec (t : hash_table V) (env : environment) (k : Nat) (v : V) (hI : Inv t) :
    (enter_ok t.buckets_ (hashword (k % 2 ^ 64)) = true →
      (∀ v0, content t (hashword (k % 2 ^ 64)) = some v0 →
        ∃ t1, t.put env k v = .ok (false, t1) ∧ Inv t1 ∧
          t1.buckets_.num_populated_buckets_ = t.buckets_.num_populated_buckets_ ∧
          t1.count = t.count ∧
          (∀ x, x % 2 = 1 → list_ops.walk_find x t1.nodes = list_ops.walk_find x t.nodes) ∧
          (∀ j, j + 1 < 2 ^ 31 → t1.buckets_.load j = t.buckets_.load j ∨
            (t.buckets_.load j = .ok UNINITIALIZED ∧ ∃ v, t1.buckets_.load j = .ok v)) ∧
          enter_ok t1.buckets_ (hashword (k % 2 ^ 64)) = true) ∧
      (content t (hashword (k % 2 ^ 64)) = none →
        (¬ to_size_t t.count / 2 ^ (t.buckets_.num_populated_buckets_ - 1) > MAX_LOAD →
          ∃ t1, t.put env k v = .ok (true, t1) ∧ Inv t1 ∧
            t1.buckets_.num_populated_buckets_ = t.buckets_.num_populated_buckets_ ∧
            t1.count = t.count + 1 ∧
            (∀ x, x % 2 = 1 → list_ops.walk_find x t1.nodes =
              if x = regularkey (hashword (k % 2 ^ 64)) then some v
              else list_ops.walk_find x t.nodes) ∧
            enter_ok t1.buckets_ (hashword (k % 2 ^ 64)) = true ∧
            (∀ j w, j + 1 < 2 ^ 31 → t.buckets_.load j = .ok w → w ≠ UNINITIALIZED →
              t1.buckets_.load j = .ok w)) ∧
        (to_size_t t.count / 2 ^ (t.buckets_.num_populated_buckets_ - 1) > MAX_LOAD →
          t.buckets_.num_populated_buckets_ < 31 → env.cas = true → env.zeroed →
          ∃ t1, t.put env k v = .ok (true, t1) ∧ Inv t1 ∧
            t1.buckets_.num_populated_buckets_ = t.buckets_.num_populated_buckets_ + 1 ∧
            t1.count = t.count + 1 ∧
            (∀ x, x % 2 = 1 → list_ops.walk_find x t1.nodes =
              if x = regularkey (hashword (k % 2 ^ 64)) then some v
              else list_ops.walk_find x t.nodes) ∧
            (∀ j w, j + 1 < 2 ^ 31 → t.buckets_.load j = .ok w → w ≠ UNINITIALIZED →
              t1.buckets_.load j = .ok w)) ∧
        (to_size_t t.count / 2 ^ (t.buckets_.num_populated_buckets_ - 1) > MAX_LOAD →
          t.buckets_.num_populated_buckets_ = 31 → env.cas = true →
          t.put env k v = .error .shift_overflow) ∧
        (to_size_t t.count / 2 ^ (t.buckets_.num_populated_buckets_ - 1) > MAX_LOAD →
          env.cas = false → t.put env k v = .error .assertion))) ∧
    (enter_ok t.buckets_ (hashword (k % 2 ^ 64)) = false →
      t.put env k v = .error .out_of_bounds) := by
  have hh := hashword_lt (k % 2 ^ 64)
  have hodd := regularkey_odd _ hh
  have hI0 := Inv_alloc t hI
  have s0 := enter_spec { t with brk := t.brk + 2 } _ hI0 hh
  simp only [] at s0
  obtain ⟨s1, s2⟩ := s0
  rw [put_eq]
  constructor
  · intro hx
    obtain ⟨t1, head, e, e1, hI1, hn1, hc1, hbrk1, hnew1, hw1, he, hea, hek, hl1, hh0, hext, _⟩ :=
      s1 hx
    have hn1a : t1.buckets_.num_populated_buckets_ = t.buckets_.num_populated_buckets_ := hn1
    have hc1a : t1.count = t.count := hc1
    have hbrk1a : t.brk + 2 ≤ t1.brk := hbrk1
    have hw1a : ∀ x, x % 2 = 1 →
        list_ops.walk_find x t1.nodes = list_ops.walk_find x t.nodes := hw1
    have hfresh : ∀ x ∈ t1.nodes, x.addr ≠ t.brk := by
      intro x hx1
      rcases hnew1 x hx1 with h1 | h1
      · have := (hI.addr x h1).2.2
        omega
      · have h2 : t.brk + 2 ≤ x.addr := h1
        omega
    have hok := enter_ok_of_slot _ _ head hI1.wf (by rw [hn1]; exact hl1) hh0
    have hcont : content t (hashword (k % 2 ^ 64)) =
        list_ops.walk_find (regularkey (hashword (k % 2 ^ 64))) t1.nodes := by
      unfold content
      rw [hw1a _ hodd]
    rw [e1, bind_ok]
    simp only []
    rw [list_ops.insert_from t1.nodes head
      ({ addr := t.brk, key := regularkey (hashword (k % 2 ^ 64)), value := v } : hash_entry V)
      e hI1.sorted hI1.nodup he hea hek, bind_ok]
    have hiff := list_ops.walk_insert_inserted_iff
      ({ addr := t.brk, key := regularkey (hashword (k % 2 ^ 64)), value := v } : hash_entry V)
      t1.nodes
    have haddr : t.brk % 2 = 0 ∧ 0 < t.brk ∧ t.brk < t1.brk := by
      have := hI.brk_even
      exact ⟨this.1, this.2, by omega⟩
    have hkeep : ∀ j w, j + 1 < 2 ^ 31 → t.buckets_.load j = .ok w → w ≠ UNINITIALIZED →
        t1.buckets_.load j = .ok w := by
      intro j w hj hw hw0
      rcases hext j hj with h | ⟨h, _⟩
      · rw [h]; exact hw
      · rw [hw] at h
        exact absurd (Except.ok.inj h) hw0
    have hcb := count_bounds t hI
    have hle0 := hI.load_le
    have hpos : 0 < 2 ^ (t.buckets_.num_populated_buckets_ - 1) := Nat.pow_pos (by decide)
    constructor
    · intro v0 hv0
      rw [hcont] at hv0
      cases hwi : list_ops.walk_insert
          ({ addr := t.brk, key := regularkey (hashword (k % 2 ^ 64)), value := v } :
            hash_entry V) t1.nodes with
      | inserted l1 =>
        have := hiff.1 ⟨l1, hwi⟩
        simp only [] at this
        rw [this] at hv0; cases hv0
      | collides p =>
        exact ⟨t1, rfl, hI1, hn1a, hc1a, hw1a, hext, hok⟩
    · intro hnone
      rw [hcont] at hnone
      obtain ⟨l1, hwi⟩ := hiff.2 hnone
      rw [hwi]
      simp only [put_done]
      have hreal : ∀ x, x % 2 = 1 → list_ops.walk_find x l1 =
          if x = regularkey (hashword (k % 2 ^ 64)) then some v
          else list_ops.walk_find x t.nodes := by
        intro x hx1
        rw [list_ops.walk_find_insert
          ({ addr := t.brk, key := regularkey (hashword (k % 2 ^ 64)), value := v } : hash_entry V)
          x _ _ hwi, hw1a x hx1]
      obtain ⟨g1, g2, g3, g4⟩ := grow_spec env
        ({ t1 with nodes := l1, count := t1.count + 1 } : hash_table V) t1.count hI1.wf
      simp only [] at g1 g2 g3 g4
      rw [hc1a, hn1a] at g1 g2 g3 g4
      rw [hc1a]
      refine ⟨?_, ?_, ?_, ?_⟩
      · intro hc
        rw [g1 hc]
        refine ⟨_, rfl, ?_, hn1a, rfl, hreal, hok, hkeep⟩
        have hI2 := Inv_insert t1
          ({ addr := t.brk, key := regularkey (hashword (k % 2 ^ 64)), value := v } : hash_entry V)
          l1 t1.buckets_ hI1 hodd haddr hfresh hwi hI1.wf (le_refl _)
          (fun _ _ _ h => h) (fun _ _ _ h => Or.inl h) (by
            rw [hc1a, hn1a]
            have h4 : to_size_t t.count / 2 ^ (t.buckets_.num_populated_buckets_ - 1) ≤ 4 := by
              unfold MAX_LOAD at hc; omega
            rw [hcb.2.2] at h4
            have h5 : t.count.toNat < 5 * 2 ^ (t.buckets_.num_populated_buckets_ - 1) := by
              have := (Nat.div_lt_iff_lt_mul hpos).1 (Nat.lt_succ_of_le h4)
              omega
            have h6 : (t.count.toNat : Int) = t.count := Int.toNat_of_nonneg hcb.1
            have h7 : ((t.count.toNat : Nat) : Int) <
                ((5 * 2 ^ (t.buckets_.num_populated_buckets_ - 1) : Nat) : Int) := by
              exact_mod_cast h5
            rw [h6] at h7
            push_cast at h7
            omega)
        rw [hc1a] at hI2
        exact hI2
      · intro hc hn hcas hz
        rw [g2 hc hn hcas]
        have hgw := doubling_list.grow_wf hI1.wf (by rw [hn1a]; exact hn)
          (new_array_on env.fresh (2 ^ (t1.buckets_.num_populated_buckets_ - 1)))
          (doubling_list.new_array_on_length _ _)
        have hI2 := Inv_insert t1
          ({ addr := t.brk, key := regularkey (hashword (k % 2 ^ 64)), value := v } : hash_entry V)
          l1 _ hI1 hodd haddr hfresh hwi hgw (by simp only []; omega)
          (fun j v hj h => (doubling_list.load_grow hI1.wf _ j hj).1 v h)
          (fun j v hj h => by
            rcases (doubling_list.load_grow hI1.wf _ j hj).2 v h with h1 | h1
            · exact Or.inl h1
            · obtain ⟨i, hi⟩ := doubling_list.new_array_on_mem _ _ _ h1
              exact Or.inr (hi.trans (hz i))) (by
            simp only []
            rw [hc1a, hn1a, Nat.add_sub_cancel]
            have h2 := hI.wf.two_le
            have e0 : (2 : Nat) ^ t.buckets_.num_populated_buckets_ =
                2 ^ (t.buckets_.num_populated_buckets_ - 1) * 2 := by
              rw [← pow_succ, Nat.sub_add_cancel (by omega)]
            have e1 : (2 : Int) ^ t.buckets_.num_populated_buckets_ =
                2 ^ (t.buckets_.num_populated_buckets_ - 1) * 2 := by
              exact_mod_cast e0
            have e3 : (0 : Int) < 2 ^ (t.buckets_.num_populated_buckets_ - 1) := by positivity
            rw [e1]
            omega)
        rw [hc1a, hn1a] at hI2
        refine ⟨_, rfl, hI2, rfl, rfl, hreal, ?_⟩
        intro j w hj hw hw0
        have hg := (doubling_list.load_grow hI1.wf
          (new_array_on env.fresh (2 ^ (t1.buckets_.num_populated_buckets_ - 1))) j hj).1 w
          (hkeep j w hj hw hw0)
        rw [hn1a] at hg
        exact hg
      · intro hc hn hcas
        rw [g3 hc hn hcas]
      · intro hc hcas
        rw [g4 hc hcas]
  · intro hx
    rw [s2 hx, bind_error]

end hash_table

end splitordered

/-! ## The fresh table; slots that stay addressable -/

namespace splitordered

namespace hash_table

variable {V : Type} [Inhabited V]

theorem new_cells (env : environment) (hz : env.zeroed) (s off v : Nat)
    (h : (doubling_list.new env).cell s off = .ok v) : v = UNINITIALIZED := by
  have hw := doubling_list.new_wf env
  obtain ⟨hs, ho⟩ := (doubling_list.cell_ok_iff hw s off).1 ⟨v, h⟩
  have hs2 : s < 2 := hs
  have ho1 : off = 0 := by
    unfold doubling_list.capacity at ho
    rw [if_pos (by omega)] at ho
    omega
  subst ho1
  interval_cases s
  · have h1 : (doubling_list.new env).cell 0 0 = .ok (env.fresh 0) := rfl
    rw [h1] at h
    exact (Except.ok.inj h).symm.trans (hz 0)
  · have h1 : (doubling_list.new env).cell 1 0 = .ok (env.fresh 1) := rfl
    rw [h1] at h
    exact (Except.ok.inj h).symm.trans (hz 1)

theorem new_spec (V : Type) [Inhabited V] (env : environment) (hz : env.zeroed) :
    ∃ t, hash_table.new V env = .ok t ∧ Inv t ∧ t.count = 0 ∧
      t.buckets_.num_populated_buckets_ = 2 ∧
      t.nodes = [{ addr := 2, key := 0, value := default }] ∧
      t.buckets_.load 0 = .ok 2 := by
  have hw := doubling_list.new_wf env
  have hl0 : (doubling_list.new env).load 0 = .ok (env.fresh 0) := rfl
  obtain ⟨dl1, hs, hwf1, hn1, hl1, hoth⟩ :=
    doubling_list.store_spec hw 0 (env.fresh 0) 2 (by decide) hl0
  have hc : CONSTRUCT 0 2 = 2 := by decide
  have hn2 : dl1.num_populated_buckets_ = 2 := hn1
  refine ⟨{ buckets_ := dl1, count := 0,
            nodes := [{ addr := 2, key := 0, value := default }], brk := 4 }, ?_, ?_, rfl,
    hn2, rfl, hl1⟩
  · unfold hash_table.new
    simp only []
    rw [hc, hs, bind_ok]
    rfl
  · have hother : ∀ i v, i + 1 < 2 ^ 31 → dl1.load i = .ok v → v ≠ UNINITIALIZED → i = 0 := by
      intro i v hi hv hv0
      by_contra hne
      rw [hoth i hi hne, doubling_list.load_of_locate (doubling_list.locate_log2 i hi)] at hv
      exact hv0 (new_cells env hz _ _ v hv)
    refine ⟨hwf1, List.pairwise_singleton _ _, List.pairwise_singleton _ _, ?_,
      ⟨(by decide : 4 % 2 = 0), (by decide : 0 < 4)⟩, ?_,
      ⟨2, hl1, by decide⟩, ?_, by simp, ?_⟩
    · intro e he
      rw [List.mem_singleton] at he
      subst he
      exact ⟨(by decide : 2 % 2 = 0), (by decide : 0 < 2), (by decide : 2 < 4)⟩
    · intro i v hi hv hv0
      have h0 := hother i v hi hv hv0
      subst h0
      rw [hl1] at hv
      injection hv with hv
      refine ⟨Nat.pow_pos (by decide), _, List.mem_singleton.2 rfl, hv, ?_⟩
      exact (by decide : 0 = dummykey 0)
    · intro e he _
      rw [List.mem_singleton] at he
      subst he
      exact ⟨0, Nat.pow_pos (by decide), (by decide : 0 = dummykey 0), hl1⟩
    · simp only []
      rw [hn2]
      decide

theorem chain_mono (dl dl1 : doubling_list)
    (hext : ∀ j, j + 1 < 2 ^ 31 → dl1.load j = dl.load j ∨
      (dl.load j = .ok UNINITIALIZED ∧ ∃ v, dl1.load j = .ok v))
    (depth : Nat) : ∀ b, b + 1 < 2 ^ 31 → chain_ok dl depth b = true →
      chain_ok dl1 depth b = true := by
  induction depth with
  | zero => intro b _ h; simp only [chain_ok] at h; cases h
  | succ depth ih =>
    intro b hb h
    have hp : get_parent b ≤ b := by
      unfold get_parent
      exact Nat.and_le_left
    cases hl : dl.load (get_parent b) with
    | error e => simp only [chain_ok, hl] at h; cases h
    | ok p =>
      simp only [chain_ok, hl] at h
      rcases hext (get_parent b) (by omega) with h1 | ⟨h1, v, h2⟩
      · rw [hl] at h1
        simp only [chain_ok, h1]
        by_cases hp0 : p = UNINITIALIZED
        · rw [if_pos hp0] at h ⊢
          exact ih _ (by omega) h
        · rw [if_neg hp0]
      · rw [hl] at h1
        injection h1 with h1
        rw [if_pos h1] at h
        simp only [chain_ok, h2]
        by_cases hv0 : v = UNINITIALIZED
        · rw [if_pos hv0]
          exact ih _ (by omega) h
        · rw [if_neg hv0]

theorem enter_ok_mono (dl dl1 : doubling_list) (h : Nat) (hw : dl.wf) (hw1 : dl1.wf)
    (hn : dl1.num_populated_buckets_ = dl.num_populated_buckets_)
    (hext : ∀ j, j + 1 < 2 ^ 31 → dl1.load j = dl.load j ∨
      (dl.load j = .ok UNINITIALIZED ∧ ∃ v, dl1.load j = .ok v))
    (hok : enter_ok dl h = true) : enter_ok dl1 h = true := by
  have hsz := doubling_list.size_of_wf hw
  have hsz1 := doubling_list.size_of_wf hw1
  rw [hn] at hsz1
  have hb : h % 2 ^ (dl.num_populated_buckets_ - 1) < 2 ^ (dl.num_populated_buckets_ - 1) :=
    Nat.mod_lt _ (Nat.pow_pos (by decide))
  have hb31 := doubling_list.lt_size_lt hw _ hb
  cases hl : dl.load (h % 2 ^ (dl.num_populated_buckets_ - 1)) with
  | error e =>
    have := enter_ok_at_error 65 dl h _ e hsz hl
    unfold enter_ok at hok
    rw [this] at hok; cases hok
  | ok v =>
    have h1 := enter_ok_at_ok 65 dl h _ v hsz hl
    unfold enter_ok at hok ⊢
    rw [h1] at hok
    rcases hext _ hb31 with h2 | ⟨h2, v1, h3⟩
    · rw [hl] at h2
      rw [enter_ok_at_ok 65 dl1 h _ v hsz1 h2]
      by_cases hv0 : v = UNINITIALIZED
      · rw [if_pos hv0] at hok ⊢
        exact chain_mono dl dl1 hext 65 _ hb31 hok
      · rw [if_neg hv0]
    · rw [hl] at h2
      injection h2 with h2
      rw [if_pos h2] at hok
      rw [enter_ok_at_ok 65 dl1 h _ v1 hsz1 h3]
      by_cases hv0 : v1 = UNINITIALIZED
      · rw [if_pos hv0]
        exact chain_mono dl dl1 hext 65 _ hb31 hok
      · rw [if_neg hv0]

end hash_table

end splitordered

/-! ## Results of the operations -/

namespace splitordered

namespace hash_table

variable {V : Type} [Inhabited V]

theorem get_inv (t : hash_table V) (k : Nat) (hI : Inv t) (r : Option V) (t1 : hash_table V)
    (hg : t.get k = .ok (r, t1)) :
    r = content t (hashword (k % 2 ^ 64)) ∧ Inv t1 ∧
      t1.buckets_.num_populated_buckets_ = t.buckets_.num_populated_buckets_ ∧
      t1.count = t.count ∧
      (∀ x, x % 2 = 1 → list_ops.walk_find x t1.nodes = list_ops.walk_find x t.nodes) ∧
      (∀ j, j + 1 < 2 ^ 31 → t1.buckets_.load j = t.buckets_.load j ∨
        (t.buckets_.load j = .ok UNINITIALIZED ∧ ∃ v, t1.buckets_.load j = .ok v)) ∧
      enter_ok t.buckets_ (hashword (k % 2 ^ 64)) = true ∧
      enter_ok t1.buckets_ (hashword (k % 2 ^ 64)) = true := by
  obtain ⟨s1, s2⟩ := get_spec t k hI
  cases hE : enter_ok t.buckets_ (hashword (k % 2 ^ 64)) with
  | false => rw [s2 hE] at hg; cases hg
  | true =>
    obtain ⟨t2, e1, hI2, hn, hc, hw, hext, hok⟩ := s1 hE
    rw [e1] at hg
    injection hg with hg
    injection hg with h1 h2
    subst h1; subst h2
    exact ⟨rfl, hI2, hn, hc, hw, hext, rfl, hok⟩

theorem get_err (t : hash_table V) (k : Nat) (hI : Inv t) (e : Fault)
    (hg : t.get k = .error e) : e = .out_of_bounds := by
  obtain ⟨s1, s2⟩ := get_spec t k hI
  cases hE : enter_ok t.buckets_ (hashword (k % 2 ^ 64)) with
  | false => rw [s2 hE] at hg; injection hg with hg; exact hg.symm
  | true =>
    obtain ⟨t2, e1, _⟩ := s1 hE
    rw [e1] at hg; cases hg

theorem remove_inv (t : hash_table V) (k : Nat) (hI : Inv t) (r : Bool) (t1 : hash_table V)
    (hg : t.remove k = .ok (r, t1)) :
    r = (content t (hashword (k % 2 ^ 64))).isSome ∧ Inv t1 ∧
      t1.buckets_.num_populated_buckets_ = t.buckets_.num_populated_buckets_ ∧
      t1.count = t.count - (if (content t (hashword (k % 2 ^ 64))).isSome then 1 else 0) ∧
      (∀ x, x % 2 = 1 → list_ops.walk_find x t1.nodes =
        if x = regularkey (hashword (k % 2 ^ 64)) then none
        else list_ops.walk_find x t.nodes) ∧
      (∀ j, j + 1 < 2 ^ 31 → t1.buckets_.load j = t.buckets_.load j ∨
        (t.buckets_.load j = .ok UNINITIALIZED ∧ ∃ v, t1.buckets_.load j = .ok v)) ∧
      enter_ok t.buckets_ (hashword (k % 2 ^ 64)) = true ∧
      enter_ok t1.buckets_ (hashword (k % 2 ^ 64)) = true := by
  obtain ⟨s1, s2⟩ := remove_spec t k hI
  cases hE : enter_ok t.buckets_ (hashword (k % 2 ^ 64)) with
  | false => rw [s2 hE] at hg; cases hg
  | true =>
    obtain ⟨t2, e1, hI2, hn, hc, hw, hext, hok⟩ := s1 hE
    rw [e1] at hg
    injection hg with hg
    injection hg with h1 h2
    subst h1; subst h2
    exact ⟨rfl, hI2, hn, hc, hw, hext, rfl, hok⟩

theorem remove_err (t : hash_table V) (k : Nat) (hI : Inv t) (e : Fault)
    (hg : t.remove k = .error e) : e = .out_of_bounds := by
  obtain ⟨s1, s2⟩ := remove_spec t k hI
  cases hE : enter_ok t.buckets_ (hashword (k % 2 ^ 64)) with
  | false => rw [s2 hE] at hg; injection hg with hg; exact hg.symm
  | true =>
    obtain ⟨t2, e1, _⟩ := s1 hE
    rw [e1] at hg; cases hg

theorem put_inv (t : hash_table V) (env : environment) (hz : env.zeroed) (k : Nat) (v : V)
    (hI : Inv t) (r : Bool) (t1 : hash_table V) (hg : t.put env k v = .ok (r, t1)) :
    Inv t1 ∧ enter_ok t.buckets_ (hashword (k % 2 ^ 64)) = true ∧
      r = (content t (hashword (k % 2 ^ 64))).isNone ∧
      t1.count = t.count + (if r = true then 1 else 0) ∧
      (∀ x, x % 2 = 1 → list_ops.walk_find x t1.nodes =
        if r = true ∧ x = regularkey (hashword (k % 2 ^ 64)) then some v
        else list_ops.walk_find x t.nodes) ∧
      t1.buckets_.num_populated_buckets_ =
        (if r = true ∧
            to_size_t t.count / 2 ^ (t.buckets_.num_populated_buckets_ - 1) > MAX_LOAD
          then t.buckets_.num_populated_buckets_ + 1
          else t.buckets_.num_populated_buckets_) ∧
      (r = false → (∀ j, j + 1 < 2 ^ 31 → t1.buckets_.load j = t.buckets_.load j ∨
          (t.buckets_.load j = .ok UNINITIALIZED ∧ ∃ v, t1.buckets_.load j = .ok v)) ∧
        enter_ok t1.buckets_ (hashword (k % 2 ^ 64)) = true) := by
  obtain ⟨s1, s2⟩ := put_spec t env k v hI
  cases hE : enter_ok t.buckets_ (hashword (k % 2 ^ 64)) with
  | false => rw [s2 hE] at hg; cases hg
  | true =>
    obtain ⟨c1, c2⟩ := s1 hE
    cases hc : content t (hashword (k % 2 ^ 64)) with
    | some v0 =>
      obtain ⟨t2, e1, hI2, hn, hcnt, hw, hext, hok⟩ := c1 v0 hc
      rw [e1] at hg
      injection hg with hg
      injection hg with h1 h2
      subst h1; subst h2
      refine ⟨hI2, rfl, rfl, ?_, ?_, ?_, fun _ => ⟨hext, hok⟩⟩
      · rw [hcnt]; simp
      · intro x hx; rw [hw x hx]; simp
      · rw [hn]; simp
    | none =>
      obtain ⟨d1, d2, d3, d4⟩ := c2 hc
      by_cases hgr : to_size_t t.count / 2 ^ (t.buckets_.num_populated_buckets_ - 1) > MAX_LOAD
      · have hle := hI.wf.le
        cases hcas : env.cas with
        | false => rw [d4 hgr hcas] at hg; cases hg
        | true =>
        by_cases h31 : t.buckets_.num_populated_buckets_ = 31
        · rw [d3 hgr h31 hcas] at hg; cases hg
        · obtain ⟨t2, e1, hI2, hn, hcnt, hw, _⟩ := d2 hgr (by omega) hcas hz
          rw [e1] at hg
          injection hg with hg
          injection hg with h1 h2
          subst h1; subst h2
          refine ⟨hI2, rfl, rfl, ?_, ?_, ?_, fun h => by cases h⟩
          · rw [hcnt]; simp
          · intro x hx; rw [hw x hx]; simp
          · rw [hn, if_pos ⟨rfl, hgr⟩]
      · obtain ⟨t2, e1, hI2, hn, hcnt, hw, hok⟩ := d1 hgr
        rw [e1] at hg
        injection hg with hg
        injection hg with h1 h2
        subst h1; subst h2
        refine ⟨hI2, rfl, rfl, ?_, ?_, ?_, fun h => by cases h⟩
        · rw [hcnt]; simp
        · intro x hx; rw [hw x hx]; simp
        · rw [hn, if_neg (fun h => hgr h.2)]

theorem put_err (t : hash_table V) (env : environment) (hz : env.zeroed) (k : Nat) (v : V)
    (hI : Inv t) (e : Fault) (hg : t.put env k v = .error e) :
    e = .out_of_bounds ∨ e = .shift_overflow ∨ (e = .assertion ∧ env.cas = false) := by
  obtain ⟨s1, s2⟩ := put_spec t env k v hI
  cases hE : enter_ok t.buckets_ (hashword (k % 2 ^ 64)) with
  | false => rw [s2 hE] at hg; injection hg with hg; exact Or.inl hg.symm
  | true =>
    obtain ⟨c1, c2⟩ := s1 hE
    cases hc : content t (hashword (k % 2 ^ 64)) with
    | some v0 =>
      obtain ⟨t2, e1, _⟩ := c1 v0 hc
      rw [e1] at hg; cases hg
    | none =>
      obtain ⟨d1, d2, d3, d4⟩ := c2 hc
      by_cases hgr : to_size_t t.count / 2 ^ (t.buckets_.num_populated_buckets_ - 1) > MAX_LOAD
      · have hle := hI.wf.le
        cases hcas : env.cas with
        | false =>
          rw [d4 hgr hcas] at hg; injection hg with hg; exact Or.inr (Or.inr ⟨hg.symm, rfl⟩)
        | true =>
        by_cases h31 : t.buckets_.num_populated_buckets_ = 31
        · rw [d3 hgr h31 hcas] at hg; injection hg with hg; exact Or.inr (Or.inl hg.symm)
        · obtain ⟨t2, e1, _⟩ := d2 hgr (by omega) hcas hz
          rw [e1] at hg; cases hg
      · obtain ⟨t2, e1, _⟩ := d1 hgr
        rw [e1] at hg; cases hg

end hash_table

end splitordered

/-! ## Runs and the reference map -/

namespace splitordered

namespace hash_table

variable {V : Type} [Inhabited V]

theorem step_put_ok (t : hash_table V) (env : environment) (k : Nat) (v : V) (a : answer V)
    (t1 : hash_table V) (hs : t.step env (.put k v) = .ok (a, t1)) :
    ∃ r, a = .put r ∧ t.put env k v = .ok (r, t1) := by
  unfold step at hs
  obtain ⟨⟨r, t2⟩, h1, h2⟩ := bind_eq_ok.1 hs
  simp only [pure_eq_ok] at h2
  injection h2 with h2
  injection h2 with h3 h4
  subst h3; subst h4
  exact ⟨r, rfl, h1⟩

theorem step_get_ok (t : hash_table V) (env : environment) (k : Nat) (a : answer V)
    (t1 : hash_table V) (hs : t.step env (.get k) = .ok (a, t1)) :
    ∃ r, a = .get r ∧ t.get k = .ok (r, t1) := by
  unfold step at hs
  obtain ⟨⟨r, t2⟩, h1, h2⟩ := bind_eq_ok.1 hs
  simp only [pure_eq_ok] at h2
  injection h2 with h2
  injection h2 with h3 h4
  subst h3; subst h4
  exact ⟨r, rfl, h1⟩

theorem step_remove_ok (t : hash_table V) (env : environment) (k : Nat) (a : answer V)
    (t1 : hash_table V) (hs : t.step env (.remove k) = .ok (a, t1)) :
    ∃ r, a = .remove r ∧ t.remove k = .ok (r, t1) := by
  unfold step at hs
  obtain ⟨⟨r, t2⟩, h1, h2⟩ := bind_eq_ok.1 hs
  simp only [pure_eq_ok] at h2
  injection h2 with h2
  injection h2 with h3 h4
  subst h3; subst h4
  exact ⟨r, rfl, h1⟩

theorem step_Inv (t : hash_table V) (env : environment) (hz : env.zeroed) (c : call V)
    (hI : Inv t) (a : answer V) (t1 : hash_table V) (hs : t.step env c = .ok (a, t1)) :
    Inv t1 := by
  cases c with
  | put k v =>
    obtain ⟨r, _, h⟩ := step_put_ok t env k v a t1 hs
    exact (put_inv t env hz k v hI r t1 h).1
  | get k =>
    obtain ⟨r, _, h⟩ := step_get_ok t env k a t1 hs
    exact (get_inv t k hI r t1 h).2.1
  | remove k =>
    obtain ⟨r, _, h⟩ := step_remove_ok t env k a t1 hs
    exact (remove_inv t k hI r t1 h).2.1

theorem step_err (t : hash_table V) (env : environment) (hz : env.zeroed) (c : call V)
    (hI : Inv t) (e : Fault) (hs : t.step env c = .error e) :
    e = .out_of_bounds ∨ e = .shift_overflow ∨ (e = .assertion ∧ env.cas = false) := by
  cases c with
  | put k v =>
    unfold step at hs
    rcases bind_eq_error.1 hs with h | ⟨⟨r, t2⟩, _, h2⟩
    · exact put_err t env hz k v hI e h
    · cases h2
  | get k =>
    unfold step at hs
    rcases bind_eq_error.1 hs with h | ⟨⟨r, t2⟩, _, h2⟩
    · exact Or.inl (get_err t k hI e h)
    · cases h2
  | remove k =>
    unfold step at hs
    rcases bind_eq_error.1 hs with h | ⟨⟨r, t2⟩, _, h2⟩
    · exact Or.inl (remove_err t k hI e h)
    · cases h2

theorem reachable_Inv (t : hash_table V) (hr : reachable environment.zeroed t) : Inv t := by
  induction hr with
  | new hz h =>
    obtain ⟨t0, e0, hI, _⟩ := new_spec V _ hz
    rw [e0] at h
    injection h with h
    subst h
    exact hI
  | step _ hz hs ih => exact step_Inv _ _ hz _ ih _ _ hs

theorem content_eq (t t1 : hash_table V) (h : Nat) (hh : h < 2 ^ 63)
    (hw : ∀ x, x % 2 = 1 → list_ops.walk_find x t1.nodes = list_ops.walk_find x t.nodes) :
    content t1 h = content t h := hw _ (regularkey_odd h hh)

theorem step_sim (t : hash_table V) (env : environment) (hz : env.zeroed)
    (m : Nat → Option V) (c : call V) (hI : Inv t)
    (hR : ∀ h, h < 2 ^ 63 → m h = content t h) (a : answer V) (t1 : hash_table V)
    (hs : t.step env c = .ok (a, t1)) :
    a = (reference.step m c.scrambled).1 ∧
      ∀ h, h < 2 ^ 63 → (reference.step m c.scrambled).2 h = content t1 h := by
  cases c with
  | put k v =>
    obtain ⟨r, ha, h⟩ := step_put_ok t env k v a t1 hs
    obtain ⟨_, _, hr, _, hw, _⟩ := put_inv t env hz k v hI r t1 h
    have hH := hashword_lt (k % 2 ^ 64)
    have hm := hR _ hH
    subst ha
    simp only [call.scrambled, reference.step]
    cases hc : content t (hashword (k % 2 ^ 64)) with
    | none =>
      rw [hc] at hr hm
      simp only [Option.isNone_none] at hr
      rw [hm]
      refine ⟨by rw [hr], ?_⟩
      intro h' hh'
      simp only []
      unfold content
      rw [hw _ (regularkey_odd h' hh')]
      by_cases he : h' = hashword (k % 2 ^ 64)
      · rw [if_pos he, if_pos ⟨hr, by rw [he]⟩]
      · rw [if_neg he, if_neg (fun hx => he (regularkey_inj _ _ hh' hH hx.2))]
        exact hR h' hh'
    | some v0 =>
      rw [hc] at hr hm
      simp only [Option.isNone_some] at hr
      rw [hm]
      refine ⟨by rw [hr], ?_⟩
      intro h' hh'
      simp only []
      unfold content
      rw [hw _ (regularkey_odd h' hh'), if_neg (fun hx => by rw [hr] at hx; cases hx.1)]
      exact hR h' hh'
  | get k =>
    obtain ⟨r, ha, h⟩ := step_get_ok t env k a t1 hs
    obtain ⟨hr, _, _, _, hw, _⟩ := get_inv t k hI r t1 h
    have hH := hashword_lt (k % 2 ^ 64)
    subst ha
    simp only [call.scrambled, reference.step]
    refine ⟨by rw [hr, hR _ hH], ?_⟩
    intro h' hh'
    rw [content_eq t t1 h' hh' hw]
    exact hR h' hh'
  | remove k =>
    obtain ⟨r, ha, h⟩ := step_remove_ok t env k a t1 hs
    obtain ⟨hr, _, _, _, hw, _⟩ := remove_inv t k hI r t1 h
    have hH := hashword_lt (k % 2 ^ 64)
    have hm := hR _ hH
    subst ha
    simp only [call.scrambled, reference.step]
    cases hc : content t (hashword (k % 2 ^ 64)) with
    | none =>
      rw [hc] at hr hm
      simp only [Option.isSome_none] at hr
      rw [hm]
      refine ⟨by rw [hr], ?_⟩
      intro h' hh'
      simp only []
      unfold content
      rw [hw _ (regularkey_odd h' hh')]
      by_cases he : h' = hashword (k % 2 ^ 64)
      · rw [if_pos (by rw [he]), hR h' hh', he, hc]
      · rw [if_neg (fun hx => he (regularkey_inj _ _ hh' hH hx))]
        exact hR h' hh'
    | some v0 =>
      rw [hc] at hr hm
      simp only [Option.isSome_some] at hr
      rw [hm]
      refine ⟨by rw [hr], ?_⟩
      intro h' hh'
      simp only []
      unfold content
      rw [hw _ (regularkey_odd h' hh')]
      by_cases he : h' = hashword (k % 2 ^ 64)
      · rw [if_pos he, if_pos (by rw [he])]
      · rw [if_neg he, if_neg (fun hx => he (regularkey_inj _ _ hh' hH hx))]
        exact hR h' hh'

theorem run_sim (cs : List (environment × call V)) : ∀ (t : hash_table V)
    (m : Nat → Option V), Inv t → (∀ p ∈ cs, p.1.zeroed) →
    (∀ h, h < 2 ^ 63 → m h = content t h) →
    (∀ as t1, t.run cs = .ok (as, t1) →
      as = reference.run m (cs.map (fun p => p.2.scrambled)) ∧ Inv t1) ∧
    (∀ e, t.run cs = .error e →
      e = .out_of_bounds ∨ e = .shift_overflow ∨
        (e = .assertion ∧ ∃ p ∈ cs, p.1.cas = false)) := by
  induction cs with
  | nil =>
    intro t m hI _ _
    constructor
    · intro as t1 h
      unfold run at h
      simp only [pure_eq_ok] at h
      injection h with h
      injection h with h1 h2
      subst h1; subst h2
      exact ⟨rfl, hI⟩
    · intro e h
      cases h
  | cons c cs ih =>
    obtain ⟨env, c⟩ := c
    intro t m hI hz hR
    have hz0 : env.zeroed := hz (env, c) (List.mem_cons_self _ _)
    have hz1 : ∀ p ∈ cs, p.1.zeroed := fun p hp => hz p (List.mem_cons_of_mem _ hp)
    constructor
    · intro as t1 h
      unfold run at h
      obtain ⟨⟨a, t2⟩, h1, h2⟩ := bind_eq_ok.1 h
      simp only [] at h2
      obtain ⟨⟨as2, t3⟩, h3, h4⟩ := bind_eq_ok.1 h2
      simp only [pure_eq_ok] at h4
      injection h4 with h4
      injection h4 with h5 h6
      subst h5; subst h6
      obtain ⟨ha, hR2⟩ := step_sim t env hz0 m c hI hR a t2 h1
      have hI2 := step_Inv t env hz0 c hI a t2 h1
      obtain ⟨hrec, hI3⟩ := (ih t2 _ hI2 hz1 (fun h hh => hR2 h hh)).1 as2 t3 h3
      refine ⟨?_, hI3⟩
      simp only [List.map_cons, reference.run]
      rw [← ha, ← hrec]
    · intro e h
      unfold run at h
      rcases bind_eq_error.1 h with h1 | ⟨⟨a, t2⟩, h1, h2⟩
      · rcases step_err t env hz0 c hI e h1 with h | h | ⟨h, hc⟩
        · exact Or.inl h
        · exact Or.inr (Or.inl h)
        · exact Or.inr (Or.inr ⟨h, (env, c), List.mem_cons_self _ _, hc⟩)
      · simp only [] at h2
        rcases bind_eq_error.1 h2 with h3 | ⟨⟨as2, t3⟩, _, h4⟩
        · obtain ⟨_, hR2⟩ := step_sim t env hz0 m c hI hR a t2 h1
          rcases (ih t2 _ (step_Inv t env hz0 c hI a t2 h1) hz1
            (fun h hh => hR2 h hh)).2 e h3 with h | h | ⟨h, p, hp, hc⟩
          · exact Or.inl h
          · exact Or.inr (Or.inl h)
          · exact Or.inr (Or.inr ⟨h, p, List.mem_cons_of_mem _ hp, hc⟩)
        · cases h4

theorem content_new (t : hash_table V)
    (hn : t.nodes = [{ addr := 2, key := 0, value := default }]) (h : Nat)
    (hh : h < 2 ^ 63) : content t h = none := by
  unfold content
  rw [hn]
  have := regularkey_odd h hh
  have hpos : (0 : Nat) < regularkey h := by omega
  simp only [list_ops.walk_find]
  rw [if_pos hpos]

theorem reachable_mono (ok ok1 : environment → Prop) (h : ∀ e, ok e → ok1 e)
    (t : hash_table V) (hr : reachable ok t) : reachable ok1 t := by
  induction hr with
  | new h0 hn => exact reachable.new (h _ h0) hn
  | step _ h0 hs ih => exact reachable.step ih (h _ h0) hs

theorem run_reachable (ok : environment → Prop) (cs : List (environment × call V)) :
    ∀ (t : hash_table V), reachable ok t → (∀ p ∈ cs, ok p.1) →
    ∀ as t1, t.run cs = .ok (as, t1) → reachable ok t1 := by
  induction cs with
  | nil =>
    intro t hr _ as t1 h
    unfold run at h
    simp only [pure_eq_ok] at h
    injection h with h
    injection h with h1 h2
    subst h2
    exact hr
  | cons c cs ih =>
    obtain ⟨env, c⟩ := c
    intro t hr hok as t1 h
    unfold run at h
    obtain ⟨⟨a, t2⟩, h1, h2⟩ := bind_eq_ok.1 h
    simp only [] at h2
    obtain ⟨⟨as2, t3⟩, h3, h4⟩ := bind_eq_ok.1 h2
    simp only [pure_eq_ok] at h4
    injection h4 with h4
    injection h4 with h5 h6
    subst h6
    exact ih t2 (reachable.step hr (hok (env, c) (List.mem_cons_self _ _)) h1)
      (fun p hp => hok p (List.mem_cons_of_mem _ hp)) as2 t3 h3

theorem run_new_reachable (ok : environment → Prop) (env : environment)
    (cs : List (environment × call V)) (h0 : ok env) (hok : ∀ p ∈ cs, ok p.1)
    (as : List (answer V)) (t : hash_table V)
    (h : run_new V env cs = .ok (as, t)) : reachable ok t := by
  unfold run_new at h
  obtain ⟨t0, h1, h2⟩ := bind_eq_ok.1 h
  exact run_reachable ok cs t0 (reachable.new h0 h1) hok as t h2

theorem run_new_sim (env : environment) (cs : List (environment × call V))
    (h0 : env.zeroed) (hz : ∀ p ∈ cs, p.1.zeroed) :
    (∀ as t, run_new V env cs = .ok (as, t) →
      as = reference.run (reference.empty V) (cs.map (fun p => p.2.scrambled))) ∧
    (∀ e, run_new V env cs = .error e →
      e = .out_of_bounds ∨ e = .shift_overflow ∨
        (e = .assertion ∧ ∃ p ∈ cs, p.1.cas = false)) := by
  obtain ⟨t0, e0, hI, _, _, hnodes, _⟩ := new_spec V env h0
  have hR : ∀ h, h < 2 ^ 63 → reference.empty V h = content t0 h := by
    intro h hh
    rw [content_new t0 hnodes h hh]
    rfl
  have hs := run_sim cs t0 (reference.empty V) hI hz hR
  unfold run_new
  rw [e0, bind_ok]
  exact ⟨fun as t h => (hs.1 as t h).1, hs.2⟩

end hash_table

end splitordered

/-! ## Small tables and growth -/

namespace splitordered

namespace doubling_list

theorem grown_reachable (k : Nat) : (grown k).reachable := by
  induction k with
  | zero => exact reachable.new
  | succ k ih =>
    unfold grown
    cases h : (grown k).double_size environment.clean
        (2 ^ ((grown k).num_populated_buckets_ - 1)) with
    | error e => exact ih
    | ok p =>
      obtain ⟨r, dl⟩ := p
      exact reachable.double_size ih h

theorem grown_populated (k : Nat) (hk : k ≤ 29) : (grown k).num_populated_buckets_ = k + 2 := by
  induction k with
  | zero => rfl
  | succ k ih =>
    have h1 := ih (by omega)
    have hw := reachable_wf (grown_reachable k)
    unfold grown
    rw [double_size_grow environment.clean hw (by omega) rfl]
    simp only []
    rw [h1]

end doubling_list

namespace hash_table

variable {V : Type} [Inhabited V]

theorem enter_ok_two (t : hash_table V) (h : Nat) (hI : Inv t)
    (hn : t.buckets_.num_populated_buckets_ = 2) : enter_ok t.buckets_ h = true := by
  have hsz := doubling_list.size_of_wf hI.wf
  obtain ⟨v0, hl0, hv0⟩ := hI.slot0
  rw [hn] at hsz
  have h21 : (2 : Nat) ^ (2 - 1) = 2 := by decide
  rw [h21] at hsz
  have hb : h % 2 < 2 := Nat.mod_lt _ (by decide)
  unfold enter_ok
  have hcase : h % 2 = 0 ∨ h % 2 = 1 := by omega
  rcases hcase with hc | hc
  · have hl : t.buckets_.load (h % 2) = .ok v0 := by rw [hc]; exact hl0
    rw [enter_ok_at_ok 65 _ h 2 v0 hsz hl, if_neg hv0]
  · have hloc : doubling_list.locate 1 = .ok (1, 0) := by decide
    have hex := (doubling_list.cell_ok_iff hI.wf 1 0).2 ⟨by rw [hn]; decide, by decide⟩
    rw [← doubling_list.load_of_locate hloc] at hex
    obtain ⟨v1, hl1⟩ := hex
    have hl : t.buckets_.load (h % 2) = .ok v1 := by rw [hc]; exact hl1
    rw [enter_ok_at_ok 65 _ h 2 v1 hsz hl, hc]
    by_cases hv1 : v1 = UNINITIALIZED
    · rw [if_pos hv1]
      have hp : get_parent 1 = 0 := by decide
      show chain_ok t.buckets_ (64 + 1) 1 = true
      rw [chain_ok, hp, hl0]
      simp only []
      rw [if_neg hv0]
    · rw [if_neg hv1]

theorem small_load (c : Int) (h0 : 0 ≤ c) (h : c < 10) : ¬ c.toNat / 2 > 4 := by
  omega

theorem step_small (t : hash_table V) (env : environment) (c : call V) (hI : Inv t)
    (hn : t.buckets_.num_populated_buckets_ = 2) (hc : t.count < 10) :
    ∃ a t1, t.step env c = .ok (a, t1) ∧ Inv t1 ∧ t1.buckets_.num_populated_buckets_ = 2 ∧
      t1.count ≤ t.count + 1 := by
  have hb := count_bounds t hI
  cases c with
  | put k v =>
    obtain ⟨s1, _⟩ := put_spec t env k v hI
    obtain ⟨c1, c2⟩ := s1 (enter_ok_two t _ hI hn)
    cases hcont : content t (hashword (k % 2 ^ 64)) with
    | some v0 =>
      obtain ⟨t1, e1, hI1, hn1, hc1, _⟩ := c1 v0 hcont
      refine ⟨.put false, t1, ?_, hI1, by rw [hn1, hn], by rw [hc1]; omega⟩
      show (t.put env k v >>= _) = _
      rw [e1, bind_ok]
      rfl
    | none =>
      obtain ⟨d1, _⟩ := c2 hcont
      have hng : ¬ to_size_t t.count / 2 ^ (t.buckets_.num_populated_buckets_ - 1) >
          MAX_LOAD := by
        rw [hn, hb.2.2]
        have h21 : (2 : Nat) ^ (2 - 1) = 2 := by decide
        rw [h21]
        exact small_load _ hb.1 hc
      obtain ⟨t1, e1, hI1, hn1, hc1, _⟩ := d1 hng
      refine ⟨.put true, t1, ?_, hI1, by rw [hn1, hn], by rw [hc1]⟩
      show (t.put env k v >>= _) = _
      rw [e1, bind_ok]
      rfl
  | get k =>
    obtain ⟨s1, _⟩ := get_spec t k hI
    obtain ⟨t1, e1, hI1, hn1, hc1, _⟩ := s1 (enter_ok_two t _ hI hn)
    refine ⟨.get (content t (hashword (k % 2 ^ 64))), t1, ?_, hI1, by rw [hn1, hn],
      by rw [hc1]; omega⟩
    show (t.get k >>= _) = _
    rw [e1, bind_ok]
    rfl
  | remove k =>
    obtain ⟨s1, _⟩ := remove_spec t k hI
    obtain ⟨t1, e1, hI1, hn1, hc1, _⟩ := s1 (enter_ok_two t _ hI hn)
    refine ⟨.remove (content t (hashword (k % 2 ^ 64))).isSome, t1, ?_, hI1, by rw [hn1, hn],
      ?_⟩
    · show (t.remove k >>= _) = _
      rw [e1, bind_ok]
      rfl
    · rw [hc1]
      split <;> omega

theorem run_small (cs : List (environment × call V)) : ∀ (t : hash_table V), Inv t →
    t.buckets_.num_populated_buckets_ = 2 → t.count + cs.length ≤ 10 →
    ∃ as t1, t.run cs = .ok (as, t1) := by
  induction cs with
  | nil => intro t _ _ _; exact ⟨[], t, rfl⟩
  | cons c cs ih =>
    obtain ⟨env, c⟩ := c
    intro t hI hn hc
    have hlen : ((((env, c) :: cs).length : Nat) : Int) = (cs.length : Int) + 1 := by
      simp only [List.length_cons]; norm_cast
    rw [hlen] at hc
    have hpos : (0 : Int) ≤ (cs.length : Int) := Int.natCast_nonneg _
    obtain ⟨a, t1, e1, hI1, hn1, hc1⟩ := step_small t env c hI hn (by omega)
    obtain ⟨as, t2, e2⟩ := ih t1 hI1 hn1 (by omega)
    refine ⟨a :: as, t2, ?_⟩
    unfold run
    rw [e1, bind_ok]
    simp only []
    rw [e2, bind_ok]
    rfl

end hash_table

end splitordered

/-! ## The list operations started from any node -/

namespace splitordered

namespace list_ops

variable {V : Type}

theorem insert_perm (nodes : List (hash_entry V)) (head : marked_ptr_t) (node : hash_entry V)
    (l : List (hash_entry V)) (h : insert nodes head node = .ok (.inserted l)) :
    l.Perm (node :: nodes) := by
  have hsplit := List.takeWhile_append_dropWhile
    (fun e : hash_entry V => e.addr != PTR_OF head) nodes
  unfold insert at h
  cases hd : nodes.dropWhile (fun e => e.addr != PTR_OF head) with
  | nil => rw [hd] at h; cases h
  | cons first rest =>
    rw [hd] at h hsplit
    simp only [] at h
    by_cases h1 : first.key < node.key
    · rw [if_pos h1] at h
      cases hw : walk_insert node rest with
      | collides p =>
        rw [hw] at h
        injection h with h
        cases h
      | inserted l1 =>
        rw [hw] at h
        injection h with h
        injection h with h
        subst h
        have hp := walk_insert_perm node rest l1 hw
        have h2 : (nodes.takeWhile (fun e => e.addr != PTR_OF head) ++ first :: l1).Perm
            (nodes.takeWhile (fun e => e.addr != PTR_OF head) ++ first :: node :: rest) :=
          List.Perm.append_left _ (List.Perm.cons _ hp)
        refine h2.trans ?_
        have h3 : (nodes.takeWhile (fun e => e.addr != PTR_OF head) ++
            first :: node :: rest).Perm
            (node :: (nodes.takeWhile (fun e => e.addr != PTR_OF head) ++ first :: rest)) := by
          have h4 : (first :: node :: rest).Perm (node :: first :: rest) := List.Perm.swap _ _ _
          exact (List.Perm.append_left _ h4).trans List.perm_middle
        rw [hsplit] at h3
        exact h3
    · rw [if_neg h1] at h
      by_cases h2 : first.key = node.key
      · rw [if_pos h2] at h
        injection h with h
        cases h
      · rw [if_neg h2] at h
        cases h

theorem remove_perm (nodes : List (hash_entry V)) (head : marked_ptr_t) (key : Nat)
    (l : List (hash_entry V)) (h : remove nodes head key = .ok (some l)) :
    ∃ e, e.key = key ∧ nodes.Perm (e :: l) := by
  have hsplit := List.takeWhile_append_dropWhile
    (fun e : hash_entry V => e.addr != PTR_OF head) nodes
  unfold remove at h
  cases hd : nodes.dropWhile (fun e => e.addr != PTR_OF head) with
  | nil => rw [hd] at h; cases h
  | cons first rest =>
    rw [hd] at h hsplit
    simp only [] at h
    by_cases h1 : first.key < key
    · rw [if_pos h1] at h
      cases hw : walk_remove key rest with
      | none =>
        rw [hw] at h
        injection h with h
        cases h
      | some l1 =>
        rw [hw] at h
        injection h with h
        simp only [Option.map_some'] at h
        injection h with h
        subst h
        obtain ⟨e, hek, hp⟩ := walk_remove_perm key rest l1 hw
        refine ⟨e, hek, ?_⟩
        have h0 : nodes.Perm
            (nodes.takeWhile (fun e => e.addr != PTR_OF head) ++ first :: rest) := by
          rw [hsplit]
        refine h0.trans ?_
        have h2 : (nodes.takeWhile (fun e => e.addr != PTR_OF head) ++ first :: rest).Perm
            (nodes.takeWhile (fun e => e.addr != PTR_OF head) ++ first :: e :: l1) :=
          List.Perm.append_left _ (List.Perm.cons _ hp)
        refine h2.trans ?_
        have h4 : (first :: e :: l1).Perm (e :: first :: l1) := List.Perm.swap _ _ _
        exact (List.Perm.append_left _ h4).trans List.perm_middle
    · rw [if_neg h1] at h
      by_cases h2 : first.key = key
      · rw [if_pos h2] at h
        cases h
      · rw [if_neg h2] at h
        injection h with h
        cases h

theorem insert_error (nodes : List (hash_entry V)) (head : marked_ptr_t) (node : hash_entry V)
    (e : Fault) (h : insert nodes head node = .error e) :
    e = .bad_pointer ∨ e = .head_not_below := by
  unfold insert at h
  cases hd : nodes.dropWhile (fun e => e.addr != PTR_OF head) with
  | nil =>
    rw [hd] at h
    injection h with h
    exact Or.inl h.symm
  | cons first rest =>
    rw [hd] at h
    simp only [] at h
    by_cases h1 : first.key < node.key
    · rw [if_pos h1] at h
      cases hw : walk_insert node rest with
      | collides p => rw [hw] at h; cases h
      | inserted l1 => rw [hw] at h; cases h
    · rw [if_neg h1] at h
      by_cases h2 : first.key = node.key
      · rw [if_pos h2] at h
        cases h
      · rw [if_neg h2] at h
        injection h with h
        exact Or.inr h.symm

end list_ops

end splitordered

/-! ## Faults of the slot accesses; linking a dummy in every environment -/

namespace splitordered

namespace doubling_list

theorem locate_error (i : Nat) (e : Fault) (h : locate i = .error e) : e = .shift_overflow := by
  unfold locate at h
  simp only [] at h
  rcases bind_eq_error.1 h with h1 | ⟨bit, _, h2⟩
  · unfold shl_int at h1
    split at h1
    · cases h1
    · injection h1 with h1
      exact h1.symm
  · cases h2

theorem cell_fault (dl : doubling_list) (s off : Nat) (e : Fault)
    (h : dl.cell s off = .error e) : e = .out_of_bounds ∨ e = .null_segment := by
  unfold cell at h
  cases hb : dl.buckets_[s]? with
  | none =>
    rw [hb] at h
    injection h with h
    exact Or.inl h.symm
  | some seg =>
    cases seg with
    | none =>
      rw [hb] at h
      injection h with h
      exact Or.inr h.symm
    | some seg =>
      rw [hb] at h
      simp only [] at h
      cases hc : seg[off]? with
      | none =>
        rw [hc] at h
        injection h with h
        exact Or.inl h.symm
      | some v => rw [hc] at h; cases h

theorem set_cell_fault (dl : doubling_list) (s off v : Nat) (e : Fault)
    (h : dl.set_cell s off v = .error e) : e = .out_of_bounds ∨ e = .null_segment := by
  unfold set_cell at h
  cases hb : dl.buckets_[s]? with
  | none =>
    rw [hb] at h
    injection h with h
    exact Or.inl h.symm
  | some seg =>
    cases seg with
    | none =>
      rw [hb] at h
      injection h with h
      exact Or.inr h.symm
    | some seg =>
      rw [hb] at h
      simp only [] at h
      split at h
      · cases h
      · injection h with h
        exact Or.inl h.symm

theorem load_fault (dl : doubling_list) (i : Nat) (e : Fault) (h : dl.load i = .error e) :
    e = .shift_overflow ∨ e = .out_of_bounds ∨ e = .null_segment := by
  unfold load at h
  rcases bind_eq_error.1 h with h1 | ⟨⟨s, off⟩, _, h2⟩
  · exact Or.inl (locate_error i e h1)
  · exact Or.inr (cell_fault dl s off e h2)

theorem store_fault (dl : doubling_list) (i v : Nat) (e : Fault) (h : dl.store i v = .error e) :
    e = .shift_overflow ∨ e = .out_of_bounds ∨ e = .null_segment := by
  unfold store at h
  rcases bind_eq_error.1 h with h1 | ⟨⟨s, off⟩, _, h2⟩
  · exact Or.inl (locate_error i e h1)
  · exact Or.inr (set_cell_fault dl s off v e h2)

end doubling_list

namespace hash_table

variable {V : Type} [Inhabited V]

theorem base_alloc (t : hash_table V) (hI : base_Inv t) :
    base_Inv { t with brk := t.brk + 2 } :=
  { wf := hI.wf
    brk_even := by
      have := hI.brk_even
      show (t.brk + 2) % 2 = 0 ∧ 0 < t.brk + 2
      omega
    addr := hI.addr
    dummies := hI.dummies
    regulars := hI.regulars
    count := hI.count
    load_le := hI.load_le }

theorem link_dummy_base (t : hash_table V) (b parent : Nat) (hI : base_Inv t)
    (hb : b < 2 ^ (t.buckets_.num_populated_buckets_ - 1))
    (hbu : t.buckets_.load b = .ok UNINITIALIZED) (t1 : hash_table V)
    (h : link_dummy t b parent = .ok t1) :
    base_Inv t1 ∧
      t1.buckets_.num_populated_buckets_ = t.buckets_.num_populated_buckets_ ∧
      t1.count = t.count ∧
      (∀ j, j + 1 < 2 ^ 31 → j ≠ b → t1.buckets_.load j = t.buckets_.load j) ∧
      (∀ j w, j + 1 < 2 ^ 31 → t.buckets_.load j = .ok w → w ≠ UNINITIALIZED →
        t1.buckets_.load j = .ok w) := by
  have hb31 := doubling_list.lt_size_lt hI.wf b hb
  have hb63 : b < 2 ^ 63 := by omega
  have hdk : dummykey b % 2 = 0 := dummykey_even b hb63
  have hbrk := hI.brk_even
  unfold link_dummy at h
  simp only [] at h
  obtain ⟨head, _, h2⟩ := bind_eq_ok.1 h
  obtain ⟨r, hins, h3⟩ := bind_eq_ok.1 h2
  cases r with
  | collides cur =>
    simp only [] at h3
    obtain ⟨b1, _, h4⟩ := bind_eq_ok.1 h3
    split at h4
    · simp only [pure_eq_ok] at h4
      injection h4 with h4
      subst h4
      exact ⟨base_alloc t hI, rfl, rfl, fun _ _ _ => rfl, fun _ _ _ hw _ => hw⟩
    · cases h4
  | inserted l1 =>
    simp only [] at h3
    obtain ⟨dl1, hst, h4⟩ := bind_eq_ok.1 h3
    simp only [pure_eq_ok] at h4
    injection h4 with h4
    subst h4
    rw [CONSTRUCT_even _ hbrk.1] at hst
    obtain ⟨dl2, hs2, hwf1, hn1, hl1, hoth⟩ :=
      doubling_list.store_spec hI.wf b UNINITIALIZED t.brk hb31 hbu
    have hst2 : t.buckets_.store b t.brk = .ok dl1 := hst
    rw [hs2] at hst2
    injection hst2 with hst2
    subst hst2
    have hperm := list_ops.insert_perm _ _ _ _ hins
    have hmem : ∀ x, x ∈ l1 ↔
        x = ({ addr := t.brk, key := dummykey b, value := default } : hash_entry V) ∨
          x ∈ t.nodes := by
      intro x
      rw [hperm.mem_iff, List.mem_cons]
    refine ⟨?_, hn1, rfl, hoth, ?_⟩
    · refine ⟨hwf1, ?_, ?_, ?_, ?_, ?_, ?_⟩
      rotate_left 3
      · intro x hx hxo
        rcases (hmem x).1 hx with rfl | hx1
        · simp only [] at hxo
          omega
        · exact hI.regulars x hx1 hxo
      · show t.count = _
        rw [hI.count, hperm.countP_eq, List.countP_cons_of_neg]
        simp only [beq_iff_eq]
        omega
      · show t.count ≤ 5 * 2 ^ (dl2.num_populated_buckets_ - 1)
        rw [hn1]
        exact hI.load_le
      · show (t.brk + 2) % 2 = 0 ∧ 0 < t.brk + 2
        omega
      · intro x hx
        rcases (hmem x).1 hx with rfl | hx1
        · exact hbrk
        · exact hI.addr x hx1
      · intro x hx hxe
        show ∃ i, i < 2 ^ (dl2.num_populated_buckets_ - 1) ∧ x.key = dummykey i ∧
          dl2.load i = .ok x.addr
        rw [hn1]
        rcases (hmem x).1 hx with rfl | hx1
        · exact ⟨b, hb, rfl, hl1⟩
        · obtain ⟨i, h1, h2, h3⟩ := hI.dummies x hx1 hxe
          have hib : i ≠ b := by
            intro hc
            rw [hc, hbu] at h3
            injection h3 with h3
            have h0 : x.addr = 0 := h3.symm
            have := (hI.addr x hx1).2
            omega
          exact ⟨i, h1, h2, by
            rw [hoth i (doubling_list.lt_size_lt hI.wf i h1) hib]; exact h3⟩
    · intro j w hj hw hw0
      have hjb : j ≠ b := by
        intro hc
        rw [hc, hbu] at hw
        injection hw with hw
        exact hw0 hw.symm
      show dl2.load j = .ok w
      rw [hoth j hj hjb]
      exact hw

theorem link_dummy_fault (t : hash_table V) (b parent : Nat) (e : Fault)
    (h : link_dummy t b parent = .error e) : e ≠ .assertion := by
  unfold link_dummy at h
  simp only [] at h
  rcases bind_eq_error.1 h with h1 | ⟨head, _, h2⟩
  · rcases doubling_list.load_fault _ _ _ h1 with h | h | h <;> rw [h] <;> decide
  · rcases bind_eq_error.1 h2 with h3 | ⟨r, _, h4⟩
    · rcases list_ops.insert_error _ _ _ _ h3 with h | h <;> rw [h] <;> decide
    · cases r with
      | collides cur =>
        simp only [] at h4
        rcases bind_eq_error.1 h4 with h5 | ⟨b1, _, h6⟩
        · rcases doubling_list.load_fault _ _ _ h5 with h | h | h <;> rw [h] <;> decide
        · split at h6
          · cases h6
          · injection h6 with h6
            rw [← h6]
            decide
      | inserted l1 =>
        simp only [] at h4
        rcases bind_eq_error.1 h4 with h5 | ⟨dl1, _, h6⟩
        · rcases doubling_list.store_fault _ _ _ _ h5 with h | h | h <;> rw [h] <;> decide
        · cases h6

end hash_table

end splitordered

/-! ## Bucket initialisation in every environment -/

namespace splitordered

namespace doubling_list

theorem size_fault (dl : doubling_list) (e : Fault) (h : dl.size = .error e) :
    e = .shift_overflow := by
  unfold size shl_int at h
  split at h
  · cases h
  · injection h with h
    exact h.symm

end doubling_list

namespace hash_table

variable {V : Type} [Inhabited V]

theorem init_zero (depth : Nat) : ∀ (t : hash_table V),
    t.buckets_.load 0 = .ok UNINITIALIZED → ∀ t1, initialize_bucket depth t 0 ≠ .ok t1 := by
  induction depth with
  | zero =>
    intro t _ t1 h
    cases h
  | succ depth ih =>
    intro t hl t1 h
    rw [initialize_bucket_succ] at h
    have hp : get_parent 0 = 0 := by decide
    rw [hp, hl, bind_ok, if_pos rfl] at h
    obtain ⟨t2, h2, _⟩ := bind_eq_ok.1 h
    exact ih t hl t2 h2

theorem init_base (depth : Nat) : ∀ (t : hash_table V) (b : Nat), base_Inv t →
    b < 2 ^ (t.buckets_.num_populated_buckets_ - 1) →
    t.buckets_.load b = .ok UNINITIALIZED → ∀ t1, initialize_bucket depth t b = .ok t1 →
    base_Inv t1 ∧
      t1.buckets_.num_populated_buckets_ = t.buckets_.num_populated_buckets_ ∧
      t1.count = t.count ∧
      (∀ j, j + 1 < 2 ^ 31 → b < j → t1.buckets_.load j = t.buckets_.load j) ∧
      (∀ j w, j + 1 < 2 ^ 31 → t.buckets_.load j = .ok w → w ≠ UNINITIALIZED →
        t1.buckets_.load j = .ok w) := by
  induction depth with
  | zero =>
    intro t b _ _ _ t1 h
    cases h
  | succ depth ih =>
    intro t b hI hb hbu t1 h
    have hb0 : b ≠ 0 := by
      intro hc
      subst hc
      exact init_zero _ t hbu t1 h
    have hb31 := doubling_list.lt_size_lt hI.wf b hb
    have hsz : 2 ^ (t.buckets_.num_populated_buckets_ - 1) ≤ 2 ^ 30 :=
      Nat.pow_le_pow_right (by decide) (by have := hI.wf.le; omega)
    obtain ⟨hpb, _, _⟩ := parent_facts b 29 hb0 (by omega) (by omega)
    rw [initialize_bucket_succ] at h
    obtain ⟨p, hlp, h2⟩ := bind_eq_ok.1 h
    obtain ⟨t2, h3, h4⟩ := bind_eq_ok.1 h2
    by_cases hp0 : p = UNINITIALIZED
    · rw [if_pos hp0] at h3
      subst hp0
      obtain ⟨hI2, hn2, hc2, hfr2, hk2⟩ := ih t (get_parent b) hI (by omega) hlp t2 h3
      have hbu2 : t2.buckets_.load b = .ok UNINITIALIZED := by
        rw [hfr2 b hb31 hpb]
        exact hbu
      obtain ⟨hI1, hn1, hc1, hoth1, hk1⟩ :=
        link_dummy_base t2 b _ hI2 (by rw [hn2]; exact hb) hbu2 t1 h4
      refine ⟨hI1, by rw [hn1, hn2], by rw [hc1, hc2], ?_, ?_⟩
      · intro j hj hbj
        rw [hoth1 j hj (by omega), hfr2 j hj (by omega)]
      · intro j w hj hw hw0
        exact hk1 j w hj (hk2 j w hj hw hw0) hw0
    · rw [if_neg hp0] at h3
      simp only [pure_eq_ok] at h3
      injection h3 with h3
      subst h3
      obtain ⟨hI1, hn1, hc1, hoth1, hk1⟩ := link_dummy_base t b _ hI hb hbu t1 h4
      exact ⟨hI1, hn1, hc1, fun j hj hbj => hoth1 j hj (by omega), hk1⟩

theorem init_fault (depth : Nat) : ∀ (t : hash_table V) (b : Nat) (e : Fault),
    initialize_bucket depth t b = .error e → e ≠ .assertion := by
  induction depth with
  | zero =>
    intro t b e h
    injection h with h
    rw [← h]
    decide
  | succ depth ih =>
    intro t b e h
    rw [initialize_bucket_succ] at h
    rcases bind_eq_error.1 h with h1 | ⟨p, _, h2⟩
    · rcases doubling_list.load_fault _ _ _ h1 with h | h | h <;> rw [h] <;> decide
    · rcases bind_eq_error.1 h2 with h3 | ⟨t2, _, h4⟩
      · by_cases hp0 : p = UNINITIALIZED
        · rw [if_pos hp0] at h3
          exact ih t _ e h3
        · rw [if_neg hp0] at h3
          cases h3
      · exact link_dummy_fault t2 b _ e h4

theorem enter_base (t : hash_table V) (lkey : Nat) (hI : base_Inv t) (t1 : hash_table V)
    (head : marked_ptr_t) (h : enter t lkey = .ok (t1, head)) :
    base_Inv t1 ∧
      t1.buckets_.num_populated_buckets_ = t.buckets_.num_populated_buckets_ ∧
      t1.count = t.count ∧ t1.brk % 2 = t.brk % 2 ∧
      (∀ j w, j + 1 < 2 ^ 31 → t.buckets_.load j = .ok w → w ≠ UNINITIALIZED →
        t1.buckets_.load j = .ok w) := by
  unfold enter at h
  rw [doubling_list.size_of_wf hI.wf, bind_ok] at h
  obtain ⟨b, hlb, h2⟩ := bind_eq_ok.1 h
  simp only [] at h2
  by_cases hb0 : b = UNINITIALIZED
  · rw [if_pos hb0] at h2
    subst hb0
    obtain ⟨t2, h3, h4⟩ := bind_eq_ok.1 h2
    obtain ⟨hd, _, h5⟩ := bind_eq_ok.1 h4
    simp only [pure_eq_ok] at h5
    injection h5 with h5
    injection h5 with h6 h7
    subst h6
    obtain ⟨hI1, hn1, hc1, _, hk1⟩ := init_base 65 t _ hI
      (Nat.mod_lt _ (Nat.pow_pos (by decide))) hlb t2 h3
    exact ⟨hI1, hn1, hc1, by have := hI1.brk_even; have := hI.brk_even; omega, hk1⟩
  · rw [if_neg hb0] at h2
    obtain ⟨t2, h3, h4⟩ := bind_eq_ok.1 h2
    obtain ⟨hd, _, h5⟩ := bind_eq_ok.1 h4
    simp only [pure_eq_ok] at h5
    injection h5 with h5
    injection h5 with h6 h7
    subst h6
    simp only [pure_eq_ok] at h3
    injection h3 with h3
    subst h3
    exact ⟨hI, rfl, rfl, rfl, fun _ _ _ hw _ => hw⟩

theorem enter_fault (t : hash_table V) (lkey : Nat) (e : Fault)
    (h : enter t lkey = .error e) : e ≠ .assertion := by
  unfold enter at h
  rcases bind_eq_error.1 h with h1 | ⟨sz, _, h2⟩
  · rw [doubling_list.size_fault _ _ h1]
    decide
  · rcases bind_eq_error.1 h2 with h3 | ⟨b, _, h4⟩
    · rcases doubling_list.load_fault _ _ _ h3 with h | h | h <;> rw [h] <;> decide
    · simp only [] at h4
      by_cases hb0 : b = UNINITIALIZED
      · rw [if_pos hb0] at h4
        rcases bind_eq_error.1 h4 with h5 | ⟨t2, _, h6⟩
        · exact init_fault 65 t _ e h5
        · rcases bind_eq_error.1 h6 with h7 | ⟨hd, _, h8⟩
          · rcases doubling_list.load_fault _ _ _ h7 with h | h | h <;> rw [h] <;> decide
          · cases h8
      · rw [if_neg hb0] at h4
        rcases bind_eq_error.1 h4 with h5 | ⟨t2, _, h6⟩
        · cases h5
        · rcases bind_eq_error.1 h6 with h7 | ⟨hd, _, h8⟩
          · rcases doubling_list.load_fault _ _ _ h7 with h | h | h <;> rw [h] <;> decide
          · cases h8

end hash_table

end splitordered

/-! ## `get` and `remove` in every environment -/

namespace splitordered

namespace hash_table

variable {V : Type} [Inhabited V]

theorem base_count_bounds (t : hash_table V) (hI : base_Inv t) :
    0 ≤ t.count ∧ t.count < 2 ^ 64 ∧ to_size_t t.count = t.count.toNat := by
  have h1 := hI.count
  have h2 := hI.load_le
  have h3 : (2 : Int) ^ (t.buckets_.num_populated_buckets_ - 1) ≤ 2 ^ 30 := by
    have : (2 : Nat) ^ (t.buckets_.num_populated_buckets_ - 1) ≤ 2 ^ 30 :=
      Nat.pow_le_pow_right (by decide) (by have := hI.wf.le; omega)
    exact_mod_cast this
  have h0 : 0 ≤ t.count := by rw [h1]; exact Int.natCast_nonneg _
  have h64 : t.count < 2 ^ 64 := by
    have : (5 : Int) * 2 ^ 30 < 2 ^ 64 := by norm_num
    omega
  refine ⟨h0, h64, ?_⟩
  obtain ⟨c, hc⟩ := Int.eq_ofNat_of_zero_le h0
  rw [hc] at h64 ⊢
  rw [to_size_t_natCast c (by exact_mod_cast h64), Int.toNat_ofNat]

theorem base_load_le_nat (t : hash_table V) (hI : base_Inv t) :
    to_size_t t.count ≤ 5 * 2 ^ (t.buckets_.num_populated_buckets_ - 1) := by
  have hb := base_count_bounds t hI
  rw [hb.2.2, Int.toNat_le]
  have := hI.load_le
  push_cast
  exact this

theorem base_insert (t : hash_table V) (node : hash_entry V) (l1 : List (hash_entry V))
    (dl : doubling_list) (hI : base_Inv t) (h : Nat) (hh : h < 2 ^ 63)
    (hkey : node.key = regularkey h)
    (ha : node.addr % 2 = 0 ∧ 0 < node.addr)
    (hperm : l1.Perm (node :: t.nodes))
    (hwf : dl.wf)
    (hn : t.buckets_.num_populated_buckets_ ≤ dl.num_populated_buckets_)
    (hkeep : ∀ j v, j + 1 < 2 ^ 31 → t.buckets_.load j = .ok v → dl.load j = .ok v)
    (hle : t.count + 1 ≤ 5 * 2 ^ (dl.num_populated_buckets_ - 1)) :
    base_Inv { buckets_ := dl, count := t.count + 1, nodes := l1, brk := t.brk } := by
  have hk : node.key % 2 = 1 := by
    rw [hkey]
    exact regularkey_odd h hh
  have hmem : ∀ x, x ∈ l1 ↔ x = node ∨ x ∈ t.nodes := by
    intro x
    rw [hperm.mem_iff, List.mem_cons]
  have hpow : 2 ^ (t.buckets_.num_populated_buckets_ - 1) ≤ 2 ^ (dl.num_populated_buckets_ - 1) :=
    Nat.pow_le_pow_right (by decide) (by omega)
  refine ⟨hwf, hI.brk_even, ?_, ?_, ?_, ?_, hle⟩
  rotate_left 2
  · intro x hx hxo
    rcases (hmem x).1 hx with rfl | hx1
    · exact ⟨h, hh, hkey⟩
    · exact hI.regulars x hx1 hxo
  · simp only []
    rw [hI.count, hperm.countP_eq, List.countP_cons_of_pos]
    · push_cast; ring
    · simp only [beq_iff_eq]; exact hk
  · intro x hx
    rcases (hmem x).1 hx with rfl | hx1
    · exact ha
    · exact hI.addr x hx1
  · intro x hx hxe
    rcases (hmem x).1 hx with rfl | hx1
    · omega
    · obtain ⟨i, h1, h2, h3⟩ := hI.dummies x hx1 hxe
      exact ⟨i, by simp only []; omega, h2,
        hkeep i _ (doubling_list.lt_size_lt hI.wf i h1) h3⟩

theorem base_remove (t : hash_table V) (e : hash_entry V) (l1 : List (hash_entry V))
    (hI : base_Inv t) (hk : e.key % 2 = 1) (hperm : t.nodes.Perm (e :: l1)) :
    base_Inv { t with nodes := l1, count := t.count + -1 } := by
  have hmem : ∀ x, x ∈ l1 → x ∈ t.nodes := by
    intro x hx
    rw [hperm.mem_iff]
    exact List.mem_cons_of_mem _ hx
  refine ⟨hI.wf, hI.brk_even, fun x hx => hI.addr x (hmem x hx),
    fun x hx hxe => hI.dummies x (hmem x hx) hxe,
    fun x hx hxo => hI.regulars x (hmem x hx) hxo, ?_, ?_⟩
  · show t.count + -1 = _
    rw [hI.count, hperm.countP_eq, List.countP_cons_of_pos]
    · push_cast; ring
    · simp only [beq_iff_eq]; exact hk
  · show t.count + -1 ≤ 5 * 2 ^ (t.buckets_.num_populated_buckets_ - 1)
    have := hI.load_le
    omega

theorem get_base (t : hash_table V) (k : Nat) (hI : base_Inv t) (r : Option V)
    (t1 : hash_table V) (h : t.get k = .ok (r, t1)) :
    base_Inv t1 ∧
      t1.buckets_.num_populated_buckets_ = t.buckets_.num_populated_buckets_ ∧
      t1.count = t.count ∧
      (∀ j w, j + 1 < 2 ^ 31 → t.buckets_.load j = .ok w → w ≠ UNINITIALIZED →
        t1.buckets_.load j = .ok w) := by
  rw [get_eq] at h
  obtain ⟨⟨t2, head⟩, he, h2⟩ := bind_eq_ok.1 h
  obtain ⟨hI2, hn2, hc2, _, hk2⟩ := enter_base t _ hI t2 head he
  obtain ⟨r1, _, h3⟩ := bind_eq_ok.1 h2
  simp only [pure_eq_ok] at h3
  injection h3 with h3
  injection h3 with h4 h5
  subst h5
  exact ⟨hI2, hn2, hc2, hk2⟩

theorem remove_base (t : hash_table V) (k : Nat) (hI : base_Inv t) (r : Bool)
    (t1 : hash_table V) (h : t.remove k = .ok (r, t1)) :
    base_Inv t1 ∧
      t1.buckets_.num_populated_buckets_ = t.buckets_.num_populated_buckets_ ∧
      t1.count = t.count - (if r = true then 1 else 0) ∧
      (∀ j w, j + 1 < 2 ^ 31 → t.buckets_.load j = .ok w → w ≠ UNINITIALIZED →
        t1.buckets_.load j = .ok w) := by
  rw [remove_eq] at h
  obtain ⟨⟨t2, head⟩, he, h2⟩ := bind_eq_ok.1 h
  obtain ⟨hI2, hn2, hc2, _, hk2⟩ := enter_base t _ hI t2 head he
  obtain ⟨r1, hrm, h3⟩ := bind_eq_ok.1 h2
  simp only [pure_eq_ok] at h3
  injection h3 with h3
  cases r1 with
  | none =>
    simp only [remove_done] at h3
    injection h3 with h4 h5
    subst h4; subst h5
    refine ⟨hI2, hn2, ?_, hk2⟩
    rw [hc2, if_neg (by decide)]
    omega
  | some l1 =>
    simp only [remove_done] at h3
    injection h3 with h4 h5
    subst h4; subst h5
    obtain ⟨e, hek, hperm⟩ := list_ops.remove_perm _ _ _ _ hrm
    have hodd : e.key % 2 = 1 := by
      rw [hek]
      exact regularkey_odd _ (hashword_lt _)
    refine ⟨base_remove t2 e l1 hI2 hodd hperm, hn2, ?_, hk2⟩
    show t2.count + -1 = _
    rw [hc2, if_pos rfl]
    omega

end hash_table

end splitordered

/-! ## `put`, construction and the reachable states in every environment -/

namespace splitordered

namespace hash_table

variable {V : Type} [Inhabited V]

set_option maxHeartbeats 800000 in
theorem put_base (t : hash_table V) (env : environment) (k : Nat) (v : V) (hI : base_Inv t)
    (r : Bool) (t1 : hash_table V) (h : t.put env k v = .ok (r, t1)) :
    base_Inv t1 ∧ t1.count = t.count + (if r = true then 1 else 0) ∧
      t1.buckets_.num_populated_buckets_ =
        (if r = true ∧
            to_size_t t.count / 2 ^ (t.buckets_.num_populated_buckets_ - 1) > MAX_LOAD
          then t.buckets_.num_populated_buckets_ + 1
          else t.buckets_.num_populated_buckets_) ∧
      (r = true →
        to_size_t t.count / 2 ^ (t.buckets_.num_populated_buckets_ - 1) > MAX_LOAD →
        env.cas = true ∧ t.buckets_.num_populated_buckets_ < 31) ∧
      (∀ j w, j + 1 < 2 ^ 31 → t.buckets_.load j = .ok w → w ≠ UNINITIALIZED →
        t1.buckets_.load j = .ok w) := by
  have hh := hashword_lt (k % 2 ^ 64)
  have hodd := regularkey_odd _ hh
  rw [put_eq] at h
  obtain ⟨⟨t2, head⟩, he, h2⟩ := bind_eq_ok.1 h
  obtain ⟨hI2, hn2, hc2, hb2, hk2⟩ := enter_base _ _ (base_alloc t hI) t2 head he
  have hn2a : t2.buckets_.num_populated_buckets_ = t.buckets_.num_populated_buckets_ := hn2
  have hc2a : t2.count = t.count := hc2
  have hk2a : ∀ j w, j + 1 < 2 ^ 31 → t.buckets_.load j = .ok w → w ≠ UNINITIALIZED →
      t2.buckets_.load j = .ok w := hk2
  obtain ⟨ir, hins, h3⟩ := bind_eq_ok.1 h2
  have hcb := base_count_bounds t hI
  have hle0 := hI.load_le
  have hpos : 0 < 2 ^ (t.buckets_.num_populated_buckets_ - 1) := Nat.pow_pos (by decide)
  have haddr : t.brk % 2 = 0 ∧ 0 < t.brk := hI.brk_even
  cases ir with
  | collides cur =>
    simp only [put_done, pure_eq_ok] at h3
    injection h3 with h3
    injection h3 with h4 h5
    subst h4; subst h5
    refine ⟨hI2, ?_, ?_, ?_, hk2a⟩
    · rw [hc2a, if_neg (by decide)]
      omega
    · rw [hn2a, if_neg (fun hc => by cases hc.1)]
    · intro hc
      cases hc
  | inserted l1 =>
    have hperm := list_ops.insert_perm _ _ _ _ hins
    simp only [put_done] at h3
    obtain ⟨g1, g2, g3, g4⟩ := grow_spec env
      ({ t2 with nodes := l1, count := t2.count + 1 } : hash_table V) t2.count hI2.wf
    simp only [] at g1 g2 g3 g4
    rw [hc2a, hn2a] at g1 g2 g3 g4
    rw [hc2a] at h3
    by_cases hc : to_size_t t.count / 2 ^ (t.buckets_.num_populated_buckets_ - 1) > MAX_LOAD
    · cases hcas : env.cas with
      | false =>
        rw [g4 hc hcas] at h3
        cases h3
      | true =>
        by_cases hn : t.buckets_.num_populated_buckets_ < 31
        · rw [g2 hc hn hcas] at h3
          injection h3 with h3
          injection h3 with h4 h5
          subst h4; subst h5
          have hgw := doubling_list.grow_wf hI2.wf (by rw [hn2a]; exact hn)
            (new_array_on env.fresh (2 ^ (t2.buckets_.num_populated_buckets_ - 1)))
            (doubling_list.new_array_on_length _ _)
          have hI3 := base_insert t2
            ({ addr := t.brk, key := regularkey (hashword (k % 2 ^ 64)), value := v } :
              hash_entry V)
            l1 _ hI2 _ hh rfl haddr hperm hgw (by simp only []; omega)
            (fun j v hj h => (doubling_list.load_grow hI2.wf _ j hj).1 v h) (by
              simp only []
              rw [hc2a, hn2a, Nat.add_sub_cancel]
              have h2 := hI.wf.two_le
              have e0 : (2 : Nat) ^ t.buckets_.num_populated_buckets_ =
                  2 ^ (t.buckets_.num_populated_buckets_ - 1) * 2 := by
                rw [← pow_succ, Nat.sub_add_cancel (by omega)]
              have e1 : (2 : Int) ^ t.buckets_.num_populated_buckets_ =
                  2 ^ (t.buckets_.num_populated_buckets_ - 1) * 2 := by
                exact_mod_cast e0
              have e3 : (0 : Int) < 2 ^ (t.buckets_.num_populated_buckets_ - 1) := by
                positivity
              rw [e1]
              omega)
          rw [hc2a, hn2a] at hI3
          refine ⟨hI3, by rw [if_pos rfl], ?_, fun _ _ => ⟨rfl, hn⟩, ?_⟩
          · rw [if_pos ⟨rfl, hc⟩]
          · intro j w hj hw hw0
            have hg := (doubling_list.load_grow hI2.wf
              (new_array_on env.fresh (2 ^ (t2.buckets_.num_populated_buckets_ - 1))) j hj).1 w
              (hk2a j w hj hw hw0)
            rw [hn2a] at hg
            exact hg
        · have h31 : t.buckets_.num_populated_buckets_ = 31 := by
            have := hI.wf.le
            omega
          rw [g3 hc h31 hcas] at h3
          cases h3
    · rw [g1 hc] at h3
      injection h3 with h3
      injection h3 with h4 h5
      subst h4; subst h5
      have hI3 := base_insert t2
        ({ addr := t.brk, key := regularkey (hashword (k % 2 ^ 64)), value := v } :
          hash_entry V)
        l1 t2.buckets_ hI2 _ hh rfl haddr hperm hI2.wf (le_refl _) (fun _ _ _ h => h) (by
          rw [hc2a, hn2a]
          have h4 : to_size_t t.count / 2 ^ (t.buckets_.num_populated_buckets_ - 1) ≤ 4 := by
            unfold MAX_LOAD at hc; omega
          rw [hcb.2.2] at h4
          have h5 : t.count.toNat < 5 * 2 ^ (t.buckets_.num_populated_buckets_ - 1) := by
            have := (Nat.div_lt_iff_lt_mul hpos).1 (Nat.lt_succ_of_le h4)
            omega
          have h6 : (t.count.toNat : Int) = t.count := Int.toNat_of_nonneg hcb.1
          have h7 : ((t.count.toNat : Nat) : Int) <
              ((5 * 2 ^ (t.buckets_.num_populated_buckets_ - 1) : Nat) : Int) := by
            exact_mod_cast h5
          rw [h6] at h7
          push_cast at h7
          omega)
      rw [hc2a] at hI3
      refine ⟨hI3, by rw [if_pos rfl], ?_, fun _ hc1 => absurd hc1 hc, hk2a⟩
      rw [if_neg (fun hc1 => hc hc1.2)]
      exact hn2a

theorem put_assertion_base (t : hash_table V) (env : environment) (k : Nat) (v : V)
    (hI : base_Inv t) (h : t.put env k v = .error .assertion) :
    to_size_t t.count / 2 ^ (t.buckets_.num_populated_buckets_ - 1) > MAX_LOAD ∧
      env.cas = false := by
  rw [put_eq] at h
  rcases bind_eq_error.1 h with h1 | ⟨⟨t2, head⟩, he, h2⟩
  · exact absurd rfl (enter_fault _ _ _ h1)
  · obtain ⟨hI2, hn2, hc2, _, _⟩ := enter_base _ _ (base_alloc t hI) t2 head he
    have hn2a : t2.buckets_.num_populated_buckets_ = t.buckets_.num_populated_buckets_ := hn2
    have hc2a : t2.count = t.count := hc2
    rcases bind_eq_error.1 h2 with h3 | ⟨ir, _, h4⟩
    · rcases list_ops.insert_error _ _ _ _ h3 with h | h <;> cases h
    · cases ir with
      | collides cur =>
        simp only [put_done, pure_eq_ok] at h4
        cases h4
      | inserted l1 =>
        simp only [put_done] at h4
        obtain ⟨g1, g2, g3, g4⟩ := grow_spec env
          ({ t2 with nodes := l1, count := t2.count + 1 } : hash_table V) t2.count hI2.wf
        simp only [] at g1 g2 g3 g4
        rw [hc2a, hn2a] at g1 g2 g3 g4
        rw [hc2a] at h4
        by_cases hc : to_size_t t.count / 2 ^ (t.buckets_.num_populated_buckets_ - 1) >
            MAX_LOAD
        · refine ⟨hc, ?_⟩
          cases hcas : env.cas with
          | false => rfl
          | true =>
            by_cases hn : t.buckets_.num_populated_buckets_ < 31
            · rw [g2 hc hn hcas] at h4
              cases h4
            · have h31 : t.buckets_.num_populated_buckets_ = 31 := by
                have := hI.wf.le
                omega
              rw [g3 hc h31 hcas] at h4
              cases h4
        · rw [g1 hc] at h4
          cases h4

theorem new_base (V : Type) [Inhabited V] (env : environment) :
    ∃ t, hash_table.new V env = .ok t ∧ base_Inv t ∧ t.count = 0 ∧
      t.buckets_.num_populated_buckets_ = 2 ∧
      t.nodes = [{ addr := 2, key := 0, value := default }] ∧
      t.buckets_.load 0 = .ok 2 ∧ t.buckets_.load 1 = .ok (env.fresh 1) := by
  have hw := doubling_list.new_wf env
  have hl0 : (doubling_list.new env).load 0 = .ok (env.fresh 0) := rfl
  have hl1a : (doubling_list.new env).load 1 = .ok (env.fresh 1) := rfl
  obtain ⟨dl1, hs, hwf1, hn1, hl1, hoth⟩ :=
    doubling_list.store_spec hw 0 (env.fresh 0) 2 (by decide) hl0
  have hc : CONSTRUCT 0 2 = 2 := by decide
  have hn2 : dl1.num_populated_buckets_ = 2 := hn1
  refine ⟨{ buckets_ := dl1, count := 0,
            nodes := [{ addr := 2, key := 0, value := default }], brk := 4 }, ?_, ?_, rfl,
    hn2, rfl, hl1, ?_⟩
  · unfold hash_table.new
    simp only []
    rw [hc, hs, bind_ok]
    rfl
  · refine ⟨hwf1, ⟨(by decide : 4 % 2 = 0), (by decide : 0 < 4)⟩, ?_, ?_, ?_, by simp, ?_⟩
    rotate_left 2
    · intro e he ho
      rw [List.mem_singleton] at he
      subst he
      simp only [] at ho
      omega
    · simp only []
      rw [hn2]
      decide
    · intro e he
      rw [List.mem_singleton] at he
      subst he
      exact ⟨(by decide : 2 % 2 = 0), (by decide : 0 < 2)⟩
    · intro e he _
      rw [List.mem_singleton] at he
      subst he
      exact ⟨0, Nat.pow_pos (by decide), (by decide : 0 = dummykey 0), hl1⟩
  · show dl1.load 1 = _
    rw [hoth 1 (by decide) (by decide)]
    exact hl1a

theorem step_base (t : hash_table V) (env : environment) (c : call V) (hI : base_Inv t)
    (a : answer V) (t1 : hash_table V) (hs : t.step env c = .ok (a, t1)) :
    base_Inv t1 ∧
      t.buckets_.num_populated_buckets_ ≤ t1.buckets_.num_populated_buckets_ ∧
      (∀ j w, j + 1 < 2 ^ 31 → t.buckets_.load j = .ok w → w ≠ UNINITIALIZED →
        t1.buckets_.load j = .ok w) := by
  cases c with
  | put k v =>
    obtain ⟨r, _, h⟩ := step_put_ok t env k v a t1 hs
    obtain ⟨h1, _, h3, _, h5⟩ := put_base t env k v hI r t1 h
    refine ⟨h1, ?_, h5⟩
    rw [h3]
    split <;> omega
  | get k =>
    obtain ⟨r, _, h⟩ := step_get_ok t env k a t1 hs
    obtain ⟨h1, h2, _, h4⟩ := get_base t k hI r t1 h
    exact ⟨h1, by rw [h2], h4⟩
  | remove k =>
    obtain ⟨r, _, h⟩ := step_remove_ok t env k a t1 hs
    obtain ⟨h1, h2, _, h4⟩ := remove_base t k hI r t1 h
    exact ⟨h1, by rw [h2], h4⟩

theorem reachable_base (ok : environment → Prop) (t : hash_table V) (hr : reachable ok t) :
    base_Inv t := by
  induction hr with
  | new _ h =>
    obtain ⟨t0, e0, hI, _⟩ := new_base V _
    rw [e0] at h
    injection h with h
    subst h
    exact hI
  | step _ _ hs ih => exact (step_base _ _ _ ih _ _ hs).1

end hash_table

end splitordered

/-! ## Sequences of calls in one environment -/

namespace splitordered

theorem in_env_ok {V : Type} (ok : environment → Prop) (env : environment) (h : ok env)
    (cs : List (call V)) : ∀ p ∈ in_env env cs, ok p.1 := by
  intro p hp
  obtain ⟨c, _, rfl⟩ := List.mem_map.1 hp
  exact h

theorem in_env_calls {V : Type} (env : environment) (cs : List (call V)) :
    (in_env env cs).map (fun p => p.2.scrambled) = cs.map call.scrambled := by
  unfold in_env
  rw [List.map_map]
  rfl

theorem in_env_length {V : Type} (env : environment) (cs : List (call V)) :
    (in_env env cs).length = cs.length := by
  unfold in_env
  exact List.length_map _ _

theorem clean_zeroed : environment.clean.zeroed := fun _ => rfl

theorem clean_run_reachable {V : Type} [Inhabited V] (ok : environment → Prop)
    (h : ok environment.clean) (cs : List (call V)) (as : List (answer V))
    (t : hash_table V) (hr : clean_run V cs = .ok (as, t)) : hash_table.reachable ok t :=
  hash_table.run_new_reachable ok environment.clean (in_env environment.clean cs) h
    (in_env_ok ok environment.clean h cs) as t hr

end splitordered

/-! ## Properties: runs, indexing -/

namespace splitordered

/-- C1, counterexample: the keys 1 and 1754534505066088654 are distinct 64-bit
keys with the same scrambled key; after `put(1, 10)` the call
`put(1754534505066088654, 20)` returns `false` on the table and `true` on a
map from keys to values.  On a table whose blocks hold the word 8 `get(1)`
follows that word as a pointer; after the puts of the keys 1 to 11 `get(9)`
addresses a slot outside its segment; and the 11th put does not return when
its compare-and-swap fails. -/
theorem C1_counterexample :
    (1 : Nat) ≠ collider ∧ collider < 2 ^ 64 ∧ hashword 1 = hashword collider ∧
    (clean_run Nat [.put 1 10, .put collider 20]).map Prod.fst =
      .ok [.put true, .put false] ∧
    reference.run (reference.empty Nat) [.put 1 10, .put collider 20] =
      [.put true, .put true] ∧
    hash_table.run_new Nat (environment.stale 8) (in_env environment.clean [.get 1]) =
      .error .bad_pointer ∧
    clean_run Nat (puts [1, 2, 3, 4, 5, 6, 7, 8, 9, 10, 11] ++ [.get 9]) =
      .error .out_of_bounds ∧
    hash_table.run_new Nat environment.clean
        (in_env environment.spurious (puts [1, 2, 3, 4, 5, 6, 7, 8, 9, 10, 11])) =
      .error .assertion := by
  decide

/-- C1 (amended): for every sequence of calls on a fresh table, the
constructor and every call allocating blocks of `UNINITIALIZED` words, when
the calls all return their results are those of the same calls on a reference
map whose keys are the scrambled keys `hashword key`; a sequence that does not
return stops at a slot outside its segment, at the overflow of the shift in
`size()`, or at the assertion of a `put` whose compare-and-swap failed; and
every sequence of at most 10 calls returns. -/
theorem C1_run_refines_map_of_scrambled_keys (V : Type) [Inhabited V] (env : environment)
    (calls : List (environment × call V)) (h0 : env.zeroed)
    (hz : ∀ p ∈ calls, p.1.zeroed) :
    (∀ as t, hash_table.run_new V env calls = .ok (as, t) →
      as = reference.run (reference.empty V) (calls.map (fun p => p.2.scrambled))) ∧
    (∀ e, hash_table.run_new V env calls = .error e →
      e = .out_of_bounds ∨ e = .shift_overflow ∨
        (e = .assertion ∧ ∃ p ∈ calls, p.1.cas = false)) ∧
    (calls.length ≤ 10 → ∃ as t, hash_table.run_new V env calls = .ok (as, t)) := by
  obtain ⟨h1, h2⟩ := hash_table.run_new_sim env calls h0 hz
  refine ⟨h1, h2, ?_⟩
  intro hlen
  obtain ⟨t0, e0, hI, hc, hn, _⟩ := hash_table.new_spec V env h0
  obtain ⟨as, t, h⟩ := hash_table.run_small calls t0 hI hn (by rw [hc]; norm_cast; omega)
  refine ⟨as, t, ?_⟩
  unfold hash_table.run_new
  rw [e0, bind_ok]
  exact h

/-- C1, witness: a sequence of nine calls on three keys, two of them with the
same scrambled key. -/
theorem C1_witness :
    environment.clean.zeroed ∧
    clean_run Nat mixed_calls =
      .ok ([.put true, .put false, .get (some 10), .get (some 10), .remove true, .get none,
        .put true, .get (some 5), .remove false], clean_after Nat mixed_calls) ∧
    [.put true, .put false, .get (some 10), .get (some 10), .remove true, .get none,
        .put true, .get (some 5), .remove false] =
      reference.run (reference.empty Nat)
        ((in_env environment.clean mixed_calls).map (fun p => p.2.scrambled)) :=
  ⟨clean_zeroed, by decide,
    (C1_run_refines_map_of_scrambled_keys Nat environment.clean
      (in_env environment.clean mixed_calls) clean_zeroed
      (in_env_ok environment.zeroed environment.clean clean_zeroed mixed_calls)).1 _
    (clean_after Nat mixed_calls) (by decide)⟩

/-- C2: after `double_size(2)` on a fresh list the size is 4, and the index 2,
which is below the size, is sent to offset 1 of segment 1, a segment of one
slot: the slot addressed lies outside the segment, whatever words the blocks
hold. -/
theorem C2_index_below_size_outside_segment :
    (doubling_list.new environment.clean).double_size environment.clean 2 =
      .ok (4, doubling_list.grown 1) ∧
    (doubling_list.grown 1).size = .ok 4 ∧
    doubling_list.locate 2 = .ok (1, 1) ∧
    (doubling_list.grown 1).buckets_[1]? = some (some [UNINITIALIZED]) ∧
    doubling_list.capacity 1 = 1 ∧
    (doubling_list.grown 1).load 2 = .error .out_of_bounds ∧
    (∀ fresh fresh1 : Nat → marked_ptr_t,
      ((doubling_list.new { fresh := fresh, cas := true }).double_size
          { fresh := fresh1, cas := true } 2).map
        (fun p => (p.2.size, p.2.load 2)) = .ok (.ok 4, .error .out_of_bounds)) := by
  refine ⟨by decide, by decide, by decide, by decide, by decide, by decide, ?_⟩
  intro fresh fresh1
  rfl

/-- C8, counterexample: the index `2 ^ 31 - 1` lies between `2 ^ 31 - 1` and
`2 ^ 32 - 2`, so the claim sends it to segment 31 at offset 0; `operator[]`
computes `1 << 31` in 32-bit `int` for it, which overflows.  For the index
`2 ^ 32 - 1` the position `i + 1` wraps to 0 in `uint32_t`, and the index is
sent to segment 0 and not to segment 32. -/
theorem C8_counterexample :
    2 ^ 31 - 1 ≤ 2 ^ 31 - 1 ∧ 2 ^ 31 - 1 ≤ 2 ^ (31 + 1) - 2 ∧ 2 ^ 31 - 1 < 2 ^ 32 ∧
    doubling_list.locate (2 ^ 31 - 1) = .error .shift_overflow ∧
    doubling_list.locate (2 ^ 31 - 1) ≠ .ok (31, (2 ^ 31 - 1) - (2 ^ 31 - 1)) ∧
    2 ^ 32 - 1 < 2 ^ 32 ∧ 2 ^ 32 - 1 ≤ 2 ^ 32 - 1 ∧ 2 ^ 32 - 1 ≤ 2 ^ (32 + 1) - 2 ∧
    doubling_list.locate (2 ^ 32 - 1) = .ok (0, 1) := by
  decide

/-- C8 (amended): for every index `i` with `i + 1 < 2 ^ 31`, `operator[]`
sends `i` to segment `floor(log2(i + 1))` at offset `(i + 1) XOR 2 ^ segment`; `i` is sent
to segment `s` at offset `off` exactly when `2 ^ s - 1 <= i <= 2 ^ (s + 1) - 2`
and `off = i - (2 ^ s - 1)`; and distinct indices are sent to distinct
slots. -/
theorem C8_operator_index_slot (i : Nat) (hi : i + 1 < 2 ^ 31) :
    doubling_list.locate i =
      .ok (Nat.log2 (i + 1), (i + 1) ^^^ 2 ^ Nat.log2 (i + 1)) ∧
    (∀ s off, doubling_list.locate i = .ok (s, off) ↔
      (2 ^ s - 1 ≤ i ∧ i ≤ 2 ^ (s + 1) - 2 ∧ off = i - (2 ^ s - 1))) ∧
    (∀ j, j + 1 < 2 ^ 31 → j ≠ i → doubling_list.locate j ≠ doubling_list.locate i) := by
  have hne : i + 1 ≠ 0 := by omega
  have hlo : 2 ^ Nat.log2 (i + 1) ≤ i + 1 := Nat.log2_self_le hne
  have hhi : i + 1 < 2 ^ (Nat.log2 (i + 1) + 1) := Nat.lt_log2_self
  have hloc := doubling_list.locate_log2 i hi
  refine ⟨?_, ?_, ?_⟩
  · rw [hloc, xor_two_pow_of_mem _ _ hlo hhi]
  · intro s off
    constructor
    · intro h
      rw [hloc] at h
      injection h with h
      injection h with h1 h2
      subst h1; subst h2
      have hpos : 0 < 2 ^ Nat.log2 (i + 1) := Nat.pow_pos (by decide)
      have h2 : 2 ^ (Nat.log2 (i + 1) + 1) = 2 * 2 ^ Nat.log2 (i + 1) := by
        rw [pow_succ]; omega
      refine ⟨by omega, by omega, by omega⟩
    · rintro ⟨h1, h2, h3⟩
      have hpos : 0 < 2 ^ s := Nat.pow_pos (by decide)
      have h4 : 2 ^ (s + 1) = 2 * 2 ^ s := by rw [pow_succ]; omega
      have hs : s < 31 := by
        by_contra hge
        have : 2 ^ 31 ≤ 2 ^ s := Nat.pow_le_pow_right (by decide) (by omega)
        omega
      rw [doubling_list.locate_of_mem i s hs (by omega) (by omega), h3]
      congr 2
      omega
  · intro j hj hne h
    exact hne (doubling_list.locate_inj j i hj hi h)

/-- C8, witness: the index 5 lies in segment 2 at offset 2. -/
theorem C8_witness :
    doubling_list.locate 5 = .ok (Nat.log2 (5 + 1), (5 + 1) ^^^ 2 ^ Nat.log2 (5 + 1)) ∧
    doubling_list.locate 5 = .ok (2, 2) ∧
    doubling_list.locate 4 ≠ doubling_list.locate 5 :=
  ⟨(C8_operator_index_slot 5 (by decide)).1,
    ((C8_operator_index_slot 5 (by decide)).2.1 2 2).2 (by decide),
    (C8_operator_index_slot 5 (by decide)).2.2 4 (by decide) (by decide)⟩

end splitordered

/-! ## Properties: doubling, construction -/

namespace splitordered

namespace hash_table

variable {V : Type} [Inhabited V]

theorem new_get_miss (V : Type) [Inhabited V] (env : environment) (hz : env.zeroed) :
    ∃ t, hash_table.new V env = .ok t ∧ t.buckets_.size = .ok 2 ∧ t.count = 0 ∧
      t.buckets_.load 0 = .ok (CONSTRUCT 0 2) ∧ MARK_OF (CONSTRUCT 0 2) = 0 ∧
      PTR_OF (CONSTRUCT 0 2) = 2 ∧
      t.nodes = [{ addr := 2, key := dummykey 0, value := default }] ∧ dummykey 0 = 0 ∧
      ∀ k, ∃ t1, t.get k = .ok (none, t1) := by
  obtain ⟨t, e0, hI, hc, hn, hnodes, hl⟩ := hash_table.new_spec V env hz
  refine ⟨t, e0, ?_, hc, hl, by decide, by decide, hnodes, by decide, ?_⟩
  · rw [doubling_list.size_of_wf hI.wf, hn]
    rfl
  · intro k
    obtain ⟨s1, _⟩ := hash_table.get_spec t k hI
    obtain ⟨t1, e1, _⟩ := s1 (hash_table.enter_ok_two t _ hI hn)
    rw [hash_table.content_new t hnodes _ (hashword_lt _)] at e1
    exact ⟨t1, e1⟩

end hash_table

/-- C9: after 29 calls `double_size(size())` on a fresh list there are 31
populated segments, fewer than 32, and the size is `2 ^ 30`; the call
`double_size(2 ^ 30)` publishes segment 31 and then computes `0x01 << 31` in
32-bit `int`, which overflows: it does not return `2 * 2 ^ 30`.  And
`double_size(2)` on a fresh list of size 2 whose weak compare-and-swap fails
publishes nothing and returns 2, not 4. -/
theorem C9_double_size_does_not_double :
    (doubling_list.grown 29).reachable ∧
    (doubling_list.grown 29).num_populated_buckets_ = 31 ∧ 31 < 32 ∧
    (doubling_list.grown 29).size = .ok (2 ^ 30) ∧
    (doubling_list.grown 29).double_size environment.clean (2 ^ 30) =
      .error .shift_overflow ∧
    (doubling_list.new environment.clean).size = .ok 2 ∧
    (doubling_list.new environment.clean).double_size environment.spurious 2 =
      .ok (2, doubling_list.new environment.clean) := by
  have hr := doubling_list.grown_reachable 29
  have hw := doubling_list.reachable_wf hr
  have hn := doubling_list.grown_populated 29 (by decide)
  refine ⟨hr, hn, by decide, ?_,
    doubling_list.double_size_overflow environment.clean hw hn rfl, by decide, by decide⟩
  rw [doubling_list.size_of_wf hw, hn]

/-- C10: on a block that holds the word 8 the constructor returns a table
of size 2 with `count` 0 whose slot 0 points to the only node, the dummy with
key 0, and whose slot 1 holds the word 8; `get(1)`, a key of bucket 1, finds
the slot different from `UNINITIALIZED` and follows the word as a pointer to a
node: it does not return `false`. -/
theorem C10_fresh_table_on_stale_block :
    hash_table.new Nat (environment.stale 8) =
      .ok (hash_table.after Nat (environment.stale 8) []) ∧
    (hash_table.after Nat (environment.stale 8) []).buckets_.size = .ok 2 ∧
    (hash_table.after Nat (environment.stale 8) []).count = 0 ∧
    (hash_table.after Nat (environment.stale 8) []).nodes =
      [{ addr := 2, key := dummykey 0, value := default }] ∧
    (hash_table.after Nat (environment.stale 8) []).buckets_.load 0 = .ok (CONSTRUCT 0 2) ∧
    (hash_table.after Nat (environment.stale 8) []).buckets_.load 1 = .ok 8 ∧
    (8 : marked_ptr_t) ≠ UNINITIALIZED ∧
    hashword (1 % 2 ^ 64) % 2 = 1 ∧
    (hash_table.after Nat (environment.stale 8) []).get 1 = .error .bad_pointer := by
  decide

end splitordered

/-! ## Properties: put, get, remove -/

namespace splitordered

namespace hash_table

variable {V : Type} [Inhabited V]

theorem get_remove_get (t : hash_table V) (k : Nat) (v : V) (hI : Inv t)
    (hc : content t (hashword (k % 2 ^ 64)) = some v)
    (hok : enter_ok t.buckets_ (hashword (k % 2 ^ 64)) = true) :
    ∃ t2, t.get k = .ok (some v, t2) ∧
      ∃ t3, t2.remove k = .ok (true, t3) ∧ ∃ t4, t3.get k = .ok (none, t4) := by
  have hh := hashword_lt (k % 2 ^ 64)
  have hodd := regularkey_odd _ hh
  obtain ⟨t2, e2, hI2, _, _, hw2, _, hok2⟩ := (get_spec t k hI).1 hok
  have hc2 : content t2 (hashword (k % 2 ^ 64)) = some v := by
    rw [content_eq t t2 _ hh hw2, hc]
  obtain ⟨t3, e3, hI3, _, _, hw3, _, hok3⟩ := (remove_spec t2 k hI2).1 hok2
  have hc3 : content t3 (hashword (k % 2 ^ 64)) = none := by
    unfold content
    rw [hw3 _ hodd, if_pos rfl]
  obtain ⟨t4, e4, _⟩ := (get_spec t3 k hI3).1 hok3
  rw [hc] at e2
  rw [hc2] at e3
  rw [hc3] at e4
  exact ⟨t2, e2, t3, e3, t4, e4⟩

theorem put_present (t : hash_table V) (hr : reachable environment.zeroed t)
    (env : environment) (k : Nat) (v : V) (t0 : hash_table V)
    (hpresent : t.get k = .ok (some v, t0)) (w : V) :
    ∃ t1, t.put env k w = .ok (false, t1) ∧ t1.count = t.count ∧
      (∃ t2, t1.get k = .ok (some v, t2)) ∧
      ∀ k1 r t3, t.get k1 = .ok (r, t3) → ∃ t4, t1.get k1 = .ok (r, t4) := by
  have hI := hash_table.reachable_Inv t hr
  have hh := hashword_lt (k % 2 ^ 64)
  obtain ⟨hsome, _, _, _, _, _, hok, _⟩ := hash_table.get_inv t k hI (some v) t0 hpresent
  obtain ⟨c1, _⟩ := (hash_table.put_spec t env k w hI).1 hok
  obtain ⟨t1, e1, hI1, hn1, hc1, hw1, hext1, hok1⟩ := c1 v hsome.symm
  refine ⟨t1, e1, hc1, ?_, ?_⟩
  · obtain ⟨t2, e2, _⟩ := (hash_table.get_spec t1 k hI1).1 hok1
    rw [hash_table.content_eq t t1 _ hh hw1, ← hsome] at e2
    exact ⟨t2, e2⟩
  · intro k1 r t3 hg
    obtain ⟨hr1, _, _, _, _, _, hokk, _⟩ := hash_table.get_inv t k1 hI r t3 hg
    have hokk1 := hash_table.enter_ok_mono t.buckets_ t1.buckets_ _ hI.wf hI1.wf hn1 hext1 hokk
    obtain ⟨t4, e4, _⟩ := (hash_table.get_spec t1 k1 hI1).1 hokk1
    rw [hash_table.content_eq t t1 _ (hashword_lt _) hw1, ← hr1] at e4
    exact ⟨t4, e4⟩

theorem remove_twice (t : hash_table V) (hr : reachable environment.zeroed t) (k : Nat)
    (r1 : Bool) (t1 : hash_table V) (hfirst : t.remove k = .ok (r1, t1)) :
    ∃ t2, t1.remove k = .ok (false, t2) ∧ ∃ t3, t2.get k = .ok (none, t3) := by
  have hI := hash_table.reachable_Inv t hr
  have hh := hashword_lt (k % 2 ^ 64)
  have hodd := regularkey_odd _ hh
  obtain ⟨_, hI1, _, _, hw1, _, _, hok1⟩ := hash_table.remove_inv t k hI r1 t1 hfirst
  have hc1 : hash_table.content t1 (hashword (k % 2 ^ 64)) = none := by
    unfold hash_table.content
    rw [hw1 _ hodd, if_pos rfl]
  obtain ⟨t2, e2, hI2, _, _, hw2, _, hok2⟩ := (hash_table.remove_spec t1 k hI1).1 hok1
  have hc2 : hash_table.content t2 (hashword (k % 2 ^ 64)) = none := by
    unfold hash_table.content
    rw [hw2 _ hodd, if_pos rfl]
  obtain ⟨t3, e3, _⟩ := (hash_table.get_spec t2 k hI2).1 hok2
  rw [hc1] at e2
  rw [hc2] at e3
  exact ⟨t2, e2, t3, e3⟩

end hash_table

/-- C3, counterexample: the key 1754534505066088654 was never put, yet after
`put(1, 10)` the call `put(1754534505066088654, 20)` returns `false`, and
`get(1754534505066088654)` returns the value 10 of the key 1.  On a fresh
table whose blocks hold the word 8 the key 1 is not present and `put(1, 10)`
follows that word as a pointer; and on the table that holds the keys 1 to 10
the put of the key 11 does not return when its compare-and-swap fails. -/
theorem C3_counterexample :
    collider ≠ 1 ∧ collider < 2 ^ 64 ∧
    (clean_run Nat [.put 1 10, .put collider 20, .get collider]).map Prod.fst =
      .ok [.put true, .put false, .get (some 10)] ∧
    (hash_table.after Nat (environment.stale 8) []).nodes =
      [{ addr := 2, key := dummykey 0, value := default }] ∧
    (hash_table.after Nat (environment.stale 8) []).put environment.clean 1 10 =
      .error .bad_pointer ∧
    (clean_after Nat (puts [1, 2, 3, 4, 5, 6, 7, 8, 9, 10])).put environment.spurious 11 11 =
      .error .assertion := by
  decide

/-- C3 (amended): for every state reached by calls that allocate blocks of
`UNINITIALIZED` words and every key `k` on which `get(k)` misses: when the
load found by `put` does not exceed `MAX_LOAD`, `put(k, v)` returns `true`,
the following `get(k)` returns `v`, then `remove(k)` returns `true` and a last
`get(k)` misses.  When the load exceeds `MAX_LOAD` and the compare-and-swap of
`double_size` succeeds, `put(k, v)` returns `true` below `2 ^ 30` buckets, and
the three following calls return as stated unless the slot of the bucket of
`k` in the doubled table lies outside its segment; at `2 ^ 30` buckets the
shift in `size()` overflows; and when the compare-and-swap fails the
assertion of `put` fails. -/
theorem C3_put_get_remove_on_miss (V : Type) [Inhabited V] (t : hash_table V)
    (hr : hash_table.reachable environment.zeroed t) (env : environment) (hz : env.zeroed)
    (k : Nat) (v : V) (t0 : hash_table V) (hmiss : t.get k = .ok (none, t0)) :
    (∀ s, t.buckets_.size = .ok s → to_size_t t.count / s ≤ MAX_LOAD →
      ∃ t1, t.put env k v = .ok (true, t1) ∧
        ∃ t2, t1.get k = .ok (some v, t2) ∧
          ∃ t3, t2.remove k = .ok (true, t3) ∧ ∃ t4, t3.get k = .ok (none, t4)) ∧
    (∀ s, t.buckets_.size = .ok s → to_size_t t.count / s > MAX_LOAD → env.cas = true →
      s < 2 ^ 30 →
      ∃ t1, t.put env k v = .ok (true, t1) ∧
        (t1.get k = .error .out_of_bounds ∨
          ∃ t2, t1.get k = .ok (some v, t2) ∧
            ∃ t3, t2.remove k = .ok (true, t3) ∧ ∃ t4, t3.get k = .ok (none, t4))) ∧
    (∀ s, t.buckets_.size = .ok s → to_size_t t.count / s > MAX_LOAD → env.cas = true →
      s = 2 ^ 30 → t.put env k v = .error .shift_overflow) ∧
    (∀ s, t.buckets_.size = .ok s → to_size_t t.count / s > MAX_LOAD → env.cas = false →
      t.put env k v = .error .assertion) := by
  have hI := hash_table.reachable_Inv t hr
  have hh := hashword_lt (k % 2 ^ 64)
  have hodd := regularkey_odd _ hh
  have h2 := hI.wf.two_le
  have hle := hI.wf.le
  obtain ⟨hnone, _, _, _, _, _, hok, _⟩ := hash_table.get_inv t k hI none t0 hmiss
  obtain ⟨_, c2⟩ := (hash_table.put_spec t env k v hI).1 hok
  obtain ⟨d1, d2, d3, d4⟩ := c2 hnone.symm
  have hsize : ∀ s, t.buckets_.size = .ok s →
      s = 2 ^ (t.buckets_.num_populated_buckets_ - 1) := by
    intro s hs
    rw [doubling_list.size_of_wf hI.wf] at hs
    exact (Except.ok.inj hs).symm
  refine ⟨?_, ?_, ?_, ?_⟩
  · intro s hs hsmall
    rw [hsize s hs] at hsmall
    obtain ⟨t1, e1, hI1, _, _, hw1, hok1, _⟩ := d1 (Nat.not_lt.2 hsmall)
    have hc1 : hash_table.content t1 (hashword (k % 2 ^ 64)) = some v := by
      unfold hash_table.content
      rw [hw1 _ hodd, if_pos rfl]
    exact ⟨t1, e1, hash_table.get_remove_get t1 k v hI1 hc1 hok1⟩
  · intro s hs hgr hcas hlt
    rw [hsize s hs] at hgr hlt
    have hn : t.buckets_.num_populated_buckets_ < 31 := by
      by_contra hc
      have h31 : t.buckets_.num_populated_buckets_ = 31 := by omega
      rw [h31] at hlt
      exact absurd hlt (by decide)
    obtain ⟨t1, e1, hI1, _, _, hw1, _⟩ := d2 hgr hn hcas hz
    have hc1 : hash_table.content t1 (hashword (k % 2 ^ 64)) = some v := by
      unfold hash_table.content
      rw [hw1 _ hodd, if_pos rfl]
    refine ⟨t1, e1, ?_⟩
    cases hok1 : hash_table.enter_ok t1.buckets_ (hashword (k % 2 ^ 64)) with
    | false => exact Or.inl ((hash_table.get_spec t1 k hI1).2 hok1)
    | true => exact Or.inr (hash_table.get_remove_get t1 k v hI1 hc1 hok1)
  · intro s hs hgr hcas heq
    rw [hsize s hs] at hgr heq
    have hn : t.buckets_.num_populated_buckets_ = 31 := by
      have := Nat.pow_right_injective (le_refl 2) heq
      omega
    exact d3 hgr hn hcas
  · intro s hs hgr hcas
    rw [hsize s hs] at hgr
    exact d4 hgr hcas

/-- C3, witness: the key 2 on the table that holds the key 1. -/
theorem C3_witness :
    environment.clean.zeroed ∧
    (clean_after Nat [.put 1 10]).get 2 = .ok (none, clean_after Nat [.put 1 10, .get 2]) ∧
    (clean_after Nat [.put 1 10]).buckets_.size = .ok 2 ∧
    to_size_t (clean_after Nat [.put 1 10]).count / 2 ≤ MAX_LOAD ∧
    ∃ t1, (clean_after Nat [.put 1 10]).put environment.clean 2 20 = .ok (true, t1) ∧
      ∃ t2, t1.get 2 = .ok (some 20, t2) ∧
        ∃ t3, t2.remove 2 = .ok (true, t3) ∧ ∃ t4, t3.get 2 = .ok (none, t4) :=
  ⟨clean_zeroed, by decide, by decide, by decide,
    (C3_put_get_remove_on_miss Nat (clean_after Nat [.put 1 10])
      (clean_run_reachable environment.zeroed clean_zeroed [.put 1 10] [.put true] _
        (by decide))
      environment.clean clean_zeroed 2 20
      (clean_after Nat [.put 1 10, .get 2]) (by decide)).1 2 (by decide) (by decide)⟩

/-- C4: the puts of the keys 1 to 11 on a fresh table all return `true` and
leave a table of size 4 in which the key 9 is stored with the value 9; 9 is a
key of bucket 2, whose slot `operator[]` addresses outside its segment:
`put(9, 0)` reads that slot and does not return `false`, and neither does
`get(9)` return. -/
theorem C4_put_present_reads_outside_segment :
    clean_run Nat (puts [1, 2, 3, 4, 5, 6, 7, 8, 9, 10, 11]) =
      .ok (List.replicate 11 (.put true),
        clean_after Nat (puts [1, 2, 3, 4, 5, 6, 7, 8, 9, 10, 11])) ∧
    (clean_after Nat (puts [1, 2, 3, 4, 5, 6, 7, 8, 9, 10, 11])).buckets_.size = .ok 4 ∧
    hash_table.content (clean_after Nat (puts [1, 2, 3, 4, 5, 6, 7, 8, 9, 10, 11]))
      (hashword (9 % 2 ^ 64)) = some 9 ∧
    hashword (9 % 2 ^ 64) % 4 = 2 ∧
    (clean_after Nat (puts [1, 2, 3, 4, 5, 6, 7, 8, 9, 10, 11])).buckets_.load 2 =
      .error .out_of_bounds ∧
    (clean_after Nat (puts [1, 2, 3, 4, 5, 6, 7, 8, 9, 10, 11])).put environment.clean 9 0 =
      .error .out_of_bounds ∧
    (clean_after Nat (puts [1, 2, 3, 4, 5, 6, 7, 8, 9, 10, 11])).get 9 =
      .error .out_of_bounds := by
  decide

/-- C5: the puts of the keys 1 to 11 on a fresh table all return `true` and
leave a table of size 4; 9 and 10 are keys of bucket 2, whose slot
`operator[]` addresses outside its segment: `remove(9)` reads that slot and
does not return, so that no second `remove(9)` returns `false`; the same
holds of `remove(10)`. -/
theorem C5_remove_reads_outside_segment :
    (clean_run Nat (puts [1, 2, 3, 4, 5, 6, 7, 8, 9, 10, 11])).map Prod.fst =
      .ok (List.replicate 11 (.put true)) ∧
    (clean_after Nat (puts [1, 2, 3, 4, 5, 6, 7, 8, 9, 10, 11])).buckets_.size = .ok 4 ∧
    hashword (9 % 2 ^ 64) % 4 = 2 ∧ hashword (10 % 2 ^ 64) % 4 = 2 ∧
    doubling_list.locate 2 = .ok (1, 1) ∧ doubling_list.capacity 1 = 1 ∧
    (clean_after Nat (puts [1, 2, 3, 4, 5, 6, 7, 8, 9, 10, 11])).remove 9 =
      .error .out_of_bounds ∧
    (clean_after Nat (puts [1, 2, 3, 4, 5, 6, 7, 8, 9, 10, 11])).remove 10 =
      .error .out_of_bounds ∧
    clean_run Nat (puts [1, 2, 3, 4, 5, 6, 7, 8, 9, 10, 11] ++ [.remove 9, .remove 9]) =
      .error .out_of_bounds := by
  decide

end splitordered

/-! ## Properties: growth and load -/

namespace splitordered

namespace hash_table

variable {V : Type} [Inhabited V]

theorem put_true_size (t : hash_table V) (env : environment) (k : Nat) (v : V)
    (t1 : hash_table V) (hI : base_Inv t) (hp : t.put env k v = .ok (true, t1)) :
    base_Inv t1 ∧ t1.count = t.count + 1 ∧
      t1.buckets_.size =
        .ok (if to_size_t t.count / 2 ^ (t.buckets_.num_populated_buckets_ - 1) > MAX_LOAD
          then 2 * 2 ^ (t.buckets_.num_populated_buckets_ - 1)
          else 2 ^ (t.buckets_.num_populated_buckets_ - 1)) ∧
      (to_size_t t.count / 2 ^ (t.buckets_.num_populated_buckets_ - 1) > MAX_LOAD →
        env.cas = true ∧ t.buckets_.num_populated_buckets_ < 31) := by
  obtain ⟨hI1, hcnt, hnn, hcas, _⟩ := put_base t env k v hI true t1 hp
  simp only [if_true, true_and] at hcnt hnn
  refine ⟨hI1, hcnt, ?_, hcas rfl⟩
  rw [doubling_list.size_of_wf hI1.wf, hnn]
  have h2 := hI.wf.two_le
  by_cases hgr : to_size_t t.count / 2 ^ (t.buckets_.num_populated_buckets_ - 1) > MAX_LOAD
  · rw [if_pos hgr, if_pos hgr, Nat.add_sub_cancel, mul_comm, ← pow_succ,
      Nat.sub_add_cancel (by omega)]
  · rw [if_neg hgr, if_neg hgr]

theorem puts_are_puts (env : environment) (ks : List Nat) :
    ∀ p ∈ in_env env (puts ks), ∃ k v, p.2 = call.put k v := by
  intro p hp
  obtain ⟨c, hc, rfl⟩ := List.mem_map.1 hp
  obtain ⟨k, _, rfl⟩ := List.mem_map.1 hc
  exact ⟨k, k, rfl⟩

theorem puts_grow (cs : List (environment × call V)) : ∀ (t : hash_table V)
    (as : List (answer V)) (t1 : hash_table V), base_Inv t →
    ((t.count ≤ 10 → t.buckets_.num_populated_buckets_ = 2) ∧
      (11 ≤ t.count → t.count ≤ 20 → t.buckets_.num_populated_buckets_ = 3)) →
    (∀ p ∈ cs, ∃ k v, p.2 = call.put k v) → t.run cs = .ok (as, t1) →
    (∀ a ∈ as, a = answer.put true) →
    t1.count = t.count + cs.length ∧
      (t1.count ≤ 10 → t1.buckets_.num_populated_buckets_ = 2) ∧
      (11 ≤ t1.count → t1.count ≤ 20 → t1.buckets_.num_populated_buckets_ = 3) := by
  induction cs with
  | nil =>
    intro t as t1 _ hG _ h _
    unfold run at h
    simp only [pure_eq_ok] at h
    injection h with h
    injection h with h1 h2
    subst h2
    refine ⟨by simp, hG⟩
  | cons c cs ih =>
    obtain ⟨env, c⟩ := c
    intro t as t1 hI hG hputs h hall
    unfold run at h
    obtain ⟨⟨a, t2⟩, h1, h2⟩ := bind_eq_ok.1 h
    simp only [] at h2
    obtain ⟨⟨as2, t3⟩, h3, h4⟩ := bind_eq_ok.1 h2
    simp only [pure_eq_ok] at h4
    injection h4 with h4
    injection h4 with h5 h6
    subst h5; subst h6
    obtain ⟨k, v, hc⟩ := hputs (env, c) (List.mem_cons_self _ _)
    simp only [] at hc
    subst hc
    obtain ⟨r, ha, hp⟩ := step_put_ok t env k v a t2 h1
    have hat := hall a (List.mem_cons_self _ _)
    rw [ha] at hat
    injection hat with hr
    subst hr
    obtain ⟨hI2, hcnt, hnn, _, _⟩ := put_base t env k v hI true t2 hp
    have hb := base_count_bounds t hI
    simp only [if_true, true_and] at hcnt hnn
    have hG2 : (t2.count ≤ 10 → t2.buckets_.num_populated_buckets_ = 2) ∧
        (11 ≤ t2.count → t2.count ≤ 20 → t2.buckets_.num_populated_buckets_ = 3) := by
      rw [hnn, hcnt, hb.2.2]
      unfold MAX_LOAD
      have h21 : (2 : Nat) ^ (2 - 1) = 2 := by decide
      have h31 : (2 : Nat) ^ (3 - 1) = 4 := by decide
      constructor
      · intro hle
        have hn2 := hG.1 (by omega)
        rw [hn2, h21, if_neg (by omega)]
      · intro h11 h20
        by_cases h10 : t.count = 10
        · have hn2 := hG.1 (by omega)
          rw [hn2, h21, if_pos (by omega)]
        · have hn3 := hG.2 (by omega) (by omega)
          rw [hn3, h31, if_neg (by omega)]
    obtain ⟨r1, r2⟩ := ih t2 as2 t3 hI2 hG2
      (fun c hc => hputs c (List.mem_cons_of_mem _ hc)) h3
      (fun a ha => hall a (List.mem_cons_of_mem _ ha))
    refine ⟨?_, r2⟩
    rw [r1, hcnt]
    simp only [List.length_cons]
    push_cast
    omega

end hash_table

/-- C6, counterexample: on a fresh table the puts of the keys 1 to 9 all
return `true` and leave the size at 2, and so do the puts of the keys 1 to 10,
after which `count / size()` is 5; the 11th put doubles the size when its
compare-and-swap succeeds, and does not return when it fails. -/
theorem C6_counterexample :
    (clean_run Nat (puts [1, 2, 3, 4, 5, 6, 7, 8, 9])).map
        (fun p => (p.1, p.2.buckets_.size, p.2.count)) =
      .ok (List.replicate 9 (.put true), .ok 2, 9) ∧
    (clean_run Nat (puts [1, 2, 3, 4, 5, 6, 7, 8, 9, 10])).map
        (fun p => (p.1, p.2.buckets_.size, p.2.count)) =
      .ok (List.replicate 10 (.put true), .ok 2, 10) ∧
    10 / 2 > MAX_LOAD ∧
    (clean_run Nat (puts [1, 2, 3, 4, 5, 6, 7, 8, 9, 10, 11])).map
        (fun p => (p.1, p.2.buckets_.size, p.2.count)) =
      .ok (List.replicate 11 (.put true), .ok 4, 11) ∧
    (clean_after Nat (puts [1, 2, 3, 4, 5, 6, 7, 8, 9, 10])).put environment.spurious 11 11 =
      .error .assertion := by
  decide

/-- C6 (amended): in every state reached from a fresh table, whatever words
the allocated blocks hold, a `put` that returns `true` and finds `count = p`
on a table of size `s` raises `count` to `p + 1` and doubles the size exactly
when `p / s > MAX_LOAD` in integer division, and then its compare-and-swap has
succeeded; a `put` that fails its assertion has found `p / s > MAX_LOAD` and
its compare-and-swap has failed; no other call changes the size; `double_size`
with a compare-and-swap that succeeds doubles the size below `2 ^ 30`
buckets; hence on a fresh table a sequence of at most 20 puts that all return
`true` leaves the size at 2 when there are at most 10 of them and at 4
otherwise. -/
theorem C6_growth_policy (V : Type) [Inhabited V] :
    (∀ (t : hash_table V) (env : environment) (k : Nat) (v : V) (t1 : hash_table V),
      hash_table.reachable environment.any t → t.put env k v = .ok (true, t1) →
      t1.count = t.count + 1 ∧
      ∃ s, t.buckets_.size = .ok s ∧
        t1.buckets_.size = .ok (if to_size_t t.count / s > MAX_LOAD then 2 * s else s) ∧
        (to_size_t t.count / s > MAX_LOAD → env.cas = true)) ∧
    (∀ (t : hash_table V) (env : environment) (k : Nat) (v : V),
      hash_table.reachable environment.any t → t.put env k v = .error .assertion →
      ∃ s, t.buckets_.size = .ok s ∧ to_size_t t.count / s > MAX_LOAD ∧ env.cas = false) ∧
    (∀ (t : hash_table V) (env : environment) (c : call V) (a : answer V) (t1 : hash_table V),
      hash_table.reachable environment.any t → t.step env c = .ok (a, t1) →
      a ≠ .put true → t1.buckets_.size = t.buckets_.size) ∧
    (∀ (t : hash_table V) (env : environment) (s : Nat),
      hash_table.reachable environment.any t → env.cas = true →
      t.buckets_.size = .ok s → s < 2 ^ 30 →
      ∃ dl, t.buckets_.double_size env s = .ok (2 * s, dl) ∧ dl.size = .ok (2 * s)) ∧
    (∀ (env : environment) (cs : List (environment × call V)) (as : List (answer V))
      (t : hash_table V), (∀ p ∈ cs, ∃ k v, p.2 = call.put k v) →
      hash_table.run_new V env cs = .ok (as, t) → (∀ a ∈ as, a = answer.put true) →
      cs.length ≤ 20 →
      t.count = cs.length ∧ t.buckets_.size = .ok (if cs.length ≤ 10 then 2 else 4)) := by
  refine ⟨?_, ?_, ?_, ?_, ?_⟩
  · intro t env k v t1 hr hp
    have hI := hash_table.reachable_base _ t hr
    obtain ⟨_, hcnt, hsz, hcas⟩ := hash_table.put_true_size t env k v t1 hI hp
    exact ⟨hcnt, _, doubling_list.size_of_wf hI.wf, hsz, fun h => (hcas h).1⟩
  · intro t env k v hr hp
    have hI := hash_table.reachable_base _ t hr
    obtain ⟨h1, h2⟩ := hash_table.put_assertion_base t env k v hI hp
    exact ⟨_, doubling_list.size_of_wf hI.wf, h1, h2⟩
  · intro t env c a t1 hr hs ha
    have hI := hash_table.reachable_base _ t hr
    have hI1 := (hash_table.step_base t env c hI a t1 hs).1
    rw [doubling_list.size_of_wf hI.wf, doubling_list.size_of_wf hI1.wf]
    have hn : t1.buckets_.num_populated_buckets_ = t.buckets_.num_populated_buckets_ := by
      cases c with
      | put k v =>
        obtain ⟨r, har, hp⟩ := hash_table.step_put_ok t env k v a t1 hs
        obtain ⟨_, _, hnn, _⟩ := hash_table.put_base t env k v hI r t1 hp
        have hr : ¬ r = true := by
          intro h
          rw [h] at har
          exact ha har
        rw [hnn, if_neg (fun h => hr h.1)]
      | get k =>
        obtain ⟨r, _, hg⟩ := hash_table.step_get_ok t env k a t1 hs
        exact (hash_table.get_base t k hI r t1 hg).2.1
      | remove k =>
        obtain ⟨r, _, hg⟩ := hash_table.step_remove_ok t env k a t1 hs
        exact (hash_table.remove_base t k hI r t1 hg).2.1
    rw [hn]
  · intro t env s hr hcas hs hlt
    have hI := hash_table.reachable_base _ t hr
    have h2 := hI.wf.two_le
    have hle := hI.wf.le
    rw [doubling_list.size_of_wf hI.wf] at hs
    have hs1 := (Except.ok.inj hs).symm
    subst hs1
    have hn : t.buckets_.num_populated_buckets_ < 31 := by
      by_contra hc
      have h31 : t.buckets_.num_populated_buckets_ = 31 := by omega
      rw [h31] at hlt
      exact absurd hlt (by decide)
    have hpow : 2 * 2 ^ (t.buckets_.num_populated_buckets_ - 1) =
        2 ^ t.buckets_.num_populated_buckets_ := by
      rw [mul_comm, ← pow_succ, Nat.sub_add_cancel (by omega)]
    refine ⟨{ num_populated_buckets_ := t.buckets_.num_populated_buckets_ + 1,
              buckets_ := t.buckets_.buckets_.set t.buckets_.num_populated_buckets_
                (some (new_array_on env.fresh
                  (2 ^ (t.buckets_.num_populated_buckets_ - 1)))) }, ?_, ?_⟩
    · rw [doubling_list.double_size_grow env hI.wf hn hcas, hpow]
    · rw [doubling_list.size_of_wf (doubling_list.grow_wf hI.wf hn _
        (doubling_list.new_array_on_length _ _)), hpow]
      rfl
  · intro env cs as t hputs hrun hall hlen
    have hI := hash_table.reachable_base environment.any t
      (hash_table.run_new_reachable environment.any env cs trivial (fun _ _ => trivial)
        as t hrun)
    obtain ⟨t0, e0, hI0, hc0, hn0, _⟩ := hash_table.new_base V env
    unfold hash_table.run_new at hrun
    rw [e0, bind_ok] at hrun
    obtain ⟨h1, h2, h3⟩ := hash_table.puts_grow cs t0 as t hI0
      ⟨fun _ => hn0, fun h => by rw [hc0] at h; omega⟩ hputs hrun hall
    rw [hc0, zero_add] at h1
    refine ⟨h1, ?_⟩
    rw [doubling_list.size_of_wf hI.wf]
    rw [h1] at h2 h3
    by_cases h10 : cs.length ≤ 10
    · rw [if_pos h10, h2 (by exact_mod_cast h10)]
      rfl
    · rw [if_neg h10, h3 (by norm_cast; omega) (by exact_mod_cast hlen)]
      rfl

/-- C6, witness: the 11th successful put on a fresh table doubles the size
from 2 to 4, and 17 successful puts leave the size at 4. -/
theorem C6_witness :
    clean_run Nat (puts [1, 2, 3, 4, 5, 6, 7, 8, 9, 10]) =
      .ok (List.replicate 10 (.put true),
        clean_after Nat (puts [1, 2, 3, 4, 5, 6, 7, 8, 9, 10])) ∧
    (clean_after Nat (puts [1, 2, 3, 4, 5, 6, 7, 8, 9, 10])).put environment.clean 11 11 =
      .ok (true, clean_after Nat (puts [1, 2, 3, 4, 5, 6, 7, 8, 9, 10, 11])) ∧
    (clean_after Nat (puts [1, 2, 3, 4, 5, 6, 7, 8, 9, 10])).buckets_.size = .ok 2 ∧
    (clean_after Nat (puts [1, 2, 3, 4, 5, 6, 7, 8, 9, 10, 11])).buckets_.size = .ok 4 ∧
    ((clean_after Nat (puts [1, 2, 3, 4, 5, 6, 7, 8, 9, 10, 11])).count =
        (clean_after Nat (puts [1, 2, 3, 4, 5, 6, 7, 8, 9, 10])).count + 1 ∧
      ∃ s, (clean_after Nat (puts [1, 2, 3, 4, 5, 6, 7, 8, 9, 10])).buckets_.size = .ok s ∧
        (clean_after Nat (puts [1, 2, 3, 4, 5, 6, 7, 8, 9, 10, 11])).buckets_.size =
          .ok (if to_size_t (clean_after Nat (puts [1, 2, 3, 4, 5, 6, 7, 8, 9, 10])).count / s
            > MAX_LOAD then 2 * s else s) ∧
        (to_size_t (clean_after Nat (puts [1, 2, 3, 4, 5, 6, 7, 8, 9, 10])).count / s
            > MAX_LOAD → environment.clean.cas = true)) ∧
    (clean_after Nat (puts [1, 2, 3, 4, 5, 6, 7, 8, 9, 10, 11, 13, 14, 15, 17, 18,
        19])).buckets_.size = .ok 4 :=
  ⟨by decide, by decide, by decide, by decide,
    (C6_growth_policy Nat).1 (clean_after Nat (puts [1, 2, 3, 4, 5, 6, 7, 8, 9, 10]))
      environment.clean 11 11
      (clean_after Nat (puts [1, 2, 3, 4, 5, 6, 7, 8, 9, 10, 11]))
      (clean_run_reachable environment.any trivial (puts [1, 2, 3, 4, 5, 6, 7, 8, 9, 10])
        (List.replicate 10 (.put true)) _ (by decide))
      (by decide),
    ((C6_growth_policy Nat).2.2.2.2 environment.clean
      (in_env environment.clean
        (puts [1, 2, 3, 4, 5, 6, 7, 8, 9, 10, 11, 13, 14, 15, 17, 18, 19]))
      (List.replicate 17 (.put true))
      (clean_after Nat (puts [1, 2, 3, 4, 5, 6, 7, 8, 9, 10, 11, 13, 14, 15, 17, 18, 19]))
      (hash_table.puts_are_puts _ _) (by decide) (by decide) (by decide)).2⟩

/-- C7, counterexample: after the puts of the keys 1 to 10 on a fresh table,
which all return `true`, the size is 2 and `count` is 10, so that
`count / size()` is 5. -/
theorem C7_counterexample :
    (clean_run Nat (puts [1, 2, 3, 4, 5, 6, 7, 8, 9, 10])).map
        (fun p => (p.1, p.2.buckets_.size, to_size_t p.2.count)) =
      .ok (List.replicate 10 (.put true), .ok 2, 10) ∧ ¬ (10 / 2 ≤ MAX_LOAD) := by
  decide

/-- C7 (amended): in every state reached from a fresh table, whatever words
the allocated blocks hold and whether or not a compare-and-swap fails,
immediately after a `put` that returns `true` the count before the call
divided by the size is at most `MAX_LOAD`, and the count is at most
`(MAX_LOAD + 1) * size()`. -/
theorem C7_load_bound_after_put (V : Type) [Inhabited V] (t : hash_table V)
    (hr : hash_table.reachable environment.any t) (env : environment) (k : Nat) (v : V)
    (t1 : hash_table V) (hp : t.put env k v = .ok (true, t1)) :
    ∃ s, t1.buckets_.size = .ok s ∧ to_size_t (t1.count - 1) / s ≤ MAX_LOAD ∧
      to_size_t t1.count ≤ (MAX_LOAD + 1) * s := by
  have hI := hash_table.reachable_base _ t hr
  obtain ⟨hI1, hcnt, hsz, _⟩ := hash_table.put_true_size t env k v t1 hI hp
  have hle := hash_table.base_load_le_nat t hI
  have hle1 := hash_table.base_load_le_nat t1 hI1
  have hs1 := doubling_list.size_of_wf hI1.wf
  have hprev : t1.count - 1 = t.count := by rw [hcnt]; omega
  refine ⟨_, hs1, ?_, hle1⟩
  rw [hprev]
  rw [hs1] at hsz
  injection hsz with hsz
  rw [hsz]
  by_cases hgr : to_size_t t.count / 2 ^ (t.buckets_.num_populated_buckets_ - 1) > MAX_LOAD
  · rw [if_pos hgr]
    unfold MAX_LOAD
    apply Nat.le_of_lt_succ
    have hpos : 0 < 2 ^ (t.buckets_.num_populated_buckets_ - 1) := Nat.pow_pos (by decide)
    rw [Nat.div_lt_iff_lt_mul (by omega)]
    omega
  · rw [if_neg hgr]
    exact Nat.not_lt.1 hgr

/-- C7, witness: the 11th put on a fresh table. -/
theorem C7_witness :
    (clean_after Nat (puts [1, 2, 3, 4, 5, 6, 7, 8, 9, 10])).put environment.clean 11 11 =
      .ok (true, clean_after Nat (puts [1, 2, 3, 4, 5, 6, 7, 8, 9, 10, 11])) ∧
    ∃ s, (clean_after Nat (puts [1, 2, 3, 4, 5, 6, 7, 8, 9, 10, 11])).buckets_.size = .ok s ∧
      to_size_t ((clean_after Nat (puts [1, 2, 3, 4, 5, 6, 7, 8, 9, 10, 11])).count - 1) / s
        ≤ MAX_LOAD ∧
      to_size_t (clean_after Nat (puts [1, 2, 3, 4, 5, 6, 7, 8, 9, 10, 11])).count ≤
        (MAX_LOAD + 1) * s :=
  ⟨by decide,
    C7_load_bound_after_put Nat (clean_after Nat (puts [1, 2, 3, 4, 5, 6, 7, 8, 9, 10]))
      (clean_run_reachable environment.any trivial (puts [1, 2, 3, 4, 5, 6, 7, 8, 9, 10])
        (List.replicate 10 (.put true)) _ (by decide))
      environment.clean 11 11
      (clean_after Nat (puts [1, 2, 3, 4, 5, 6, 7, 8, 9, 10, 11])) (by decide)⟩

end splitordered

/-! ## Bit reversal of the low bits -/

namespace splitordered

theorem reverse_bits_mod (k x : Nat) : reverse_bits k (x % 2 ^ k) = reverse_bits k x := by
  induction k generalizing x with
  | zero => rfl
  | succ k ih =>
    have h1 : x % 2 ^ (k + 1) % 2 = x % 2 := by
      have : (2 : Nat) ^ (k + 1) = 2 * 2 ^ k := by rw [pow_succ]; omega
      rw [this, Nat.mod_mul_right_mod]
    have h2 : x % 2 ^ (k + 1) / 2 = (x / 2) % 2 ^ k := by
      have : (2 : Nat) ^ (k + 1) = 2 * 2 ^ k := by rw [pow_succ]; omega
      rw [this, Nat.mod_mul_right_div_self]
    simp only [reverse_bits]
    rw [h1, h2, ih]

theorem reverse_bits_split (k : Nat) : ∀ (m x : Nat),
    reverse_bits (k + m) x = reverse_bits k x * 2 ^ m + reverse_bits m (x / 2 ^ k) := by
  induction k with
  | zero =>
    intro m x
    simp [reverse_bits]
  | succ k ih =>
    intro m x
    have e : k + 1 + m = (k + m) + 1 := by omega
    rw [e]
    simp only [reverse_bits]
    rw [ih m (x / 2), Nat.div_div_eq_div_mul, Nat.add_mul, Nat.mul_assoc, ← pow_add]
    have e2 : (2 : Nat) ^ (k + 1) = 2 * 2 ^ k := by rw [pow_succ]; omega
    rw [e2]
    omega

theorem dummykey_split (k c : Nat) (hk : k ≤ 64) (hc : c < 2 ^ k) :
    dummykey c = reverse_bits k c * 2 ^ (64 - k) := by
  unfold dummykey REVERSE
  have e : 64 = k + (64 - k) := by omega
  conv => lhs; rw [e]
  rw [reverse_bits_split k (64 - k) c, Nat.div_eq_of_lt hc, reverse_bits_zero, Nat.add_zero]

theorem regularkey_split (k h : Nat) (hk : k ≤ 63) (hh : h < 2 ^ 63) :
    ∃ r, r < 2 ^ (64 - k) ∧
      regularkey h = reverse_bits k (h % 2 ^ k) * 2 ^ (64 - k) + r := by
  refine ⟨reverse_bits (64 - k) ((2 ^ 63 + h) / 2 ^ k), reverse_bits_lt _ _, ?_⟩
  unfold regularkey REVERSE
  rw [or_MSB h hh]
  have e : 64 = k + (64 - k) := by omega
  conv => lhs; rw [e]
  rw [reverse_bits_split k (64 - k) (2 ^ 63 + h)]
  congr 2
  rw [← reverse_bits_mod k (2 ^ 63 + h)]
  congr 1
  have hd : (2 : Nat) ^ 63 = 2 ^ k * 2 ^ (63 - k) := by
    rw [← pow_add]; congr 1; omega
  rw [hd, Nat.mul_add_mod]

end splitordered

/-! ## Properties: the split order -/

namespace splitordered

/-- C12: for every table size `2 ^ k` with `1 <= k <= 31` and every scrambled
key `h < 2 ^ 63`, the dummy key of the bucket of `h` is strictly smaller than
the regular key of `h`; the dummy key has low bit 0 and the regular key low
bit 1, so that they differ. -/
theorem C12_dummykey_lt_regularkey (k h : Nat) (hk1 : 1 ≤ k) (hk2 : k ≤ 31) (hh : h < 2 ^ 63) :
    dummykey (h % 2 ^ k) < regularkey h ∧
    dummykey (h % 2 ^ k) = REVERSE (h % 2 ^ k) ∧ regularkey h = REVERSE (h ||| MSB) ∧
    dummykey (h % 2 ^ k) % 2 = 0 ∧ regularkey h % 2 = 1 ∧
    (∀ c, c < 2 ^ k → dummykey c % 2 = 0 ∧ dummykey c ≠ regularkey h) := by
  have hb : h % 2 ^ k < 2 ^ k := Nat.mod_lt _ (Nat.pow_pos (by decide))
  have hle : (2 : Nat) ^ k ≤ 2 ^ 31 := Nat.pow_le_pow_right (by decide) hk2
  have hodd := regularkey_odd h hh
  refine ⟨dummykey_lt_regularkey h k hh (by omega), rfl, rfl,
    dummykey_even _ (by omega), hodd, ?_⟩
  intro c hc
  have hev := dummykey_even c (by omega)
  exact ⟨hev, fun h => by omega⟩

/-- C12, witness: table size 4 and the scrambled key 6, of bucket 2. -/
theorem C12_witness :
    dummykey (6 % 2 ^ 2) < regularkey 6 ∧ dummykey (6 % 2 ^ 2) % 2 = 0 ∧
      regularkey 6 % 2 = 1 :=
  ⟨(C12_dummykey_lt_regularkey 2 6 (by decide) (by decide) (by decide)).1,
    (C12_dummykey_lt_regularkey 2 6 (by decide) (by decide) (by decide)).2.2.2.1,
    (C12_dummykey_lt_regularkey 2 6 (by decide) (by decide) (by decide)).2.2.2.2.1⟩

/-- C13: for every `k` in 0..63 and every `b` with `2 ^ k <= b < 2 ^ (k + 1)`,
`get_parent(b)` is `b - 2 ^ k`, which is `b mod 2 ^ k` and is below `b`; and
`get_parent(0)` is 0. -/
theorem C13_get_parent_clears_highest_bit (k b : Nat) (hk : k ≤ 63) (h1 : 2 ^ k ≤ b)
    (h2 : b < 2 ^ (k + 1)) :
    get_parent b = b - 2 ^ k ∧ get_parent b = b % 2 ^ k ∧ get_parent b < b ∧
      get_parent 0 = 0 := by
  have hp := get_parent_eq b k (by omega) h1 h2
  have hpos : 0 < 2 ^ k := Nat.pow_pos (by decide)
  have e : (2 : Nat) ^ (k + 1) = 2 * 2 ^ k := by rw [pow_succ]; omega
  have hm : b % 2 ^ k = b - 2 ^ k := by
    rw [Nat.mod_eq_sub_mod h1, Nat.mod_eq_of_lt (by omega)]
  refine ⟨by rw [hp, hm], hp, by rw [hp, hm]; omega, by decide⟩

/-- C13, witness: the parent of bucket 6 is bucket 2. -/
theorem C13_witness : get_parent 6 = 6 - 2 ^ 2 ∧ get_parent 6 = 2 ∧ get_parent 6 < 6 :=
  ⟨(C13_get_parent_clears_highest_bit 2 6 (by decide) (by decide) (by decide)).1,
    (C13_get_parent_clears_highest_bit 2 6 (by decide) (by decide) (by decide)).2.1,
    (C13_get_parent_clears_highest_bit 2 6 (by decide) (by decide) (by decide)).2.2.1⟩

/-- C15: for every table size `2 ^ k` with `1 <= k <= 31`, every scrambled key
`h < 2 ^ 63` and every bucket `c < 2 ^ k`: when the dummy key of `c` is above
the dummy key of the bucket of `h` it is above the regular key of `h`, and when
it is below the dummy key of the bucket of `h` it is below the regular key of
`h`. -/
theorem C15_bucket_locality (k h c : Nat) (hk1 : 1 ≤ k) (hk2 : k ≤ 31) (hh : h < 2 ^ 63)
    (hc : c < 2 ^ k) :
    (dummykey c > dummykey (h % 2 ^ k) → regularkey h < dummykey c) ∧
    (dummykey c < dummykey (h % 2 ^ k) → dummykey c < regularkey h) := by
  have hb : h % 2 ^ k < 2 ^ k := Nat.mod_lt _ (Nat.pow_pos (by decide))
  have hlt := dummykey_lt_regularkey h k hh (by omega)
  obtain ⟨r, hr, hreg⟩ := regularkey_split k h (by omega) hh
  have hdb := dummykey_split k (h % 2 ^ k) (by omega) hb
  have hdc := dummykey_split k c (by omega) hc
  constructor
  · intro hgt
    rw [hdb, hdc] at hgt
    have h1 : reverse_bits k (h % 2 ^ k) < reverse_bits k c := Nat.lt_of_mul_lt_mul_right hgt
    have h2 : (reverse_bits k (h % 2 ^ k) + 1) * 2 ^ (64 - k) ≤
        reverse_bits k c * 2 ^ (64 - k) := Nat.mul_le_mul_right _ h1
    rw [Nat.add_mul, Nat.one_mul] at h2
    rw [hreg, hdc]
    omega
  · intro hlt2
    omega

/-- C15, witness: table size 4, the scrambled key 5 of bucket 1 and the
buckets 3 and 2. -/
theorem C15_witness :
    dummykey 3 > dummykey (5 % 2 ^ 2) ∧ regularkey 5 < dummykey 3 ∧
    dummykey 2 < dummykey (5 % 2 ^ 2) ∧ dummykey 2 < regularkey 5 :=
  ⟨by decide,
    (C15_bucket_locality 2 5 3 (by decide) (by decide) (by decide) (by decide)).1 (by decide),
    by decide,
    (C15_bucket_locality 2 5 2 (by decide) (by decide) (by decide) (by decide)).2 (by decide)⟩

/-- C16: for every `k` in 0..30 and every bucket `b` with
`2 ^ k <= b < 2 ^ (k + 1)`, the dummy key of `get_parent(b)` is below the dummy
key of `b`, and no bucket `c < 2 ^ (k + 1)` has its dummy key strictly between
the two. -/
theorem C16_parent_dummy_immediate_predecessor (k b : Nat) (hk : k ≤ 30) (h1 : 2 ^ k ≤ b)
    (h2 : b < 2 ^ (k + 1)) :
    dummykey (get_parent b) < dummykey b ∧
    ¬ ∃ c, c < 2 ^ (k + 1) ∧ dummykey (get_parent b) < dummykey c ∧
      dummykey c < dummykey b := by
  have hlt := dummykey_parent_lt b k (by omega) h1 h2
  refine ⟨hlt, ?_⟩
  rintro ⟨c, hc, hc1, hc2⟩
  have hp := get_parent_eq b k (by omega) h1 h2
  have hpos : 0 < 2 ^ k := Nat.pow_pos (by decide)
  have e : (2 : Nat) ^ (k + 1) = 2 * 2 ^ k := by rw [pow_succ]; omega
  have hpk : b % 2 ^ k < 2 ^ k := Nat.mod_lt _ hpos
  rw [hp] at hc1
  rw [dummykey_split (k + 1) c (by omega) hc] at hc1 hc2
  rw [dummykey_split (k + 1) b (by omega) h2] at hc2
  rw [dummykey_split (k + 1) (b % 2 ^ k) (by omega) (by omega)] at hc1
  have g1 := Nat.lt_of_mul_lt_mul_right hc1
  have g2 := Nat.lt_of_mul_lt_mul_right hc2
  simp only [reverse_bits_succ] at g1 g2
  rw [reverse_bits_mod k b] at g1
  have d1 : b % 2 ^ k / 2 ^ k = 0 := Nat.div_eq_of_lt hpk
  have d2 : b / 2 ^ k = 1 := by
    apply Nat.div_eq_of_lt_le <;> omega
  rw [d1] at g1
  rw [d2] at g2
  omega

/-- C16, witness: bucket 6, whose parent is bucket 2. -/
theorem C16_witness :
    dummykey (get_parent 6) < dummykey 6 ∧
    ¬ ∃ c, c < 2 ^ (2 + 1) ∧ dummykey (get_parent 6) < dummykey c ∧ dummykey c < dummykey 6 :=
  C16_parent_dummy_immediate_predecessor 2 6 (by decide) (by decide) (by decide)

end splitordered

/-! ## Properties: slots, count and population -/

namespace splitordered

namespace hash_table

variable {V : Type} [Inhabited V]

theorem slot_invariant (t : hash_table V) (hr : reachable environment.zeroed t) :
    ∀ s i v, t.buckets_.size = .ok s → i < s → t.buckets_.load i = .ok v →
      v = UNINITIALIZED ∨
        (MARK_OF v = 0 ∧ ∃ e ∈ t.nodes, e.addr = PTR_OF v ∧ e.key = dummykey i ∧
          dummykey i = REVERSE i) := by
  have hI := hash_table.reachable_Inv t hr
  have hsz := doubling_list.size_of_wf hI.wf
  intro s i v hs hi hv
  rw [hsz] at hs
  have hs1 := Except.ok.inj hs
  subst hs1
  have hi31 := doubling_list.lt_size_lt hI.wf i hi
  by_cases hv0 : v = UNINITIALIZED
  · exact Or.inl hv0
  · obtain ⟨_, e, he, hea, hek⟩ := hI.slot i v hi31 hv hv0
    have hev : v % 2 = 0 := by rw [← hea]; exact (hI.addr e he).1
    refine Or.inr ⟨hev, e, he, ?_, hek, rfl⟩
    rw [PTR_OF_even v hev]
    exact hea

theorem slot_kept (t : hash_table V) (ok : environment → Prop) (hr : reachable ok t)
    (env : environment) (c : call V) (a : answer V) (t1 : hash_table V)
    (hs : t.step env c = .ok (a, t1)) :
    ∀ s i v, t.buckets_.size = .ok s → i < s → t.buckets_.load i = .ok v →
      v ≠ UNINITIALIZED → t1.buckets_.load i = .ok v := by
  have hI := reachable_base ok t hr
  intro s i v hsz hi hv hv0
  rw [doubling_list.size_of_wf hI.wf] at hsz
  have hs1 := Except.ok.inj hsz
  subst hs1
  exact (step_base t env c hI a t1 hs).2.2 i v (doubling_list.lt_size_lt hI.wf i hi) hv hv0

end hash_table

/-- C17: on a block that holds the word 8, slot 1 of the fresh table, which
is below the size 2, holds the word 8: it is not `UNINITIALIZED`, and no node
of the list has the address the word points to.  After the puts of the keys 1
to 11 on a fresh table on blocks of `UNINITIALIZED` words the size is 4 and
slot 2, which is below the size, lies outside its segment: reading it neither
gives `UNINITIALIZED` nor a pointer to a dummy. -/
theorem C17_slot_neither_uninitialized_nor_dummy :
    hash_table.new Nat (environment.stale 8) =
      .ok (hash_table.after Nat (environment.stale 8) []) ∧
    (hash_table.after Nat (environment.stale 8) []).buckets_.size = .ok 2 ∧
    (hash_table.after Nat (environment.stale 8) []).buckets_.load 1 = .ok 8 ∧
    (8 : marked_ptr_t) ≠ UNINITIALIZED ∧
    (∀ e ∈ (hash_table.after Nat (environment.stale 8) []).nodes, e.addr ≠ PTR_OF 8) ∧
    (clean_run Nat (puts [1, 2, 3, 4, 5, 6, 7, 8, 9, 10, 11])).map Prod.fst =
      .ok (List.replicate 11 (.put true)) ∧
    (clean_after Nat (puts [1, 2, 3, 4, 5, 6, 7, 8, 9, 10, 11])).buckets_.size = .ok 4 ∧
    (clean_after Nat (puts [1, 2, 3, 4, 5, 6, 7, 8, 9, 10, 11])).buckets_.load 2 =
      .error .out_of_bounds := by
  decide

/-- C20: in every state reached from a fresh table, whatever words the
allocated blocks hold, `size()` is a power of two `2 ^ k` with `k >= 1`, so at
least 2, and `count <= (MAX_LOAD + 1) * size()`; a `put` that returns `true`
has doubled the size exactly when the count it found is at least
`5 * size()`; a `put` stops at its assertion only when the count it found is
at least `5 * size()` and its compare-and-swap failed; `double_size` with a
compare-and-swap that succeeds doubles the size below `2 ^ 30` buckets; and no
call lowers the size. -/
theorem C20_population_bound (V : Type) [Inhabited V] (t : hash_table V)
    (hr : hash_table.reachable environment.any t) :
    ∃ k, 1 ≤ k ∧ t.buckets_.size = .ok (2 ^ k) ∧ 2 ≤ 2 ^ k ∧
      t.count ≤ (((MAX_LOAD + 1) * 2 ^ k : Nat) : Int) ∧
      to_size_t t.count ≤ 5 * 2 ^ k ∧
      (∀ env key v t1, t.put env key v = .ok (true, t1) →
        t1.buckets_.size = .ok (if 5 * 2 ^ k ≤ to_size_t t.count then 2 * 2 ^ k else 2 ^ k)) ∧
      (∀ env key v, t.put env key v = .error .assertion →
        5 * 2 ^ k ≤ to_size_t t.count ∧ env.cas = false) ∧
      (∀ env : environment, env.cas = true → 2 ^ k < 2 ^ 30 →
        ∃ dl, t.buckets_.double_size env (2 ^ k) = .ok (2 * 2 ^ k, dl) ∧
          dl.size = .ok (2 * 2 ^ k)) ∧
      (∀ env c a t1, t.step env c = .ok (a, t1) →
        ∃ k1, k ≤ k1 ∧ t1.buckets_.size = .ok (2 ^ k1)) := by
  have hI := hash_table.reachable_base _ t hr
  have h2 := hI.wf.two_le
  have hle := hash_table.base_load_le_nat t hI
  have hpos : 0 < 2 ^ (t.buckets_.num_populated_buckets_ - 1) := Nat.pow_pos (by decide)
  have hiff : 5 * 2 ^ (t.buckets_.num_populated_buckets_ - 1) ≤ to_size_t t.count ↔
      to_size_t t.count / 2 ^ (t.buckets_.num_populated_buckets_ - 1) > MAX_LOAD := by
    unfold MAX_LOAD
    show _ ↔ 5 ≤ _
    rw [Nat.le_div_iff_mul_le hpos]
  refine ⟨t.buckets_.num_populated_buckets_ - 1, by omega, doubling_list.size_of_wf hI.wf, ?_,
    ?_, hle, ?_, ?_, ?_, ?_⟩
  · calc 2 = 2 ^ 1 := rfl
      _ ≤ 2 ^ (t.buckets_.num_populated_buckets_ - 1) :=
        Nat.pow_le_pow_right (by decide) (by omega)
  · have := hI.load_le
    unfold MAX_LOAD
    push_cast
    exact this
  · intro env key v t1 hp
    obtain ⟨_, _, hsz, _⟩ := hash_table.put_true_size t env key v t1 hI hp
    rw [hsz]
    by_cases h5 : 5 * 2 ^ (t.buckets_.num_populated_buckets_ - 1) ≤ to_size_t t.count
    · rw [if_pos h5, if_pos (hiff.1 h5)]
    · rw [if_neg h5, if_neg (fun hc => h5 (hiff.2 hc))]
  · intro env key v hp
    obtain ⟨h1, h3⟩ := hash_table.put_assertion_base t env key v hI hp
    exact ⟨hiff.2 h1, h3⟩
  · intro env hcas hlt
    have hle31 := hI.wf.le
    have hn : t.buckets_.num_populated_buckets_ < 31 := by
      by_contra hc
      have h31 : t.buckets_.num_populated_buckets_ = 31 := by omega
      rw [h31] at hlt
      exact absurd hlt (by decide)
    have hpow : 2 * 2 ^ (t.buckets_.num_populated_buckets_ - 1) =
        2 ^ t.buckets_.num_populated_buckets_ := by
      rw [mul_comm, ← pow_succ, Nat.sub_add_cancel (by omega)]
    refine ⟨{ num_populated_buckets_ := t.buckets_.num_populated_buckets_ + 1,
              buckets_ := t.buckets_.buckets_.set t.buckets_.num_populated_buckets_
                (some (new_array_on env.fresh
                  (2 ^ (t.buckets_.num_populated_buckets_ - 1)))) }, ?_, ?_⟩
    · rw [doubling_list.double_size_grow env hI.wf hn hcas, hpow]
    · rw [doubling_list.size_of_wf (doubling_list.grow_wf hI.wf hn _
        (doubling_list.new_array_on_length _ _)), hpow]
      rfl
  · intro env c a t1 hs
    obtain ⟨hI1, hn, _⟩ := hash_table.step_base t env c hI a t1 hs
    exact ⟨t1.buckets_.num_populated_buckets_ - 1, by omega, doubling_list.size_of_wf hI1.wf⟩

/-- C20, witness: after the puts of the keys 1 to 10 on a fresh table the size
is 2 and `count` is 10, which is `5 * size()`, and the 11th put returns `true`
and doubles the size to 4. -/
theorem C20_witness :
    clean_run Nat (puts [1, 2, 3, 4, 5, 6, 7, 8, 9, 10]) =
      .ok (List.replicate 10 (.put true),
        clean_after Nat (puts [1, 2, 3, 4, 5, 6, 7, 8, 9, 10])) ∧
    (clean_after Nat (puts [1, 2, 3, 4, 5, 6, 7, 8, 9, 10])).buckets_.size = .ok 2 ∧
    (clean_after Nat (puts [1, 2, 3, 4, 5, 6, 7, 8, 9, 10])).count = 10 ∧
    (clean_after Nat (puts [1, 2, 3, 4, 5, 6, 7, 8, 9, 10])).put environment.clean 11 11 =
      .ok (true, clean_after Nat (puts [1, 2, 3, 4, 5, 6, 7, 8, 9, 10, 11])) ∧
    (clean_after Nat (puts [1, 2, 3, 4, 5, 6, 7, 8, 9, 10, 11])).buckets_.size = .ok 4 ∧
    ∃ k, 1 ≤ k ∧
      (clean_after Nat (puts [1, 2, 3, 4, 5, 6, 7, 8, 9, 10])).buckets_.size = .ok (2 ^ k) ∧
      2 ≤ 2 ^ k ∧
      (clean_after Nat (puts [1, 2, 3, 4, 5, 6, 7, 8, 9, 10])).count ≤
        (((MAX_LOAD + 1) * 2 ^ k : Nat) : Int) ∧
      (clean_after Nat (puts [1, 2, 3, 4, 5, 6, 7, 8, 9, 10, 11])).buckets_.size =
        .ok (if 5 * 2 ^ k ≤
            to_size_t (clean_after Nat (puts [1, 2, 3, 4, 5, 6, 7, 8, 9, 10])).count
          then 2 * 2 ^ k else 2 ^ k) :=
  ⟨by decide, by decide, by decide, by decide, by decide,
    match C20_population_bound Nat (clean_after Nat (puts [1, 2, 3, 4, 5, 6, 7, 8, 9, 10]))
      (clean_run_reachable environment.any trivial (puts [1, 2, 3, 4, 5, 6, 7, 8, 9, 10])
        (List.replicate 10 (.put true)) _ (by decide)) with
    | ⟨k, h1, h2, h3, h4, _, h6, _⟩ =>
      ⟨k, h1, h2, h3, h4, h6 environment.clean 11 11
        (clean_after Nat (puts [1, 2, 3, 4, 5, 6, 7, 8, 9, 10, 11])) (by decide)⟩⟩

end splitordered

/-! ## Properties: bucket initialisation -/

namespace splitordered

set_option maxRecDepth 100000 in
/-- C19: after the puts of 41 keys on a fresh table, which all return `true`,
the size is 16 and the slot of bucket 10 holds `UNINITIALIZED`;
`initialize_bucket(10)` reads the slot of the parent bucket 2, which is offset
1 of segment 1, a segment of one slot: it reads outside the segment instead of
publishing bucket 10. -/
theorem C19_initialize_bucket_reads_outside_segment :
    (clean_run Nat (puts grow_keys)).map Prod.fst =
      .ok (List.replicate 41 (.put true)) ∧
    (clean_after Nat (puts grow_keys)).buckets_.size = .ok 16 ∧
    (clean_after Nat (puts grow_keys)).buckets_.load 10 = .ok UNINITIALIZED ∧
    get_parent 10 = 2 ∧ doubling_list.locate 2 = .ok (1, 1) ∧
    doubling_list.capacity 1 = 1 ∧
    (clean_after Nat (puts grow_keys)).buckets_.load 2 = .error .out_of_bounds ∧
    hash_table.initialize_bucket 65 (clean_after Nat (puts grow_keys)) 10 =
      .error .out_of_bounds := by
  decide

end splitordered

/-! ## Properties: allocation and interleaving -/

namespace splitordered

namespace doubling_list

theorem run_alone_succ (env : environment) (e fuel : Nat) (dl : doubling_list) (p : pc) :
    run_alone env e (fuel + 1) dl p =
      (thread_step env e dl p >>= fun q => run_alone env e fuel q.1 q.2) := rfl

theorem run_alone_returned (env : environment) (e d : Nat) (dl : doubling_list) (fuel : Nat) :
    run_alone env e fuel dl (.returned d) = .ok (dl, .returned d) := by
  induction fuel with
  | zero => rfl
  | succ fuel ih =>
    rw [run_alone_succ]
    show (Except.ok (dl, pc.returned d) >>= _) = _
    rw [bind_ok]
    exact ih

theorem run_alone_size (env : environment) (e fuel : Nat) (dl : doubling_list) (p : pc)
    (hp : thread_step env e dl p = (dl.size >>= fun sz => .ok (dl, .returned sz))) :
    run_alone env e (fuel + 1) dl p = dl.size.map (fun sz => (dl, pc.returned sz)) := by
  rw [run_alone_succ, hp]
  cases hs : dl.size with
  | error x => rfl
  | ok sz =>
    rw [bind_ok, bind_ok]
    exact run_alone_returned env e sz dl fuel

theorem run_alone_eq (env : environment) (dl : doubling_list) (expected_size : Nat) :
    run_alone env expected_size 4 dl .start =
      (dl.double_size env expected_size).map (fun p => (p.2, pc.returned p.1)) := by
  have hsz : dl.size = shl_int (pred_u32 dl.num_populated_buckets_) := rfl
  rw [run_alone_succ]
  show (Except.ok (dl, pc.loaded dl.num_populated_buckets_) >>= _) = _
  rw [bind_ok, run_alone_succ]
  unfold double_size
  show ((shl_int (pred_u32 dl.num_populated_buckets_) >>= _) >>= _) = Except.map _
    (shl_int (pred_u32 dl.num_populated_buckets_) >>= _)
  cases hs : shl_int (pred_u32 dl.num_populated_buckets_) with
  | error x => rfl
  | ok s =>
    rw [bind_ok, bind_ok]
    by_cases he : expected_size = s
    · simp only [if_pos he]
      cases hb : dl.buckets_[dl.num_populated_buckets_]? with
      | none => rfl
      | some seg =>
        cases seg with
        | none =>
          cases hcas : env.cas with
          | true =>
            simp only [bind_ok, if_true]
            rw [run_alone_succ]
            show (Except.ok ((⟨(dl.num_populated_buckets_ + 1) % 2 ^ 32,
              dl.buckets_.set dl.num_populated_buckets_ (some (new_array_on env.fresh s))⟩ :
                doubling_list),
              pc.added) >>= _) = _
            rw [bind_ok]
            simp only []
            rw [run_alone_size env expected_size 0 _ pc.added rfl]
            cases hs1 : (⟨(dl.num_populated_buckets_ + 1) % 2 ^ 32,
              dl.buckets_.set dl.num_populated_buckets_ (some (new_array_on env.fresh s))⟩ :
                doubling_list).size with
            | error x => rfl
            | ok sz => rfl
          | false =>
            simp only [bind_ok, Bool.false_eq_true, if_false]
            rw [run_alone_size env expected_size 1 dl pc.lost rfl, hsz, hs]
            rfl
        | some seg1 =>
          simp only [bind_ok]
          rw [run_alone_size env expected_size 1 dl pc.lost rfl, hsz, hs]
          rfl
    · simp only [if_neg he, bind_ok]
      rw [run_alone_size env expected_size 1 dl pc.skipped rfl, hsz, hs]
      rfl

end doubling_list

/-- C11: on a block that holds the word 8 the constructor leaves slot 1 with
the word 8, which is not `UNINITIALIZED`, and `double_size` publishes a segment
whose slots hold the words of the block: in every environment slot 1 of the
fresh list and of the fresh table, and the slots of the segment that
`double_size` publishes, hold the words the allocated block held. -/
theorem C11_fresh_slots_hold_block_words :
    (doubling_list.new (environment.stale 8)).load 1 = .ok 8 ∧
    (8 : marked_ptr_t) ≠ UNINITIALIZED ∧
    ((doubling_list.new environment.clean).double_size
        { fresh := fun j => 2 * j + 6, cas := true } 2).bind
      (fun p => p.2.load 3) = .ok 6 ∧
    (∀ env : environment, (doubling_list.new env).load 1 = .ok (env.fresh 1)) ∧
    (∀ env : environment,
      (hash_table.new Nat env).bind (fun t => t.buckets_.load 1) = .ok (env.fresh 1)) ∧
    (∀ (env : environment) (fresh : Nat → marked_ptr_t),
      ((doubling_list.new env).double_size { fresh := fresh, cas := true } 2).map
          (fun p => (p.2.load 3, p.2.load 4)) =
        .ok (.ok (fresh 0), .ok (fresh 1))) := by
  refine ⟨by decide, by decide, by decide, fun _ => rfl, fun _ => rfl, fun _ _ => rfl⟩

/-- C14: two threads call `double_size(2)` on a list of size 2.  The second
thread loads the counter and wins the compare-and-swap on `buckets_[2]`; before
it increments the counter the first thread loads the counter, loses the
compare-and-swap and returns `size()`, which is still 2: the condition
`dsize >= csize * 2` of the assertion in `put` is false for it.  The second
thread then increments the counter and returns 4, and one segment is
published. -/
theorem C14_losing_thread_returns_old_size :
    doubling_list.interleave environment.clean environment.clean 2 2
        (doubling_list.new environment.clean, .start, .start) [false, false, true, true] =
      .ok ({ num_populated_buckets_ := 2,
             buckets_ := (doubling_list.new environment.clean).buckets_.set 2
               (some (new_array_on environment.clean.fresh 2)) }, .lost, .won) ∧
    doubling_list.interleave environment.clean environment.clean 2 2
        (doubling_list.new environment.clean, .start, .start)
        [false, false, true, true, true] =
      .ok ({ num_populated_buckets_ := 2,
             buckets_ := (doubling_list.new environment.clean).buckets_.set 2
               (some (new_array_on environment.clean.fresh 2)) },
        .returned 2, .won) ∧
    put_assertion 2 2 = false ∧
    doubling_list.interleave environment.clean environment.clean 2 2
        (doubling_list.new environment.clean, .start, .start)
        [false, false, true, true, true, false, false] =
      .ok (doubling_list.grown 1, .returned 2, .returned 4) ∧
    (∀ env dl e, doubling_list.run_alone env e 4 dl .start =
      (dl.double_size env e).map (fun p => (p.2, doubling_list.pc.returned p.1))) := by
  refine ⟨by decide, by decide, by decide, by decide, doubling_list.run_alone_eq⟩

end splitordered
